import Mathlib

/-! # emptyFolderNuker: the recursive emptiness / deletion evaluator -/

/-!
A shallow embedding of `nukeEmptyRecursive` from `src/main.cpp`, and the
properties of it stated in the specification.

The file system is a finite tree of entries (`Node`).  Everything the code asks of
the file system is answered by the tree itself:

* the entries of a directory are listed in the order `fs::directory_iterator`
  yields them;
* every directory carries the outcome of the four file-system requests the code
  can make about it (`DirAttrs`): the type check in the parent's loop (line 52),
  the existence / type check on entry (line 40), the iteration over its entries
  (line 51) and `fs::remove` (line 98).  Each of them may succeed or raise
  `fs::filesystem_error`; the check of line 40 may also find the path gone, and
  `fs::remove` may return `false`;
* `fs::remove` on a directory that still has entries on disk raises, as `rmdir`
  does.

Standard input is the list of lines still to be read.  A call returns (`Res`)
its C++ result, `none` when a `filesystem_error` leaves the call; the ordered log
of what it did (`Event`); the unread input; and what is left of the directory on
disk.  The log records every call, return and exception of `nukeEmptyRecursive`
and every line written or request made, each with the path it is about; what is
written to `std::cout` is read off the log by `stdoutOf`.

A path is the list of its components.  Several properties speak of "the
directory at path `p`": they assume `Node.distinctNames`, that no directory has
two entries of the same name, as in any file system.

`int` is modelled by `Int`; the only arithmetic is `current_depth + 1`, which
would need a nesting of `2^31 - 1` directories to leave the range of `int`.
-/

namespace EmptyFolderNuker

/-! ## Data model -/

/-- Largest `int`, the default of `Opt::max_depth` ("unbounded"). -/
def INT_MAX : Int := 2147483647

/-- A path, as the list of its components below (and including) the scan root. -/
abbrev Path := List String

/-- The struct `Opt` (lines 9-17). -/
structure Opt where
  target_dir_str : String
  target_dir_path : Path
  dry_run : Bool
  verbose : Bool
  interactive : Bool
  min_depth : Int
  max_depth : Int
deriving DecidableEq, Repr

/-- Outcome of `!fs::exists(p) || !fs::is_directory(p)` on entry to the call (line 40). -/
inductive Probe where
  /-- The path exists and is a directory. -/
  | ok
  /-- The path is gone or is no directory: the condition of line 40 holds. -/
  | absent
  /-- The status request raises `fs::filesystem_error`. -/
  | raises
deriving DecidableEq, Repr

/-- Outcome of `fs::remove(dir_path)` on a directory without entries (line 98). -/
inductive RemoveOutcome where
  /-- Returns `true`: the directory was removed. -/
  | removed
  /-- Returns `false`: nothing was removed. -/
  | notRemoved
  /-- Raises `fs::filesystem_error`. -/
  | raises
deriving DecidableEq, Repr

/-- What the file system answers about one directory. -/
structure DirAttrs where
  /-- Line 52, `fs::is_directory(entry.path())` in the parent's loop, raises. -/
  typeCheckRaises : Bool
  /-- Line 40, the check on entry to the call on this directory. -/
  probe : Probe
  /-- Line 51: `none` when the iteration over the entries completes, `some k`
  when it raises after having yielded `k` entries (or all of them, if fewer). -/
  listingRaisesAfter : Option Nat
  /-- Line 98: what `fs::remove` does once the directory has no entries. -/
  rm : RemoveOutcome
deriving DecidableEq, Repr

/-- A directory on which every file-system request succeeds. -/
def DirAttrs.fine : DirAttrs := ⟨false, .ok, none, .removed⟩

/-- An entry of the tree: a non-directory (`fs::is_directory` is false) or a
directory with its entries in listing order. -/
inductive Node where
  | file (name : String)
  | dir (name : String) (attrs : DirAttrs) (children : List Node)
deriving Repr

/-- Name of an entry: the last component of `entry.path()`. -/
def Node.name : Node → String
  | .file n => n
  | .dir n _ _ => n

/-- Value of `fs::is_directory(entry.path())` when it returns. -/
def Node.isDir : Node → Bool
  | .file _ => false
  | .dir _ _ _ => true

/-- Line 52 raises for this entry. -/
def Node.typeCheckRaises : Node → Bool
  | .file _ => false
  | .dir _ a _ => a.typeCheckRaises

/-- What the call did, in order.  `call`, `ret` and `throw` record the control
flow of `nukeEmptyRecursive`; the others are its effects, by source line. -/
inductive Event where
  /-- Entry into `nukeEmptyRecursive(p, opts, depth)`. -/
  | call (p : Path) (depth : Int)
  /-- The call on `p` returns `b`. -/
  | ret (p : Path) (b : Bool)
  /-- A `filesystem_error` leaves the call on `p` (raised at line 40). -/
  | throw (p : Path)
  /-- Line 42: "Warn: Path is not a dir or doesnt exist" on `cerr`. -/
  | warnNotDir (p : Path)
  /-- Line 68: "Err accessing dir" on `cerr`. -/
  | errAccess (p : Path)
  /-- Lines 77-79: the prompt on `cout` and the line read from `cin`. -/
  | prompt (p : Path) (response_str : String)
  /-- Line 87: "Skipped (interactive)" on `cout`. -/
  | skipped (p : Path)
  /-- Line 94: "[DRY RUN] Would delete empty dir" on `cout`. -/
  | wouldDelete (p : Path)
  /-- Line 98: `fs::remove(p)` is invoked, with its outcome. -/
  | remove (p : Path) (o : RemoveOutcome)
  /-- Lines 100/102: the line on `cout` after a successful removal. -/
  | deleted (p : Path)
  /-- Line 106: "Warn: Failed to delete (or already gone?)" on `cerr`. -/
  | warnRemove (p : Path)
  /-- Line 111: "Err deleting dir" on `cerr`. -/
  | errRemove (p : Path)
deriving DecidableEq, Repr

/-- The directory an event is about. -/
def Event.path : Event → Path
  | .call p _ => p
  | .ret p _ => p
  | .throw p => p
  | .warnNotDir p => p
  | .errAccess p => p
  | .prompt p _ => p
  | .skipped p => p
  | .wouldDelete p => p
  | .remove p _ => p
  | .deleted p => p
  | .warnRemove p => p
  | .errRemove p => p

/-- Result of one call of `nukeEmptyRecursive`. -/
structure Res where
  /-- The returned `bool`; `none` when an exception leaves the call. -/
  ret : Option Bool
  /-- What happened during the call, in order. -/
  trace : List Event
  /-- Lines of standard input not yet read. -/
  input : List String
  /-- What is left on disk of the directory the call was made on. -/
  node : Option Node

/-- Result of the loop of lines 51-66 over the entries of one directory. -/
structure LoopRes where
  /-- Final value of `currentDirEempty`. -/
  currentDirEempty : Bool
  /-- A `filesystem_error` was raised inside the `try` block. -/
  threw : Bool
  trace : List Event
  input : List String
  /-- The entries left on disk. -/
  disk : List Node

/-! ## The operations -/

/-- `std::getline(std::cin, response_str)`: the next line, empty at end of input. -/
def getline : List String → String × List String
  | [] => ("", [])
  | l :: rest => (l, rest)

/-- Lines 80-84: `response == 'y'` after `tolower` of the first character,
`'n'` for an empty line. -/
def confirmed (response_str : String) : Bool :=
  match response_str.data with
  | [] => false
  | c :: _ => c.toLower == 'y'

/-- A line written only under a condition (`if (opts.verbose) ...`). -/
def logIf (c : Bool) (e : Event) : List Event := if c then [e] else []

/-- `fs::remove(dir_path)` on a directory: fails with "directory not empty" while
entries are left on disk, and otherwise does what the file system decides. -/
def fsRemove (a : DirAttrs) (disk : List Node) : RemoveOutcome :=
  if disk.isEmpty then a.rm else .raises

/-- Lines 92-116, the branch `confirmd == true`; `pre` is what lines 75-90 logged. -/
def eliminate (opts : Opt) (dir_path : Path) (name : String) (a : DirAttrs)
    (pre : List Event) (input : List String) (disk : List Node) : Res :=
  if opts.dry_run then
    ⟨some true, pre ++ [.wouldDelete dir_path, .ret dir_path true], input,
      some (.dir name a disk)⟩
  else
    match fsRemove a disk with
    | .removed =>
      ⟨some true, pre ++ [.remove dir_path .removed, .deleted dir_path, .ret dir_path true],
        input, none⟩
    | .notRemoved =>
      ⟨some false,
        pre ++ .remove dir_path .notRemoved ::
          (logIf opts.verbose (.warnRemove dir_path) ++ [.ret dir_path false]),
        input, some (.dir name a disk)⟩
    | .raises =>
      ⟨some false, pre ++ [.remove dir_path .raises, .errRemove dir_path, .ret dir_path false],
        input, some (.dir name a disk)⟩

/-- Lines 75-117: the deletion gate for a directory found empty at a depth of at
least `min_depth`. -/
def gate (opts : Opt) (dir_path : Path) (name : String) (a : DirAttrs)
    (input : List String) (disk : List Node) : Res :=
  if opts.interactive && !opts.dry_run then
    if confirmed (getline input).1 then
      eliminate opts dir_path name a [.prompt dir_path (getline input).1] (getline input).2 disk
    else
      ⟨some false,
        .prompt dir_path (getline input).1 ::
          (logIf opts.verbose (.skipped dir_path) ++ [.ret dir_path false]),
        (getline input).2, some (.dir name a disk)⟩
  else
    eliminate opts dir_path name a [] input disk

/-- Lines 40-45: the path is no directory or does not exist. -/
def notADir (opts : Opt) (dir_path : Path) (current_depth : Int) (input : List String)
    (self : Node) : Res :=
  ⟨some false,
    .call dir_path current_depth ::
      (logIf opts.verbose (.warnNotDir dir_path) ++ [.ret dir_path false]),
    input, some self⟩

/-- Lines 67-120, once the loop over the entries is over: the `catch` of line 67,
the test of line 74 and the deletion gate.  The log holds what these lines add. -/
def finish (opts : Opt) (dir_path : Path) (current_depth : Int) (name : String)
    (a : DirAttrs) (lr : LoopRes) : Res :=
  if lr.threw then
    ⟨some false, [.errAccess dir_path, .ret dir_path false], lr.input,
      some (.dir name a lr.disk)⟩
  else if lr.currentDirEempty && decide (current_depth ≥ opts.min_depth) then
    gate opts dir_path name a lr.input lr.disk
  else
    ⟨some false, [.ret dir_path false], lr.input, some (.dir name a lr.disk)⟩

/-- Lines 47-120 of a call that passed line 40: the log of the call is the entry,
what the loop did, and what `finish` adds. -/
def afterLoop (opts : Opt) (dir_path : Path) (current_depth : Int) (name : String)
    (a : DirAttrs) (lr : LoopRes) : Res :=
  ⟨(finish opts dir_path current_depth name a lr).ret,
    .call dir_path current_depth ::
      (lr.trace ++ (finish opts dir_path current_depth name a lr).trace),
    (finish opts dir_path current_depth name a lr).input,
    (finish opts dir_path current_depth name a lr).node⟩

mutual
/-- `nukeEmptyRecursive(dir_path, opts, current_depth)` (lines 39-121), run on the
entry `self` found at `dir_path`. -/
def nukeEmptyRecursive (opts : Opt) (dir_path : Path) (current_depth : Int)
    (input : List String) : Node → Res
  | .file name => notADir opts dir_path current_depth input (.file name)
  | .dir name a children =>
    match a.probe with
    | .raises =>
      ⟨none, [.call dir_path current_depth, .throw dir_path], input, some (.dir name a children)⟩
    | .absent => notADir opts dir_path current_depth input (.dir name a children)
    | .ok =>
      afterLoop opts dir_path current_depth name a
        (scanEntries opts dir_path current_depth a.listingRaisesAfter input children)
/-- The loop of lines 51-66 over the entries not yet visited; `lim` counts the
entries the iterator still yields before it raises (`none`: it does not raise). -/
def scanEntries (opts : Opt) (dir_path : Path) (current_depth : Int)
    (lim : Option Nat) (input : List String) : List Node → LoopRes
  | [] => ⟨true, lim.isSome, [], input, []⟩
  | entry :: rest =>
    if lim = some 0 then ⟨true, true, [], input, entry :: rest⟩
    else if entry.isDir then
      if entry.typeCheckRaises then ⟨true, true, [], input, entry :: rest⟩
      else if current_depth + 1 ≤ opts.max_depth then
        let c := nukeEmptyRecursive opts (dir_path ++ [entry.name]) (current_depth + 1) input entry
        match c.ret with
        | none => ⟨true, true, c.trace, c.input, c.node.toList ++ rest⟩
        | some b =>
          let r := scanEntries opts dir_path current_depth (lim.map Nat.pred) c.input rest
          ⟨b && r.currentDirEempty, r.threw, c.trace ++ r.trace, r.input, c.node.toList ++ r.disk⟩
      else
        let r := scanEntries opts dir_path current_depth (lim.map Nat.pred) input rest
        ⟨false, r.threw, r.trace, r.input, entry :: r.disk⟩
    else
      let r := scanEntries opts dir_path current_depth (lim.map Nat.pred) input rest
      ⟨false, r.threw, r.trace, r.input, entry :: r.disk⟩
end

/-! ## Vocabulary of the properties -/

/-- Outcome of line 40 for an entry: a non-directory fails the test like a path
that is gone. -/
def Node.probe : Node → Probe
  | .file _ => .absent
  | .dir _ a _ => a.probe

/-- `At q k t p j d`: in the tree `t` found at path `q` and depth `k`, the entry
`d` is found at path `p` and depth `j` (`d` is `t` itself or lies below it). -/
inductive At : Path → Int → Node → Path → Int → Node → Prop where
  | here (q : Path) (k : Int) (t : Node) : At q k t q k t
  | down {q : Path} {k : Int} {n : String} {a : DirAttrs} {cs : List Node} {c : Node}
      {p : Path} {j : Int} {d : Node} :
      c ∈ cs → At (q ++ [c.name]) (k + 1) c p j d → At q k (.dir n a cs) p j d

mutual
/-- No directory of the tree has two entries of the same name. -/
def Node.distinctNames : Node → Bool
  | .file _ => true
  | .dir _ _ cs => decide (cs.map Node.name).Nodup && distinctNamesList cs
/-- `Node.distinctNames` for every entry of a list. -/
def distinctNamesList : List Node → Bool
  | [] => true
  | e :: rest => e.distinctNames && distinctNamesList rest
end

/-- The event is about `p` or about a path below `p`. -/
def Event.under (p : Path) (e : Event) : Bool := decide (p <+: e.path)

/-- Events that record an elimination of their directory: the call returns
`true`, the directory is removed, or it is reported on `cout` as deleted or as
"would delete". -/
def Event.isElim : Event → Bool
  | .ret _ true => true
  | .wouldDelete _ => true
  | .remove _ .removed => true
  | .deleted _ => true
  | _ => false

/-- `dir_path.string()`: the components joined by the directory separator. -/
def Path.string (p : Path) : String := String.intercalate "/" p

/-- What an event writes to `std::cout`, if anything (lines 77, 87, 94, 100, 102);
lines written with `std::endl` end in a newline, the prompt does not. -/
def Event.cout (opts : Opt) : Event → Option String
  | .prompt p _ => some ("Delete '" ++ Path.string p ++ "'? [y/N]: ")
  | .skipped p => some ("Skipped (interactive): " ++ Path.string p ++ "\n")
  | .wouldDelete p => some ("[DRY RUN] Would delete empty dir: " ++ Path.string p ++ "\n")
  | .deleted p =>
    some (if opts.verbose then "Deleted: " ++ Path.string p ++ "\n" else Path.string p ++ "\n")
  | _ => none

/-- Everything a log writes to `std::cout`, in order. -/
def stdoutOf (opts : Opt) (trace : List Event) : List String :=
  trace.filterMap (Event.cout opts)

/-- The event is a call of `fs::remove`. -/
def Event.isRemove : Event → Bool
  | .remove _ _ => true
  | _ => false

/-- The event is a prompt with the line read in answer. -/
def Event.isPrompt : Event → Bool
  | .prompt _ _ => true
  | _ => false

/-- Every request on the directory succeeds: the type check, the check of line 40,
the listing and `fs::remove`. -/
def DirAttrs.isFine (a : DirAttrs) : Bool :=
  !a.typeCheckRaises && decide (a.probe = .ok) && a.listingRaisesAfter.isNone &&
    decide (a.rm = .removed)

mutual
/-- Every file-system request on every directory of the tree succeeds. -/
def Node.allFine : Node → Bool
  | .file _ => true
  | .dir _ a cs => a.isFine && allFineList cs
/-- `Node.allFine` for every entry of a list. -/
def allFineList : List Node → Bool
  | [] => true
  | e :: rest => e.allFine && allFineList rest
end

mutual
/-- The tree holds directories only: no non-directory entry at any level. -/
def Node.onlyDirs : Node → Bool
  | .file _ => false
  | .dir _ _ cs => onlyDirsList cs
/-- `Node.onlyDirs` for every entry of a list. -/
def onlyDirsList : List Node → Bool
  | [] => true
  | e :: rest => e.onlyDirs && onlyDirsList rest
end

mutual
/-- Number of directory levels below an entry: 0 for a non-directory and for a
directory without subdirectories. -/
def Node.height : Node → Nat
  | .file _ => 0
  | .dir _ _ cs => levelsList cs
/-- Number of directory levels a list of entries adds below their parent. -/
def levelsList : List Node → Nat
  | [] => 0
  | e :: rest => max (if e.isDir then e.height + 1 else 0) (levelsList rest)
end

mutual
/-- On every directory of the tree `fs::remove` succeeds once the directory has
no entries. -/
def Node.removalsSucceed : Node → Bool
  | .file _ => true
  | .dir _ a cs => decide (a.rm = .removed) && removalsSucceedList cs
/-- `Node.removalsSucceed` for every entry of a list. -/
def removalsSucceedList : List Node → Bool
  | [] => true
  | e :: rest => e.removalsSucceed && removalsSucceedList rest
end

/-- The path a dry run reports as "would delete". -/
def Event.wouldDeletePath : Event → Option Path
  | .wouldDelete p => some p
  | _ => none

/-- The path `fs::remove` removed. -/
def Event.removedPath : Event → Option Path
  | .remove p .removed => some p
  | _ => none

/-- The control flow of the scan: the calls, what they return, and the exceptions. -/
def Event.flow : Event → Option Event
  | .call p d => some (.call p d)
  | .ret p b => some (.ret p b)
  | .throw p => some (.throw p)
  | _ => none

/-- `Swap d d' p q t t'`: `t'` is the tree `t` found at path `q` in which the
entry `d` found at path `p` is replaced by `d'`. -/
inductive Swap (d d' : Node) (p : Path) : Path → Node → Node → Prop where
  | here : Swap d d' p p d d'
  | down {q : Path} {n : String} {a : DirAttrs} {pre post : List Node} {c c' : Node} :
      Swap d d' p (q ++ [c.name]) c c' →
      Swap d d' p q (.dir n a (pre ++ c :: post)) (.dir n a (pre ++ c' :: post))

/-- The event is about neither `p` nor a path below `p`. -/
def Event.outside (p : Path) (e : Event) : Bool := !Event.under p e

/-! ## Example trees and options -/

/-- Options of a plain run: no flag set, no depth bound. -/
def plainOpts : Opt := ⟨"root", ["root"], false, false, false, 0, INT_MAX⟩

/-- The tree `root/{a/ (empty), b/{file.txt}}` of the first scenario. -/
def scenarioTree : Node :=
  .dir "root" .fine [.dir "a" .fine [], .dir "b" .fine [.file "file.txt"]]

/-- Options of a dry run without depth bounds. -/
def dryOpts : Opt := ⟨"root", ["root"], true, false, false, 0, INT_MAX⟩

/-- The tree `root/{x/{y/ (empty)}}` of the second scenario. -/
def nestedTree : Node := .dir "root" .fine [.dir "x" .fine [.dir "y" .fine []]]

/-- Options of a plain run restricted to the depths `lo` to `hi`. -/
def windowOpts (lo hi : Int) : Opt := ⟨"root", ["root"], false, false, false, lo, hi⟩

/-- The tree `root/{a/{b/}, c/}`: directories only. -/
def dirsTree : Node := .dir "root" .fine [.dir "a" .fine [.dir "b" .fine []], .dir "c" .fine []]

/-- Options of an interactive, verbose dry run without depth bounds. -/
def dryInteractiveOpts : Opt := ⟨"root", ["root"], true, true, true, 0, INT_MAX⟩

/-- Options of an interactive run without depth bounds. -/
def interactiveOpts : Opt := ⟨"root", ["root"], false, false, true, 0, INT_MAX⟩

/-- An empty directory `a` on which `fs::remove` raises. -/
def stubbornDir : Node := .dir "a" ⟨false, .ok, none, .raises⟩ []

/-- The tree `root/{a/, c/}` in which `fs::remove` raises on `a`. -/
def stubbornTree : Node := .dir "root" .fine [stubbornDir, .dir "c" .fine []]

/-- A directory `d` whose listing raises before it yields an entry. -/
def lockedDir : Node := .dir "d" ⟨false, .ok, some 0, .removed⟩ [.dir "y" .fine []]

/-- The tree `root/{d/ (listing raises), e/}`. -/
def lockedTree : Node := .dir "root" .fine [lockedDir, .dir "e" .fine []]

/-- The tree `root/{d/{f}, e/}`: `d` is accessible and holds one file. -/
def oneFileTree : Node := .dir "root" .fine [.dir "d" .fine [.file "f"], .dir "e" .fine []]

/-- A directory `d` on which the type check of line 52 raises. -/
def unreadableDir : Node := .dir "d" ⟨true, .ok, none, .removed⟩ []

/-- The tree `root/{d/ (type check raises), e/}`. -/
def unreadableTree : Node := .dir "root" .fine [unreadableDir, .dir "e" .fine []]

/-- The line written to `cout` for an eliminated directory: line 94 in a dry run,
line 100 in a verbose run, line 102 otherwise. -/
def elimLine (opts : Opt) (p : Path) : String :=
  if opts.dry_run then "[DRY RUN] Would delete empty dir: " ++ Path.string p ++ "\n"
  else if opts.verbose then "Deleted: " ++ Path.string p ++ "\n"
  else Path.string p ++ "\n"

/-- The directory of a call that returns `true`. -/
def Event.eliminated : Event → Option Path
  | .ret p true => some p
  | _ => none

/-- Options of a verbose run without depth bounds. -/
def verboseOpts : Opt := ⟨"root", ["root"], false, true, false, 0, INT_MAX⟩

/-! ## `main` -/

/-- Smallest `int`. -/
def INT_MIN : Int := -2147483648

/-- `isspace` in the "C" locale: the blank and the control characters 9 to 13. -/
def isspace (c : Char) : Bool := c == ' ' || (9 ≤ c.toNat && c.toNat ≤ 13)

/-- Value of a run of decimal digits. -/
def digitsValue (ds : List Char) : Nat := ds.foldl (fun v c => 10 * v + (c.toNat - 48)) 0

/-- An optional sign in front of the digits: whether it is a minus, and the rest. -/
def takeSign : List Char → Bool × List Char
  | '-' :: r => (true, r)
  | '+' :: r => (false, r)
  | r => (false, r)

/-- `std::stoi(str)`: leading white space is skipped, then an optional sign and
the longest run of decimal digits are read, and what follows is ignored.  `none`
stands for the exception raised when there is no digit (`std::invalid_argument`)
or the value does not fit in an `int` (`std::out_of_range`). -/
def stoi (str : String) : Option Int :=
  let ds := (takeSign (str.data.dropWhile isspace)).2.takeWhile Char.isDigit
  let v : Int := if (takeSign (str.data.dropWhile isspace)).1 then -(digitsValue ds : Int)
    else (digitsValue ds : Int)
  if ds.isEmpty then none
  else if v < INT_MIN ∨ INT_MAX < v then none
  else some v

/-- `arg.rfind("--", 0) == 0` (line 180): the argument starts with two dashes. -/
def startsWithDashes (arg : String) : Bool :=
  match arg.data with
  | '-' :: '-' :: _ => true
  | _ => false

/-- The value of `Opt o;` (line 125): the default member initializers. -/
def Opt.init : Opt := ⟨"", [], false, false, false, 0, INT_MAX⟩

/-- How the loop over the arguments (lines 132-193) ends. -/
inductive Parsed where
  /-- Every argument was read: the options so far. -/
  | ok (o : Opt)
  /-- `main` returns from inside the loop, after printing the usage text or not. -/
  | exit (code : Nat) (usage : Bool)
deriving DecidableEq, Repr

/-- The loop of lines 132-193 over the arguments not yet read. -/
def parseArgs (o : Opt) : List String → Parsed
  | [] => .ok o
  | arg :: rest =>
    if arg = "--help" then .exit 0 true
    else if arg = "--dry-run" then parseArgs { o with dry_run := true } rest
    else if arg = "--verbose" ∨ arg = "-v" then parseArgs { o with verbose := true } rest
    else if arg = "--interactive" ∨ arg = "-i" then
      parseArgs { o with interactive := true } rest
    else if arg = "--min-depth" then
      match rest with
      | [] => .exit 1 false
      | value :: rest' =>
        match stoi value with
        | none => .exit 1 false
        | some n =>
          if n < 0 then .exit 1 false else parseArgs { o with min_depth := n } rest'
    else if arg = "--max-depth" then
      match rest with
      | [] => .exit 1 false
      | value :: rest' =>
        match stoi value with
        | none => .exit 1 false
        | some n =>
          if n < 0 then .exit 1 false else parseArgs { o with max_depth := n } rest'
    else if startsWithDashes arg then .exit 1 true
    else if o.target_dir_str = "" then parseArgs { o with target_dir_str := arg } rest
    else .exit 1 true

/-- What `fs::exists` and `fs::is_directory` find at the target path (lines 207, 211). -/
inductive Target where
  /-- Nothing is there. -/
  | missing
  /-- The entry that is there. -/
  | found (t : Node)
  /-- The status request raises `fs::filesystem_error`. -/
  | raises

/-- The file system as `main` sees it. -/
structure FileSystem where
  /-- `fs::absolute` (line 205). -/
  absolute : String → Path
  /-- What is found at a path. -/
  status : Path → Target

/-- Result of `main`. -/
structure MainRes where
  /-- The exit code; `none` when an uncaught exception terminates the program. -/
  exit : Option Nat
  /-- The usage text was printed (`help`, lines 21-36). -/
  usage : Bool
  /-- The traversal, when one was started: the options passed to
  `nukeEmptyRecursive` at line 225 and the result of the call. -/
  scan : Option (Opt × Res)

/-- `main` (lines 124-230) on the arguments after the program name. -/
def main (fs : FileSystem) (input : List String) (args : List String) : MainRes :=
  if args.isEmpty then ⟨some 1, true, none⟩
  else
    match parseArgs Opt.init args with
    | .exit code usage => ⟨some code, usage, none⟩
    | .ok o =>
      if o.target_dir_str = "" then ⟨some 1, true, none⟩
      else if o.min_depth > o.max_depth then ⟨some 1, false, none⟩
      else
        match fs.status (fs.absolute o.target_dir_str) with
        | .raises => ⟨none, false, none⟩
        | .missing => ⟨some 1, false, none⟩
        | .found t =>
          if t.isDir then
            ⟨if (nukeEmptyRecursive { o with target_dir_path := fs.absolute o.target_dir_str }
                  (fs.absolute o.target_dir_str) 0 input t).ret = none then none else some 0,
              false,
              some ({ o with target_dir_path := fs.absolute o.target_dir_str },
                nukeEmptyRecursive { o with target_dir_path := fs.absolute o.target_dir_str }
                  (fs.absolute o.target_dir_str) 0 input t)⟩
          else ⟨some 1, false, none⟩

/-- A file system that holds the tree `root/{a/{b/}, c/}` at `d` and nothing else. -/
def sampleFs : FileSystem :=
  ⟨fun s => [s], fun p => if p = ["d"] then .found dirsTree else .missing⟩

/-- The options `main` knows that start with two dashes. -/
def knownOptions : List String :=
  ["--help", "--dry-run", "--verbose", "--interactive", "--min-depth", "--max-depth"]

/-- The lines written only when `opts.verbose` is set (lines 42, 87 and 106). -/
def Event.verboseOnly : Event → Bool
  | .warnNotDir _ => true
  | .skipped _ => true
  | .warnRemove _ => true
  | _ => false

/-- The log without the lines written only when `opts.verbose` is set. -/
def quiet (trace : List Event) : List Event := trace.filter (fun e => !e.verboseOnly)

/-- Options of a verbose run that prompts before each removal. -/
def verboseInteractiveOpts : Opt := ⟨"root", ["root"], false, true, true, 0, INT_MAX⟩

/-! # Theorems -/

/-! ## Induction and case analysis -/

/-- Structural induction over a tree, together with the lists of entries. -/
theorem Node.induct {P : Node → Prop} {Q : List Node → Prop}
    (hfile : ∀ n, P (.file n))
    (hdir : ∀ n a cs, Q cs → P (.dir n a cs))
    (hnil : Q [])
    (hcons : ∀ e rest, P e → Q rest → Q (e :: rest)) : ∀ t, P t :=
  fun t => @Node.rec P Q hfile hdir hnil hcons t

/-- The three ways a call starts (line 40). -/
theorem nuke_cases {opts : Opt} {q : Path} {k : Int} {s : List String} {Q : Res → Prop}
    (t : Node)
    (habsent : t.probe = .absent → Q (notADir opts q k s t))
    (hraises : t.probe = .raises → Q ⟨none, [.call q k, .throw q], s, some t⟩)
    (hok : ∀ n a cs, t = .dir n a cs → a.probe = .ok →
      Q (afterLoop opts q k n a (scanEntries opts q k a.listingRaisesAfter s cs))) :
    Q (nukeEmptyRecursive opts q k s t) := by
  cases t with
  | file n => rw [nukeEmptyRecursive]; exact habsent rfl
  | dir n a cs =>
    rw [nukeEmptyRecursive]
    cases hp : a.probe with
    | ok => simp only []; exact hok n a cs rfl hp
    | absent => simp only []; exact habsent hp
    | raises => simp only []; exact hraises hp

/-- The loop over no entries. -/
theorem scanEntries_nil (opts : Opt) (q : Path) (k : Int) (lim : Option Nat)
    (s : List String) :
    scanEntries opts q k lim s [] = ⟨true, lim.isSome, [], s, []⟩ := by
  rw [scanEntries]

/-- One step of the loop: the four ways an entry is handled. -/
theorem scanEntries_cons_cases {opts : Opt} {q : Path} {k : Int} {lim : Option Nat}
    {s : List String} {e : Node} {rest : List Node} {Q : LoopRes → Prop}
    (hstop : (lim = some 0 ∨ (e.isDir = true ∧ e.typeCheckRaises = true)) →
      Q ⟨true, true, [], s, e :: rest⟩)
    (hskip : lim ≠ some 0 →
      (e.isDir = false ∨ (e.typeCheckRaises = false ∧ ¬ k + 1 ≤ opts.max_depth)) →
      Q ⟨false, (scanEntries opts q k (lim.map Nat.pred) s rest).threw,
        (scanEntries opts q k (lim.map Nat.pred) s rest).trace,
        (scanEntries opts q k (lim.map Nat.pred) s rest).input,
        e :: (scanEntries opts q k (lim.map Nat.pred) s rest).disk⟩)
    (hraise : lim ≠ some 0 → e.isDir = true → e.typeCheckRaises = false →
      k + 1 ≤ opts.max_depth →
      (nukeEmptyRecursive opts (q ++ [e.name]) (k + 1) s e).ret = none →
      Q ⟨true, true, (nukeEmptyRecursive opts (q ++ [e.name]) (k + 1) s e).trace,
        (nukeEmptyRecursive opts (q ++ [e.name]) (k + 1) s e).input,
        (nukeEmptyRecursive opts (q ++ [e.name]) (k + 1) s e).node.toList ++ rest⟩)
    (hcall : ∀ b, lim ≠ some 0 → e.isDir = true → e.typeCheckRaises = false →
      k + 1 ≤ opts.max_depth →
      (nukeEmptyRecursive opts (q ++ [e.name]) (k + 1) s e).ret = some b →
      Q ⟨b && (scanEntries opts q k (lim.map Nat.pred)
            (nukeEmptyRecursive opts (q ++ [e.name]) (k + 1) s e).input rest).currentDirEempty,
        (scanEntries opts q k (lim.map Nat.pred)
            (nukeEmptyRecursive opts (q ++ [e.name]) (k + 1) s e).input rest).threw,
        (nukeEmptyRecursive opts (q ++ [e.name]) (k + 1) s e).trace ++
          (scanEntries opts q k (lim.map Nat.pred)
            (nukeEmptyRecursive opts (q ++ [e.name]) (k + 1) s e).input rest).trace,
        (scanEntries opts q k (lim.map Nat.pred)
            (nukeEmptyRecursive opts (q ++ [e.name]) (k + 1) s e).input rest).input,
        (nukeEmptyRecursive opts (q ++ [e.name]) (k + 1) s e).node.toList ++
          (scanEntries opts q k (lim.map Nat.pred)
            (nukeEmptyRecursive opts (q ++ [e.name]) (k + 1) s e).input rest).disk⟩) :
    Q (scanEntries opts q k lim s (e :: rest)) := by
  rw [scanEntries]
  by_cases h0 : lim = some 0
  · rw [if_pos h0]; exact hstop (Or.inl h0)
  · rw [if_neg h0]
    by_cases hd : e.isDir = true
    · rw [if_pos hd]
      by_cases ht : e.typeCheckRaises = true
      · rw [if_pos ht]; exact hstop (Or.inr ⟨hd, ht⟩)
      · rw [if_neg ht]
        have ht' : e.typeCheckRaises = false := by simpa using ht
        by_cases hk : k + 1 ≤ opts.max_depth
        · rw [if_pos hk]
          cases hr : (nukeEmptyRecursive opts (q ++ [e.name]) (k + 1) s e).ret with
          | none => simp only [hr]; exact hraise h0 hd ht' hk hr
          | some b => simp only [hr]; exact hcall b h0 hd ht' hk hr
        · rw [if_neg hk]; exact hskip h0 (Or.inr ⟨ht', hk⟩)
    · rw [if_neg hd]
      exact hskip h0 (Or.inl (by simpa using hd))

/-! ## What the lines after the loop log -/

/-- The events `finish` logs are about the directory itself. -/
theorem finish_path {opts : Opt} {q : Path} {k : Int} {n : String} {a : DirAttrs}
    {lr : LoopRes} : ∀ e ∈ (finish opts q k n a lr).trace, e.path = q := by
  intro e he
  unfold finish gate eliminate logIf at he
  repeat' split at he
  all_goals simp at he
  all_goals rcases he with h | h | h | h | h
  all_goals first | rfl | (subst h; rfl)

/-- Once line 40 is passed, the call returns: no exception leaves it. -/
theorem finish_ret_ne_none {opts : Opt} {q : Path} {k : Int} {n : String} {a : DirAttrs}
    {lr : LoopRes} : (finish opts q k n a lr).ret ≠ none := by
  unfold finish gate eliminate
  repeat' split
  all_goals simp

/-- The last lines log the value they return. -/
theorem finish_ret_mem {opts : Opt} {q : Path} {k : Int} {n : String} {a : DirAttrs}
    {lr : LoopRes} {b : Bool} :
    Event.ret q b ∈ (finish opts q k n a lr).trace ↔ (finish opts q k n a lr).ret = some b := by
  unfold finish gate eliminate logIf
  repeat' split
  all_goals simp

/-- An elimination is logged only by a call that returns `true`. -/
theorem finish_elim {opts : Opt} {q : Path} {k : Int} {n : String} {a : DirAttrs}
    {lr : LoopRes} {e : Event} (he : e ∈ (finish opts q k n a lr).trace)
    (hel : e.isElim = true) : (finish opts q k n a lr).ret = some true := by
  revert he
  unfold finish gate eliminate logIf
  repeat' split
  all_goals simp
  all_goals (repeat' apply And.intro)
  all_goals (intro h; subst h; simp [Event.isElim] at hel)

/-- A call that passes line 40 runs the loop and the lines after it. -/
theorem nuke_ok {opts : Opt} {q : Path} {k : Int} {s : List String} {n : String}
    {a : DirAttrs} {cs : List Node} (h : a.probe = .ok) :
    nukeEmptyRecursive opts q k s (.dir n a cs) =
      afterLoop opts q k n a (scanEntries opts q k a.listingRaisesAfter s cs) := by
  rw [nukeEmptyRecursive]; simp only [h]

/-- A call on something that is gone or no directory returns at line 44. -/
theorem nuke_absent {opts : Opt} {q : Path} {k : Int} {s : List String} {t : Node}
    (h : t.probe = .absent) : nukeEmptyRecursive opts q k s t = notADir opts q k s t := by
  cases t with
  | file n => rw [nukeEmptyRecursive]
  | dir n a cs =>
    have h' : a.probe = .absent := h
    rw [nukeEmptyRecursive]; simp only [h']

/-- A call whose check at line 40 raises is left by the exception. -/
theorem nuke_raises {opts : Opt} {q : Path} {k : Int} {s : List String} {t : Node}
    (h : t.probe = .raises) :
    nukeEmptyRecursive opts q k s t = ⟨none, [.call q k, .throw q], s, some t⟩ := by
  cases t with
  | file n => simp [Node.probe] at h
  | dir n a cs =>
    have h' : a.probe = .raises := h
    rw [nukeEmptyRecursive]; simp only [h']

/-- Structural induction over a tree: a property holds of a directory as soon
as it holds of all its entries. -/
theorem Node.induct_mem {P : Node → Prop} (hfile : ∀ n, P (.file n))
    (hdir : ∀ n a cs, (∀ c ∈ cs, P c) → P (.dir n a cs)) : ∀ t, P t :=
  Node.induct (Q := fun cs => ∀ c ∈ cs, P c) hfile hdir
    (fun c hc => absurd hc (List.not_mem_nil c))
    (fun e rest he hrest c hc => by
      rcases List.mem_cons.mp hc with h | h
      · exact h ▸ he
      · exact hrest c h)

/-! ## Where the events of a call come from -/

/-- Every event of the loop is an event of a recursive call on one of the entries. -/
theorem scan_mem_trace {opts : Opt} {q : Path} {k : Int} {e : Event} (cs : List Node) :
    ∀ lim s, e ∈ (scanEntries opts q k lim s cs).trace →
      ∃ c ∈ cs, ∃ s', c.isDir = true ∧ c.typeCheckRaises = false ∧ k + 1 ≤ opts.max_depth ∧
        e ∈ (nukeEmptyRecursive opts (q ++ [c.name]) (k + 1) s' c).trace := by
  induction cs with
  | nil => intro lim s he; simp [scanEntries_nil] at he
  | cons c rest ih =>
    intro lim s
    refine scanEntries_cons_cases (Q := fun r => e ∈ r.trace → ∃ c' ∈ c :: rest, ∃ s',
      c'.isDir = true ∧ c'.typeCheckRaises = false ∧ k + 1 ≤ opts.max_depth ∧
        e ∈ (nukeEmptyRecursive opts (q ++ [c'.name]) (k + 1) s' c').trace) ?_ ?_ ?_ ?_
    · intro _ he; simp at he
    · intro _ _ he
      obtain ⟨c', hc', h⟩ := ih _ s he
      exact ⟨c', List.mem_cons_of_mem _ hc', h⟩
    · intro _ hd ht hk _ he
      exact ⟨c, List.mem_cons_self _ _, s, hd, ht, hk, he⟩
    · intro b _ hd ht hk _ he
      simp only [List.mem_append] at he
      rcases he with h | h
      · exact ⟨c, List.mem_cons_self _ _, s, hd, ht, hk, h⟩
      · obtain ⟨c', hc', h'⟩ := ih _ _ h
        exact ⟨c', List.mem_cons_of_mem _ hc', h'⟩

/-- The events of a call that stops at line 40. -/
theorem notADir_path {opts : Opt} {q : Path} {k : Int} {s : List String} {t : Node} :
    ∀ e ∈ (notADir opts q k s t).trace, e.path = q := by
  intro e he
  simp [notADir, logIf] at he
  rcases he with h | h | h
  · subst h; rfl
  · rcases h with ⟨_, h⟩; subst h; rfl
  · subst h; rfl

/-- Every event of a call is about the directory of the call or about a path
below it. -/
theorem trace_path (opts : Opt) (t : Node) :
    ∀ q k s, ∀ e ∈ (nukeEmptyRecursive opts q k s t).trace, q <+: e.path := by
  refine Node.induct_mem (P := fun t => ∀ q k s, ∀ e ∈ (nukeEmptyRecursive opts q k s t).trace,
      q <+: e.path) ?_ ?_ t
  · intro n q k s e he
    rw [nuke_absent (t := .file n) rfl] at he
    rw [notADir_path e he]
  · intro n a cs ih q k s e
    refine nuke_cases (Q := fun r => e ∈ r.trace → q <+: e.path) (.dir n a cs) ?_ ?_ ?_
    · intro _ he
      rw [notADir_path e he]
    · intro _ he
      simp at he
      rcases he with h | h <;> subst h <;> exact List.prefix_refl _
    · intro n' a' cs' heq hp he
      cases heq
      simp only [afterLoop, List.mem_cons, List.mem_append] at he
      rcases he with h | h | h
      · subst h; exact List.prefix_refl _
      · obtain ⟨c, hc, s', _, _, _, hc'⟩ := scan_mem_trace cs _ _ h
        exact (List.prefix_append q [c.name]).trans (ih c hc _ _ _ e hc')
      · rw [finish_path e h]

/-- The events of the loop are about paths strictly below the directory. -/
theorem scan_path_ne {opts : Opt} {q : Path} {k : Int} {lim : Option Nat} {s : List String}
    {cs : List Node} {e : Event} (he : e ∈ (scanEntries opts q k lim s cs).trace) :
    e.path ≠ q := by
  obtain ⟨c, _, s', _, _, _, hc⟩ := scan_mem_trace cs _ _ he
  intro h
  have hp := trace_path opts c _ _ _ e hc
  rw [h] at hp
  have := hp.length_le
  simp at this

/-- An event about the directory of the call itself is the entry into the call
or is logged by the lines after the loop. -/
theorem mem_afterLoop_self {opts : Opt} {q : Path} {k : Int} {n : String} {a : DirAttrs}
    {lim : Option Nat} {s : List String} {cs : List Node} {e : Event} (hq : e.path = q) :
    e ∈ (afterLoop opts q k n a (scanEntries opts q k lim s cs)).trace ↔
      e = .call q k ∨ e ∈ (finish opts q k n a (scanEntries opts q k lim s cs)).trace := by
  simp only [afterLoop, List.mem_cons, List.mem_append]
  constructor
  · rintro (h | h | h)
    · exact Or.inl h
    · exact absurd hq (scan_path_ne h)
    · exact Or.inr h
  · rintro (h | h)
    · exact Or.inl h
    · exact Or.inr (Or.inr h)

/-- The call logs the value it returns. -/
theorem ret_mem_trace {opts : Opt} {q : Path} {k : Int} {s : List String} {t : Node}
    {b : Bool} :
    Event.ret q b ∈ (nukeEmptyRecursive opts q k s t).trace ↔
      (nukeEmptyRecursive opts q k s t).ret = some b := by
  refine nuke_cases (Q := fun r => Event.ret q b ∈ r.trace ↔ r.ret = some b) t ?_ ?_ ?_
  · intro _
    cases b <;> simp [notADir, logIf]
  · intro _; simp
  · intro n a cs _ _
    have hq : (Event.ret q b).path = q := rfl
    rw [mem_afterLoop_self hq, finish_ret_mem]
    simp [afterLoop]

/-- An elimination of the directory of the call is logged only by a call that
returns `true`. -/
theorem elim_ret {opts : Opt} {q : Path} {k : Int} {s : List String} {t : Node}
    {e : Event} (he : e ∈ (nukeEmptyRecursive opts q k s t).trace) (hq : e.path = q)
    (hel : e.isElim = true) : (nukeEmptyRecursive opts q k s t).ret = some true := by
  revert he
  refine nuke_cases (Q := fun r => e ∈ r.trace → r.ret = some true) t ?_ ?_ ?_
  · intro _ he
    simp [notADir, logIf] at he
    rcases he with h | h | h
    · subst h; simp [Event.isElim] at hel
    · rcases h with ⟨_, h⟩; subst h; simp [Event.isElim] at hel
    · subst h; simp [Event.isElim] at hel
  · intro _ he
    simp at he
    rcases he with h | h <;> subst h <;> simp [Event.isElim] at hel
  · intro n a cs _ _ he
    rw [mem_afterLoop_self hq] at he
    rcases he with h | h
    · subst h; simp [Event.isElim] at hel
    · exact finish_elim h hel

/-! ## Positions in the tree -/

/-- An entry of the tree lies at or below the root path. -/
theorem At.path_le {q p : Path} {k j : Int} {t d : Node} (h : At q k t p j d) : q <+: p := by
  induction h with
  | here q k t => exact List.prefix_refl _
  | down _ _ ih => exact (List.prefix_append _ _).trans ih

/-- The depth of an entry is the depth of the root plus the number of levels below it. -/
theorem At.depth_eq {q p : Path} {k j : Int} {t d : Node} (h : At q k t p j d) :
    j + q.length = k + p.length := by
  induction h with
  | here q k t => rfl
  | down _ _ ih => simp at ih; omega

/-- Positions compose. -/
theorem At.trans {q a p : Path} {k i j : Int} {t x d : Node} (h₁ : At q k t a i x)
    (h₂ : At a i x p j d) : At q k t p j d := by
  induction h₁ with
  | here q k t => exact h₂
  | down hc _ ih => exact At.down hc (ih h₂)

/-- `distinctNamesList` says that every entry has distinct names. -/
theorem distinctNamesList_iff (cs : List Node) :
    distinctNamesList cs = true ↔ ∀ c ∈ cs, c.distinctNames = true := by
  induction cs with
  | nil => simp [distinctNamesList]
  | cons c rest ih => simp [distinctNamesList, ih]

/-- A directory has distinct names when its entries are named apart and have
distinct names themselves. -/
theorem distinctNames_dir {n : String} {a : DirAttrs} {cs : List Node} :
    (Node.dir n a cs).distinctNames = true ↔
      (cs.map Node.name).Nodup ∧ ∀ c ∈ cs, c.distinctNames = true := by
  simp [Node.distinctNames, distinctNamesList_iff]

/-- Distinct names are inherited by every entry of the tree. -/
theorem At.distinctNames {q p : Path} {k j : Int} {t d : Node} (h : At q k t p j d)
    (ht : t.distinctNames = true) : d.distinctNames = true := by
  induction h with
  | here q k t => exact ht
  | down hc _ ih => exact ih ((distinctNames_dir.mp ht).2 _ hc)

/-! ## A call that returns `true` -/

/-- A call returns `true` only after a loop that raised nothing and left
`currentDirEempty` set, at a depth of at least `min_depth`. -/
theorem finish_true {opts : Opt} {q : Path} {k : Int} {n : String} {a : DirAttrs}
    {lr : LoopRes} (h : (finish opts q k n a lr).ret = some true) :
    lr.threw = false ∧ lr.currentDirEempty = true ∧ opts.min_depth ≤ k := by
  revert h
  unfold finish
  split
  · simp
  · split
    · intro _
      simp_all
    · simp

/-- When the loop ends with `currentDirEempty` set, every entry was visited by a
recursive call that returned `true`. -/
theorem scan_true {opts : Opt} {q : Path} {k : Int} (cs : List Node) :
    ∀ lim s, (scanEntries opts q k lim s cs).threw = false →
      (scanEntries opts q k lim s cs).currentDirEempty = true →
      ∀ c ∈ cs, ∃ s', (nukeEmptyRecursive opts (q ++ [c.name]) (k + 1) s' c).ret = some true ∧
        ∀ e ∈ (nukeEmptyRecursive opts (q ++ [c.name]) (k + 1) s' c).trace,
          e ∈ (scanEntries opts q k lim s cs).trace := by
  induction cs with
  | nil => intro lim s _ _ c hc; simp at hc
  | cons c0 rest ih =>
    intro lim s
    refine scanEntries_cons_cases (Q := fun r => r.threw = false → r.currentDirEempty = true →
      ∀ c ∈ c0 :: rest, ∃ s',
        (nukeEmptyRecursive opts (q ++ [c.name]) (k + 1) s' c).ret = some true ∧
        ∀ e ∈ (nukeEmptyRecursive opts (q ++ [c.name]) (k + 1) s' c).trace, e ∈ r.trace)
      ?_ ?_ ?_ ?_
    · intro _ h; simp at h
    · intro _ _ _ h; simp at h
    · intro _ _ _ _ _ h; simp at h
    · intro b _ _ _ _ hb hthrew hempty c hc
      simp only [Bool.and_eq_true] at hempty
      rcases List.mem_cons.mp hc with h | h
      · subst h
        refine ⟨s, ?_, fun e he => List.mem_append_left _ he⟩
        rw [hb, hempty.1]
      · obtain ⟨s', h1, h2⟩ := ih _ _ hthrew hempty.2 c h
        exact ⟨s', h1, fun e he => List.mem_append_right _ (h2 e he)⟩

/-- A call that returns `true` has visited every directory below it, and each of
these calls returned `true`; the tree below holds directories only. -/
theorem true_propagates {opts : Opt} {q p : Path} {k j : Int} {t d : Node}
    (h : At q k t p j d) :
    ∀ s, (nukeEmptyRecursive opts q k s t).ret = some true →
      Event.ret p true ∈ (nukeEmptyRecursive opts q k s t).trace := by
  induction h with
  | here q k t => intro s hs; exact ret_mem_trace.mpr hs
  | @down q k n a cs c p j d hc _ ih =>
    intro s
    refine nuke_cases (Q := fun r => r.ret = some true → Event.ret p true ∈ r.trace)
      (.dir n a cs) ?_ ?_ ?_
    · intro _ h; simp [notADir] at h
    · intro _ h; simp at h
    · intro n' a' cs' heq _ h
      cases heq
      obtain ⟨h1, h2, _⟩ := finish_true (show (finish opts q k n a _).ret = some true from h)
      obtain ⟨s', hs', hsub⟩ := scan_true cs _ _ h1 h2 c hc
      simp only [afterLoop, List.mem_cons, List.mem_append]
      exact Or.inr (Or.inl (hsub _ (ih s' hs')))

/-! ## The part of the log that belongs to one directory -/

/-- `Event.under` as a proposition. -/
theorem under_iff {p : Path} {e : Event} : Event.under p e = true ↔ p <+: e.path := by
  simp [Event.under]

/-- Paths below two entries of different names have nothing in common. -/
theorem not_under_of_name_ne {q p : Path} {n n' : String} {e : Event}
    (hp : (q ++ [n]) <+: p) (he : (q ++ [n']) <+: e.path) (hne : n' ≠ n) :
    Event.under p e = false := by
  rw [Bool.eq_false_iff]
  intro h
  have h1 : (q ++ [n]) <+: e.path := hp.trans (under_iff.mp h)
  have h2 : (q ++ [n]) <+: (q ++ [n']) :=
    List.prefix_of_prefix_length_le h1 he (by simp)
  have h3 := h2.eq_of_length (by simp)
  have h4 := List.append_cancel_left h3
  simp at h4
  exact hne h4.symm

/-- All events of a call are under the path of the call. -/
theorem filter_under_self (opts : Opt) (q : Path) (k : Int) (s : List String) (t : Node) :
    (nukeEmptyRecursive opts q k s t).trace.filter (Event.under q) =
      (nukeEmptyRecursive opts q k s t).trace := by
  rw [List.filter_eq_self]
  intro e he
  exact under_iff.mpr (trace_path opts t q k s e he)

/-- A call on an entry of another name logs nothing under `p`. -/
theorem filter_under_other {opts : Opt} {q p : Path} {k : Int} {s : List String}
    {n : String} {c : Node} (hp : (q ++ [n]) <+: p) (hne : c.name ≠ n) :
    (nukeEmptyRecursive opts (q ++ [c.name]) k s c).trace.filter (Event.under p) = [] := by
  rw [List.filter_eq_nil_iff]
  intro e he
  rw [not_under_of_name_ne hp (trace_path opts c _ _ _ e he) hne]
  simp

/-- A loop over entries of other names logs nothing under `p`. -/
theorem filter_scan_other {opts : Opt} {q p : Path} {k : Int} {lim : Option Nat}
    {s : List String} {n : String} {cs : List Node} (hp : (q ++ [n]) <+: p)
    (hne : ∀ c ∈ cs, c.name ≠ n) :
    (scanEntries opts q k lim s cs).trace.filter (Event.under p) = [] := by
  rw [List.filter_eq_nil_iff]
  intro e he
  obtain ⟨c, hc, s', _, _, _, hc'⟩ := scan_mem_trace cs _ _ he
  rw [not_under_of_name_ne hp (trace_path opts c _ _ _ e hc') (hne c hc)]
  simp

/-- In a directory without two entries of the same name, what the loop logs
under the path of an entry is nothing, or the log of the one call on that entry. -/
theorem filter_scan {opts : Opt} {q p : Path} {k : Int} {c : Node} (cs : List Node)
    (hp : (q ++ [c.name]) <+: p) :
    (cs.map Node.name).Nodup → c ∈ cs → ∀ lim s,
      (scanEntries opts q k lim s cs).trace.filter (Event.under p) = [] ∨
      ∃ s', (scanEntries opts q k lim s cs).trace.filter (Event.under p) =
        (nukeEmptyRecursive opts (q ++ [c.name]) (k + 1) s' c).trace.filter (Event.under p) := by
  induction cs with
  | nil => intro _ hc; simp at hc
  | cons c0 rest ih =>
    intro hnd hc lim s
    rw [List.map_cons, List.nodup_cons] at hnd
    have hrest : c = c0 → ∀ c' ∈ rest, c'.name ≠ c.name := by
      intro h c' hc' heq
      apply hnd.1
      rw [← h, ← heq]
      exact List.mem_map_of_mem _ hc'
    have hother : c ≠ c0 → c ∈ rest ∧ c0.name ≠ c.name := by
      intro h
      have hin : c ∈ rest := by
        rcases List.mem_cons.mp hc with h' | h'
        · exact absurd h' h
        · exact h'
      refine ⟨hin, fun heq => hnd.1 ?_⟩
      rw [heq]
      exact List.mem_map_of_mem _ hin
    refine scanEntries_cons_cases (Q := fun r => r.trace.filter (Event.under p) = [] ∨
      ∃ s', r.trace.filter (Event.under p) =
        (nukeEmptyRecursive opts (q ++ [c.name]) (k + 1) s' c).trace.filter (Event.under p))
      ?_ ?_ ?_ ?_
    · intro _; exact Or.inl rfl
    · intro _ _
      by_cases h : c = c0
      · exact Or.inl (filter_scan_other hp (hrest h))
      · exact ih hnd.2 (hother h).1 _ _
    · intro _ _ _ _ _
      by_cases h : c = c0
      · subst h; exact Or.inr ⟨s, rfl⟩
      · exact Or.inl (filter_under_other hp (hother h).2)
    · intro b _ _ _ _ _
      simp only [List.filter_append]
      by_cases h : c = c0
      · rw [filter_scan_other hp (hrest h), List.append_nil]
        subst h; exact Or.inr ⟨s, rfl⟩
      · rw [filter_under_other hp (hother h).2, List.nil_append]
        exact ih hnd.2 (hother h).1 _ _

/-- In a tree with distinct names, the events of a scan that are about a
directory `d` or about paths below it are none, when `d` is not visited, or else
exactly the log of the one call made on `d`. -/
theorem subtrace {opts : Opt} {q p : Path} {k j : Int} {t d : Node} (h : At q k t p j d) :
    t.distinctNames = true → ∀ s,
      (nukeEmptyRecursive opts q k s t).trace.filter (Event.under p) = [] ∨
      ∃ s', (nukeEmptyRecursive opts q k s t).trace.filter (Event.under p) =
        (nukeEmptyRecursive opts p j s' d).trace := by
  induction h with
  | here q k t => intro _ s; exact Or.inr ⟨s, filter_under_self opts q k s t⟩
  | @down q k n a cs c p j d hc hat ih =>
    intro hdn s
    have hp : (q ++ [c.name]) <+: p := hat.path_le
    have hq : ∀ e : Event, e.path = q → Event.under p e = false := by
      intro e he
      rw [Bool.eq_false_iff, Ne, under_iff, he]
      intro h'
      have := (hp.trans h').length_le
      simp at this
    obtain ⟨hnd, hcs⟩ := distinctNames_dir.mp hdn
    refine nuke_cases (Q := fun r => r.trace.filter (Event.under p) = [] ∨
      ∃ s', r.trace.filter (Event.under p) = (nukeEmptyRecursive opts p j s' d).trace)
      (.dir n a cs) ?_ ?_ ?_
    · intro _
      left
      rw [List.filter_eq_nil_iff]
      intro e he
      rw [hq e (notADir_path e he)]; simp
    · intro _
      left
      rw [List.filter_eq_nil_iff]
      intro e he
      simp at he
      rcases he with h' | h'
      · subst h'; rw [hq (Event.call q k) rfl]; simp
      · subst h'; rw [hq (Event.throw q) rfl]; simp
    · intro n' a' cs' heq _
      cases heq
      have hfin : (finish opts q k n a
          (scanEntries opts q k a.listingRaisesAfter s cs)).trace.filter (Event.under p) = [] := by
        rw [List.filter_eq_nil_iff]
        intro e he
        rw [hq e (finish_path e he)]; simp
      have hcall : Event.under p (Event.call q k) = false := hq _ rfl
      simp only [afterLoop, List.filter_cons, hcall, List.filter_append, hfin, List.append_nil]
      simp only [Bool.false_eq_true, if_false]
      rcases filter_scan cs hp hnd hc a.listingRaisesAfter s with h' | ⟨s', h'⟩
      · exact Or.inl h'
      · rw [h']
        rcases ih (hcs c hc) s' with h'' | ⟨s'', h''⟩
        · exact Or.inl h''
        · exact Or.inr ⟨s'', h''⟩

/-- In a tree with distinct names, an event about a directory `d` of the tree, or
about a path below it, was logged by the one call made on `d`, and the whole log
of that call is part of the log of the scan. -/
theorem located {opts : Opt} {q p : Path} {k j : Int} {t d : Node} {s : List String}
    {e : Event} (h : At q k t p j d) (ht : t.distinctNames = true)
    (he : e ∈ (nukeEmptyRecursive opts q k s t).trace) (hp : p <+: e.path) :
    ∃ s', (nukeEmptyRecursive opts q k s t).trace.filter (Event.under p) =
        (nukeEmptyRecursive opts p j s' d).trace ∧
      e ∈ (nukeEmptyRecursive opts p j s' d).trace := by
  have hmem : e ∈ (nukeEmptyRecursive opts q k s t).trace.filter (Event.under p) :=
    List.mem_filter.mpr ⟨he, under_iff.mpr hp⟩
  rcases subtrace h ht s with h' | ⟨s', h'⟩
  · rw [h'] at hmem; simp at hmem
  · exact ⟨s', h', h' ▸ hmem⟩

/-- The log of the one call on a directory is part of the log of the scan. -/
theorem mem_of_filter_eq {l l' : List Event} {p : Path} {e : Event}
    (h : l.filter (Event.under p) = l') (he : e ∈ l') : e ∈ l := by
  rw [← h] at he
  exact (List.mem_filter.mp he).1

/-- A call that returns `true` was made on a tree all of whose directories
return `true` when called. -/
theorem true_below {opts : Opt} {q p : Path} {k j : Int} {t d : Node}
    (h : At q k t p j d) :
    ∀ s, (nukeEmptyRecursive opts q k s t).ret = some true →
      ∃ s', (nukeEmptyRecursive opts p j s' d).ret = some true := by
  induction h with
  | here q k t => intro s hs; exact ⟨s, hs⟩
  | @down q k n a cs c p j d hc _ ih =>
    intro s
    refine nuke_cases (Q := fun r => r.ret = some true →
      ∃ s', (nukeEmptyRecursive opts p j s' d).ret = some true) (.dir n a cs) ?_ ?_ ?_
    · intro _ h; simp [notADir] at h
    · intro _ h; simp at h
    · intro n' a' cs' heq _ h
      cases heq
      obtain ⟨h1, h2, _⟩ := finish_true (show (finish opts q k n a _).ret = some true from h)
      obtain ⟨s', hs', _⟩ := scan_true cs _ _ h1 h2 c hc
      exact ih s' hs'

/-- An exception leaves the call exactly when the check of line 40 raises. -/
theorem ret_eq_none_iff {opts : Opt} {q : Path} {k : Int} {s : List String} {t : Node} :
    (nukeEmptyRecursive opts q k s t).ret = none ↔ t.probe = .raises := by
  refine nuke_cases (Q := fun r => r.ret = none ↔ t.probe = .raises) t ?_ ?_ ?_
  · intro h; simp [notADir, h]
  · intro h; simp [h]
  · intro n a cs heq hp
    subst heq
    simp [afterLoop, finish_ret_ne_none, Node.probe, hp]

/-- A call that does not return `true` returns `false`, unless line 40 raises. -/
theorem ret_of_ne_true {opts : Opt} {q : Path} {k : Int} {s : List String} {t : Node}
    (h : (nukeEmptyRecursive opts q k s t).ret ≠ some true) :
    (nukeEmptyRecursive opts q k s t).ret = if t.probe = .raises then none else some false := by
  by_cases hp : t.probe = .raises
  · rw [if_pos hp]; exact ret_eq_none_iff.mpr hp
  · rw [if_neg hp]
    have hn : (nukeEmptyRecursive opts q k s t).ret ≠ none := fun h' => hp (ret_eq_none_iff.mp h')
    cases hr : (nukeEmptyRecursive opts q k s t).ret with
    | none => exact absurd hr hn
    | some b =>
      cases b
      · rfl
      · exact absurd hr h

/-- A call on a non-directory does not return `true`. -/
theorem ret_not_dir {opts : Opt} {q : Path} {k : Int} {s : List String} {t : Node}
    (h : t.isDir = false) : (nukeEmptyRecursive opts q k s t).ret = some false := by
  cases t with
  | file n => rw [nuke_absent (t := .file n) rfl]; rfl
  | dir n a cs => simp [Node.isDir] at h

/-- Lines 63-65: a directory with a non-directory entry is not eliminated. -/
theorem ret_dir_with_file {opts : Opt} {p : Path} {j : Int} {s : List String} {n : String}
    {a : DirAttrs} {cs : List Node} (hf : ∃ f ∈ cs, f.isDir = false) :
    (nukeEmptyRecursive opts p j s (.dir n a cs)).ret ≠ some true := by
  obtain ⟨f, hf, hfd⟩ := hf
  refine nuke_cases (Q := fun r => r.ret ≠ some true) (.dir n a cs) ?_ ?_ ?_
  · intro _; simp [notADir]
  · intro _; simp
  · intro n' a' cs' heq _ h
    cases heq
    obtain ⟨h1, h2, _⟩ := finish_true (show (finish opts p j n a _).ret = some true from h)
    obtain ⟨s', hs', _⟩ := scan_true cs _ _ h1 h2 f hf
    rw [ret_not_dir hfd] at hs'
    simp at hs'

/-- In a tree with distinct names: when the call on a directory `d` of the scan
did not return `true`, no directory on the way from the root of the scan to `d`
was eliminated. -/
theorem ancestors_kept {opts : Opt} {q a p : Path} {k i j : Int} {t x d : Node}
    {s : List String} (hx : At q k t a i x) (hd : At a i x p j d)
    (ht : t.distinctNames = true)
    (hret : Event.ret p true ∉ (nukeEmptyRecursive opts q k s t).trace) :
    ∀ e ∈ (nukeEmptyRecursive opts q k s t).trace, e.path = a → e.isElim = false := by
  intro e he ha
  rw [Bool.eq_false_iff]
  intro hel
  obtain ⟨s', hfil, he'⟩ := located hx ht he (ha ▸ List.prefix_refl _)
  have htrue := elim_ret he' ha hel
  exact hret (mem_of_filter_eq hfil (true_propagates hd s' htrue))

/-! ## C1: directories that hold a file -/

/-- C1. In a scan `nukeEmptyRecursive(root, opts, 0)` of a tree without duplicate
names, whatever the options, the prompt answers and the outcomes of the file-system
requests: for a directory `d` that directly contains a non-directory entry and any
directory `x` on the way from the root to `d` (`d` and the root included), the scan
neither removes `x` nor reports it (as deleted or as "would delete"), no call on `x`
returns `true`, and a call on `x` returns `false` (unless its own check at line 40
raises, when it is left by the exception). -/
theorem C1_holder_of_file_kept (opts : Opt) (root : Path) (input : List String) (t : Node)
    (ht : t.distinctNames = true) {a p : Path} {i j : Int} {x : Node} {n : String}
    {da : DirAttrs} {cs : List Node}
    (hx : At root 0 t a i x) (hd : At a i x p j (.dir n da cs))
    (hf : ∃ f ∈ cs, f.isDir = false) :
    Event.remove a .removed ∉ (nukeEmptyRecursive opts root 0 input t).trace ∧
    Event.wouldDelete a ∉ (nukeEmptyRecursive opts root 0 input t).trace ∧
    Event.deleted a ∉ (nukeEmptyRecursive opts root 0 input t).trace ∧
    Event.ret a true ∉ (nukeEmptyRecursive opts root 0 input t).trace ∧
    (∀ s, (nukeEmptyRecursive opts a i s x).ret =
      if x.probe = .raises then none else some false) := by
  have hx_ret : ∀ s, (nukeEmptyRecursive opts a i s x).ret ≠ some true := by
    intro s hs
    obtain ⟨s', hs'⟩ := true_below hd s hs
    exact ret_dir_with_file hf hs'
  have hno : ∀ e ∈ (nukeEmptyRecursive opts root 0 input t).trace, e.path = a →
      e.isElim = false := by
    intro e he ha
    rw [Bool.eq_false_iff]
    intro hel
    obtain ⟨s', _, he'⟩ := located hx ht he (ha ▸ List.prefix_refl _)
    exact hx_ret s' (elim_ret he' ha hel)
  refine ⟨?_, ?_, ?_, ?_, fun s => ret_of_ne_true (hx_ret s)⟩
  · intro h; simpa [Event.isElim] using hno _ h rfl
  · intro h; simpa [Event.isElim] using hno _ h rfl
  · intro h; simpa [Event.isElim] using hno _ h rfl
  · intro h; simpa [Event.isElim] using hno _ h rfl

/-- C1 on the scenario `root/{a/, b/{file.txt}}`: `root`, the parent of `b`, is kept. -/
theorem C1_holder_of_file_kept_witness :
    scenarioTree.distinctNames = true ∧
    Event.remove ["root"] .removed ∉ (nukeEmptyRecursive plainOpts ["root"] 0 [] scenarioTree).trace ∧
    Event.wouldDelete ["root"] ∉ (nukeEmptyRecursive plainOpts ["root"] 0 [] scenarioTree).trace ∧
    Event.deleted ["root"] ∉ (nukeEmptyRecursive plainOpts ["root"] 0 [] scenarioTree).trace ∧
    Event.ret ["root"] true ∉ (nukeEmptyRecursive plainOpts ["root"] 0 [] scenarioTree).trace ∧
    (∀ s, (nukeEmptyRecursive plainOpts ["root"] 0 s scenarioTree).ret =
      if scenarioTree.probe = .raises then none else some false) :=
  ⟨by decide,
    C1_holder_of_file_kept plainOpts ["root"] [] scenarioTree (by decide)
      (At.here ["root"] 0 scenarioTree)
      (At.down (c := .dir "b" .fine [.file "file.txt"]) (by simp) (At.here _ _ _))
      ⟨.file "file.txt", by simp, rfl⟩⟩

/-! ## C2: dry run -/

/-- Under `--dry-run` the lines after the loop read no input, leave the directory
where it is and call neither `fs::remove` nor the prompt. -/
theorem finish_dry {opts : Opt} (hdry : opts.dry_run = true) (q : Path) (k : Int)
    (n : String) (a : DirAttrs) (lr : LoopRes) :
    finish opts q k n a lr =
      if lr.threw then
        ⟨some false, [.errAccess q, .ret q false], lr.input, some (.dir n a lr.disk)⟩
      else if lr.currentDirEempty && decide (k ≥ opts.min_depth) then
        ⟨some true, [.wouldDelete q, .ret q true], lr.input, some (.dir n a lr.disk)⟩
      else ⟨some false, [.ret q false], lr.input, some (.dir n a lr.disk)⟩ := by
  simp [finish, gate, eliminate, hdry]

/-- Under `--dry-run` a call leaves the tree and the input as they are, and what
it returns and logs does not depend on the input. -/
theorem dry_run_frame {opts : Opt} (hdry : opts.dry_run = true) (t : Node) :
    ∀ q k s, nukeEmptyRecursive opts q k s t =
      ⟨(nukeEmptyRecursive opts q k [] t).ret, (nukeEmptyRecursive opts q k [] t).trace,
        s, some t⟩ := by
  refine Node.induct (P := fun t => ∀ q k s, nukeEmptyRecursive opts q k s t =
      ⟨(nukeEmptyRecursive opts q k [] t).ret, (nukeEmptyRecursive opts q k [] t).trace,
        s, some t⟩)
    (Q := fun cs => ∀ q k lim s, scanEntries opts q k lim s cs =
      ⟨(scanEntries opts q k lim [] cs).currentDirEempty, (scanEntries opts q k lim [] cs).threw,
        (scanEntries opts q k lim [] cs).trace, s, cs⟩) ?_ ?_ ?_ ?_ t
  · intro n q k s
    simp [nuke_absent (t := .file n) rfl, notADir]
  · intro n a cs ih q k s
    cases hp : a.probe with
    | absent =>
      have h : (Node.dir n a cs).probe = .absent := hp
      simp [nuke_absent h, notADir]
    | raises =>
      have h : (Node.dir n a cs).probe = .raises := hp
      simp [nuke_raises h]
    | ok =>
      rw [nuke_ok hp, nuke_ok hp, ih q k _ s]
      simp only [afterLoop, finish_dry hdry]
      split
      · rfl
      · split <;> rfl
  · intro q k lim s
    simp [scanEntries_nil]
  · intro c rest ihc ihrest q k lim s
    rw [scanEntries, scanEntries]
    by_cases h0 : lim = some 0
    · simp [h0]
    · simp only [if_neg h0]
      by_cases hd : c.isDir = true
      · simp only [if_pos hd]
        by_cases htc : c.typeCheckRaises = true
        · simp [htc]
        · simp only [if_neg htc]
          by_cases hk : k + 1 ≤ opts.max_depth
          · simp only [if_pos hk]
            rw [ihc (q ++ [c.name]) (k + 1) s]
            simp only []
            cases (nukeEmptyRecursive opts (q ++ [c.name]) (k + 1) [] c).ret with
            | none => simp
            | some b =>
              simp only []
              rw [ihrest q k _ s, ihc (q ++ [c.name]) (k + 1) []]
              simp
          · simp only [if_neg hk]
            rw [ihrest q k _ s]
      · simp only [if_neg hd]
        rw [ihrest q k _ s]

/-- Under `--dry-run` no call of `fs::remove` and no prompt is logged. -/
theorem dry_run_no_remove {opts : Opt} (hdry : opts.dry_run = true) (t : Node) :
    ∀ q k s, ∀ e ∈ (nukeEmptyRecursive opts q k s t).trace,
      e.isRemove = false ∧ e.isPrompt = false := by
  refine Node.induct_mem (P := fun t => ∀ q k s, ∀ e ∈ (nukeEmptyRecursive opts q k s t).trace,
      e.isRemove = false ∧ e.isPrompt = false) ?_ ?_ t
  · intro n q k s e he
    rw [nuke_absent (t := .file n) rfl] at he
    simp [notADir, logIf] at he
    rcases he with h | h | h
    · subst h; exact ⟨rfl, rfl⟩
    · rcases h with ⟨_, h⟩; subst h; exact ⟨rfl, rfl⟩
    · subst h; exact ⟨rfl, rfl⟩
  · intro n a cs ih q k s e
    refine nuke_cases (Q := fun r => e ∈ r.trace → e.isRemove = false ∧ e.isPrompt = false)
      (.dir n a cs) ?_ ?_ ?_
    · intro _ he
      simp [notADir, logIf] at he
      rcases he with h | h | h
      · subst h; exact ⟨rfl, rfl⟩
      · rcases h with ⟨_, h⟩; subst h; exact ⟨rfl, rfl⟩
      · subst h; exact ⟨rfl, rfl⟩
    · intro _ he
      simp at he
      rcases he with h | h <;> subst h <;> exact ⟨rfl, rfl⟩
    · intro n' a' cs' heq _ he
      cases heq
      simp only [afterLoop, List.mem_cons, List.mem_append] at he
      rcases he with h | h | h
      · subst h; exact ⟨rfl, rfl⟩
      · obtain ⟨c, hc, s', _, _, _, hc'⟩ := scan_mem_trace cs _ _ h
        exact ih c hc _ _ _ e hc'
      · rw [finish_dry hdry] at h
        split at h
        · simp at h; rcases h with h | h <;> subst h <;> exact ⟨rfl, rfl⟩
        · split at h
          · simp at h; rcases h with h | h <;> subst h <;> exact ⟨rfl, rfl⟩
          · simp at h; subst h; exact ⟨rfl, rfl⟩

/-- C2. Under `--dry-run`, whatever the other options, the tree, the input and
the outcomes of the file-system requests: the scan leaves the tree as it found it,
never calls `fs::remove` (and never prompts, so it reads no input), and a second
scan of the tree it left, on any input, writes to `cout` exactly what the first
wrote, in the same order (its whole log and its result are the same). -/
theorem C2_dry_run_mutates_nothing (opts : Opt) (hdry : opts.dry_run = true) (root : Path)
    (input : List String) (t : Node) :
    (nukeEmptyRecursive opts root 0 input t).node = some t ∧
    (nukeEmptyRecursive opts root 0 input t).input = input ∧
    (∀ e ∈ (nukeEmptyRecursive opts root 0 input t).trace,
      e.isRemove = false ∧ e.isPrompt = false) ∧
    (∀ t' input', (nukeEmptyRecursive opts root 0 input t).node = some t' →
      stdoutOf opts (nukeEmptyRecursive opts root 0 input' t').trace =
        stdoutOf opts (nukeEmptyRecursive opts root 0 input t).trace ∧
      (nukeEmptyRecursive opts root 0 input' t').trace =
        (nukeEmptyRecursive opts root 0 input t).trace ∧
      (nukeEmptyRecursive opts root 0 input' t').ret =
        (nukeEmptyRecursive opts root 0 input t).ret) := by
  have h := dry_run_frame hdry t root 0 input
  refine ⟨by rw [h], by rw [h], dry_run_no_remove hdry t root 0 input, ?_⟩
  intro t' input' ht'
  rw [h] at ht'
  simp only [Option.some.injEq] at ht'
  subst ht'
  have h' := dry_run_frame hdry t root 0 input'
  rw [h, h']
  exact ⟨rfl, rfl, rfl⟩

/-- C2 on the scenario tree: a dry run leaves `root/{a/, b/{file.txt}}` as it is. -/
theorem C2_dry_run_mutates_nothing_witness :
    dryOpts.dry_run = true ∧
    (nukeEmptyRecursive dryOpts ["root"] 0 ["y"] scenarioTree).node = some scenarioTree ∧
    (nukeEmptyRecursive dryOpts ["root"] 0 ["y"] scenarioTree).input = ["y"] ∧
    (∀ e ∈ (nukeEmptyRecursive dryOpts ["root"] 0 ["y"] scenarioTree).trace,
      e.isRemove = false ∧ e.isPrompt = false) ∧
    (∀ t' input', (nukeEmptyRecursive dryOpts ["root"] 0 ["y"] scenarioTree).node = some t' →
      stdoutOf dryOpts (nukeEmptyRecursive dryOpts ["root"] 0 input' t').trace =
        stdoutOf dryOpts (nukeEmptyRecursive dryOpts ["root"] 0 ["y"] scenarioTree).trace ∧
      (nukeEmptyRecursive dryOpts ["root"] 0 input' t').trace =
        (nukeEmptyRecursive dryOpts ["root"] 0 ["y"] scenarioTree).trace ∧
      (nukeEmptyRecursive dryOpts ["root"] 0 input' t').ret =
        (nukeEmptyRecursive dryOpts ["root"] 0 ["y"] scenarioTree).ret) :=
  ⟨rfl, C2_dry_run_mutates_nothing dryOpts rfl ["root"] ["y"] scenarioTree⟩

/-! ## Depth -/

/-- Nothing is logged about a directory deeper than `max_depth` (or than the
depth the scan starts at): the depth of the directory of every event is at most
the larger of the two. -/
theorem trace_depth (opts : Opt) (t : Node) :
    ∀ q k s, ∀ e ∈ (nukeEmptyRecursive opts q k s t).trace,
      (e.path.length : Int) + k ≤ q.length + max k opts.max_depth := by
  refine Node.induct_mem (P := fun t => ∀ q k s, ∀ e ∈ (nukeEmptyRecursive opts q k s t).trace,
      (e.path.length : Int) + k ≤ q.length + max k opts.max_depth) ?_ ?_ t
  · intro n q k s e he
    rw [nuke_absent (t := .file n) rfl] at he
    rw [notADir_path e he]
    have := le_max_left k opts.max_depth
    omega
  · intro n a cs ih q k s e
    refine nuke_cases (Q := fun r => e ∈ r.trace →
      (e.path.length : Int) + k ≤ q.length + max k opts.max_depth) (.dir n a cs) ?_ ?_ ?_
    · intro _ he
      rw [notADir_path e he]
      have := le_max_left k opts.max_depth
      omega
    · intro _ he
      have := le_max_left k opts.max_depth
      simp at he
      rcases he with h | h <;> subst h <;> simp only [Event.path] <;> omega
    · intro n' a' cs' heq _ he
      cases heq
      have h1 := le_max_left k opts.max_depth
      have h2 := le_max_right k opts.max_depth
      simp only [afterLoop, List.mem_cons, List.mem_append] at he
      rcases he with h | h | h
      · subst h; simp only [Event.path]; omega
      · obtain ⟨c, hc, s', _, _, hk, hc'⟩ := scan_mem_trace cs _ _ h
        have := ih c hc _ _ _ e hc'
        rw [max_eq_right hk] at this
        simp only [List.length_append, List.length_singleton, Nat.cast_add, Nat.cast_one] at this
        omega
      · rw [finish_path e h]; omega

/-! ## Scans on which every request succeeds -/

/-- `allFineList` says that every request succeeds on every entry. -/
theorem allFineList_iff (cs : List Node) :
    allFineList cs = true ↔ ∀ c ∈ cs, c.allFine = true := by
  induction cs with
  | nil => simp [allFineList]
  | cons c rest ih => simp [allFineList, ih]

/-- What `Node.allFine` says of a directory. -/
theorem allFine_dir {n : String} {a : DirAttrs} {cs : List Node} :
    (Node.dir n a cs).allFine = true ↔
      (a.typeCheckRaises = false ∧ a.probe = .ok ∧ a.listingRaisesAfter = none ∧
        a.rm = .removed) ∧ ∀ c ∈ cs, c.allFine = true := by
  simp [Node.allFine, allFineList_iff, DirAttrs.isFine, and_assoc]

/-- Success of every request is inherited by every entry of the tree. -/
theorem At.allFine {q p : Path} {k j : Int} {t d : Node} (h : At q k t p j d)
    (ht : t.allFine = true) : d.allFine = true := by
  induction h with
  | here q k t => exact ht
  | down hc _ ih => exact ih ((allFine_dir.mp ht).2 _ hc)

/-- What lies above a directory is a directory. -/
theorem At.isDir {q p : Path} {k j : Int} {t d : Node} (h : At q k t p j d)
    (hd : d.isDir = true) : t.isDir = true := by
  cases h with
  | here => exact hd
  | down _ _ => rfl

/-- When every request succeeds, the loop visits every directory among the
entries, as long as the depth bound allows it. -/
theorem scan_visits {opts : Opt} {q : Path} {k : Int} (hk : k + 1 ≤ opts.max_depth)
    (cs : List Node) :
    (∀ c ∈ cs, c.allFine = true) → ∀ s c, c ∈ cs → c.isDir = true →
      ∃ s', ∀ e ∈ (nukeEmptyRecursive opts (q ++ [c.name]) (k + 1) s' c).trace,
        e ∈ (scanEntries opts q k none s cs).trace := by
  induction cs with
  | nil => intro _ s c hc; simp at hc
  | cons c0 rest ih =>
    intro hfine s c hc hcd
    have hrest : ∀ c ∈ rest, c.allFine = true := fun c h => hfine c (List.mem_cons_of_mem _ h)
    have h0 : c0.isDir = true → c0.typeCheckRaises = false ∧ c0.probe = .ok := by
      intro hd
      cases c0 with
      | file n => simp [Node.isDir] at hd
      | dir n a cs0 =>
        have := (allFine_dir.mp (hfine _ (List.mem_cons_self _ _))).1
        exact ⟨this.1, this.2.1⟩
    refine scanEntries_cons_cases (Q := fun r =>
      ∃ s', ∀ e ∈ (nukeEmptyRecursive opts (q ++ [c.name]) (k + 1) s' c).trace, e ∈ r.trace)
      ?_ ?_ ?_ ?_
    · rintro (h | ⟨hd, ht⟩)
      · simp at h
      · rw [(h0 hd).1] at ht; simp at ht
    · intro _ hskip
      rcases List.mem_cons.mp hc with h | h
      · subst h
        rcases hskip with h' | ⟨_, h'⟩
        · rw [hcd] at h'; simp at h'
        · exact absurd hk h'
      · exact ih hrest s c h hcd
    · intro _ hd _ _ hret
      rw [ret_eq_none_iff, (h0 hd).2] at hret
      simp at hret
    · intro b _ _ _ _ _
      rcases List.mem_cons.mp hc with h | h
      · subst h
        exact ⟨s, fun e he => List.mem_append_left _ he⟩
      · obtain ⟨s', hs'⟩ := ih hrest _ c h hcd
        exact ⟨s', fun e he => List.mem_append_right _ (hs' e he)⟩

/-- When every request succeeds, every directory of the tree that is not deeper
than `max_depth` is visited: the log of a call on it is part of the log. -/
theorem visits (opts : Opt) {q p : Path} {k j : Int} {t d : Node} (h : At q k t p j d) :
    t.allFine = true → d.isDir = true → j ≤ opts.max_depth → ∀ s,
      ∃ s', ∀ e ∈ (nukeEmptyRecursive opts p j s' d).trace,
        e ∈ (nukeEmptyRecursive opts q k s t).trace := by
  induction h with
  | here q k t => intro _ _ _ s; exact ⟨s, fun e he => he⟩
  | @down q k n a cs c p j d hc hat ih =>
    intro hfine hd hj s
    obtain ⟨⟨_, hp, hl, _⟩, hcs⟩ := allFine_dir.mp hfine
    have hk : k + 1 ≤ opts.max_depth := by
      have h1 := hat.depth_eq
      have h2 := hat.path_le.length_le
      simp only [List.length_append, List.length_singleton, Nat.cast_add, Nat.cast_one] at h1
      simp only [List.length_append, List.length_singleton] at h2
      omega
    obtain ⟨s1, hs1⟩ := scan_visits (q := q) hk cs hcs s c hc (hat.isDir hd)
    obtain ⟨s2, hs2⟩ := ih (hcs c hc) hd hj s1
    refine ⟨s2, fun e he => ?_⟩
    rw [nuke_ok hp, hl]
    simp only [afterLoop, List.mem_cons, List.mem_append]
    exact Or.inr (Or.inl (hs1 e (hs2 e he)))

/-! ## C3: depth gating of empty leaves -/

/-- In a plain run (no prompt, no dry run), the lines after a loop that found the
directory empty at a depth of at least `min_depth` call `fs::remove`. -/
theorem finish_plain {opts : Opt} (hi : opts.interactive = false)
    {q : Path} {k : Int} {n : String} {a : DirAttrs} {lr : LoopRes}
    (hthrew : lr.threw = false) (hempty : lr.currentDirEempty = true)
    (hk : opts.min_depth ≤ k) :
    finish opts q k n a lr = eliminate opts q n a [] lr.input lr.disk := by
  simp [finish, gate, hi, hthrew, hempty, hk]

/-- C3. In a plain run (not interactive, not a dry run) with
`0 ≤ min_depth ≤ max_depth`, on a tree with distinct names on which every
file-system request succeeds: a directory without entries found at depth `j` below
the scan root is removed if and only if `min_depth ≤ j ≤ max_depth`. -/
theorem C3_leaf_removed_iff_in_window (opts : Opt) (hi : opts.interactive = false)
    (hd : opts.dry_run = false) (hmin : 0 ≤ opts.min_depth)
    (hmax : opts.min_depth ≤ opts.max_depth) (root : Path) (input : List String) (t : Node)
    (ht : t.distinctNames = true) (hfine : t.allFine = true) {p : Path} {j : Int}
    {n : String} {a : DirAttrs} (hleaf : At root 0 t p j (.dir n a [])) :
    Event.remove p .removed ∈ (nukeEmptyRecursive opts root 0 input t).trace ↔
      opts.min_depth ≤ j ∧ j ≤ opts.max_depth := by
  constructor
  · intro he
    obtain ⟨s', _, he'⟩ := located hleaf ht he (List.prefix_refl _)
    have htrue := elim_ret he' rfl rfl
    obtain ⟨⟨_, hp, _, _⟩, _⟩ := allFine_dir.mp (hleaf.allFine hfine)
    rw [nuke_ok hp] at htrue
    obtain ⟨_, _, hk⟩ := finish_true (show (finish opts p j n a _).ret = some true from htrue)
    refine ⟨hk, ?_⟩
    have h1 := trace_depth opts t root 0 input _ he
    have h2 := hleaf.depth_eq
    rw [max_eq_right (hmin.trans hmax)] at h1
    simp only [Event.path] at h1
    omega
  · rintro ⟨hlo, hhi⟩
    obtain ⟨s', hs'⟩ := visits opts hleaf hfine rfl hhi input
    apply hs'
    obtain ⟨⟨_, hp, hl, hrm⟩, _⟩ := allFine_dir.mp (hleaf.allFine hfine)
    rw [nuke_ok hp, hl, scanEntries_nil]
    simp only [afterLoop]
    rw [finish_plain hi rfl rfl hlo]
    simp [eliminate, hd, fsRemove, hrm]

/-- C3 on `root/{x/{y/}}` with the depths 1 to 2: the leaf `y`, at depth 2, is removed. -/
theorem C3_leaf_removed_iff_in_window_witness :
    (windowOpts 1 2).interactive = false ∧ (windowOpts 1 2).dry_run = false ∧
    0 ≤ (windowOpts 1 2).min_depth ∧ (windowOpts 1 2).min_depth ≤ (windowOpts 1 2).max_depth ∧
    nestedTree.distinctNames = true ∧ nestedTree.allFine = true ∧
    (Event.remove ["root", "x", "y"] .removed ∈
        (nukeEmptyRecursive (windowOpts 1 2) ["root"] 0 [] nestedTree).trace ↔
      (windowOpts 1 2).min_depth ≤ 2 ∧ (2 : Int) ≤ (windowOpts 1 2).max_depth) :=
  ⟨rfl, rfl, by decide, by decide, by decide, by decide,
    C3_leaf_removed_iff_in_window (windowOpts 1 2) rfl rfl (by decide) (by decide) ["root"] []
      nestedTree (by decide) (by decide)
      (At.down (c := .dir "x" .fine [.dir "y" .fine []]) (by simp)
        (At.down (c := .dir "y" .fine []) (by simp) (At.here _ _ _)))⟩

/-! ## C4: directories above `min_depth` -/

/-- A call at a depth below `min_depth` does not return `true`. -/
theorem ret_below_min {opts : Opt} {q : Path} {k : Int} {s : List String} {t : Node}
    (hk : k < opts.min_depth) : (nukeEmptyRecursive opts q k s t).ret ≠ some true := by
  refine nuke_cases (Q := fun r => r.ret ≠ some true) t ?_ ?_ ?_
  · intro _; simp [notADir]
  · intro _; simp
  · intro n a cs _ _ h
    obtain ⟨_, _, h'⟩ := finish_true (show (finish opts q k n a _).ret = some true from h)
    omega

/-- C4. For a directory `d` of the tree (distinct names) at a depth `j < min_depth`,
whatever the options, the input and the outcomes of the file-system requests:
a call on `d` at that depth returns `false` (unless its check at line 40 raises);
the scan logs no elimination of `d` (no removal, no "would delete", no deleted
line, no `true` return); and the loop of a parent that lists `d` never ends with
`currentDirEempty` set, so `d` counts as non-empty for its parent. -/
theorem C4_below_min_depth_kept (opts : Opt) (root : Path) (input : List String) (t : Node)
    (ht : t.distinctNames = true) {p : Path} {j : Int} {d : Node}
    (hat : At root 0 t p j d) (hj : j < opts.min_depth) :
    (∀ s, (nukeEmptyRecursive opts p j s d).ret =
      if d.probe = .raises then none else some false) ∧
    (∀ e ∈ (nukeEmptyRecursive opts root 0 input t).trace, e.path = p → e.isElim = false) ∧
    (∀ (q : Path) (lim : Option Nat) (s : List String) (cs : List Node), d ∈ cs →
      (scanEntries opts q (j - 1) lim s cs).threw = false →
      (scanEntries opts q (j - 1) lim s cs).currentDirEempty = false) := by
  refine ⟨fun s => ret_of_ne_true (ret_below_min hj), ?_, ?_⟩
  · intro e he hp
    rw [Bool.eq_false_iff]
    intro hel
    obtain ⟨s', _, he'⟩ := located hat ht he (hp ▸ List.prefix_refl _)
    exact ret_below_min hj (elim_ret he' hp hel)
  · intro q lim s cs hd hthrew
    rw [Bool.eq_false_iff]
    intro hempty
    obtain ⟨s', hs', _⟩ := scan_true cs lim s hthrew hempty d hd
    rw [sub_add_cancel] at hs'
    exact ret_below_min hj hs'

/-- C4 on `root/{x/{y/}}` with `min_depth = 2`: `x`, at depth 1, is kept. -/
theorem C4_below_min_depth_kept_witness :
    nestedTree.distinctNames = true ∧ (1 : Int) < (windowOpts 2 5).min_depth ∧
    (∀ s, (nukeEmptyRecursive (windowOpts 2 5) ["root", "x"] 1 s
        (.dir "x" .fine [.dir "y" .fine []])).ret =
      if (Node.dir "x" .fine [.dir "y" .fine []]).probe = .raises then none else some false) ∧
    (∀ e ∈ (nukeEmptyRecursive (windowOpts 2 5) ["root"] 0 [] nestedTree).trace,
      e.path = ["root", "x"] → e.isElim = false) ∧
    (∀ (q : Path) (lim : Option Nat) (s : List String) (cs : List Node),
      Node.dir "x" .fine [.dir "y" .fine []] ∈ cs →
      (scanEntries (windowOpts 2 5) q (1 - 1) lim s cs).threw = false →
      (scanEntries (windowOpts 2 5) q (1 - 1) lim s cs).currentDirEempty = false) :=
  ⟨by decide, by decide,
    C4_below_min_depth_kept (windowOpts 2 5) ["root"] [] nestedTree (by decide)
      (At.down (c := .dir "x" .fine [.dir "y" .fine []]) (by simp) (At.here _ _ _))
      (by decide)⟩

/-! ## C5: the depth ceiling -/

/-- A loop over at least one entry that ends with `currentDirEempty` set has
recursed: the next depth is within `max_depth`. -/
theorem scan_true_depth {opts : Opt} {q : Path} {k : Int} {lim : Option Nat}
    {s : List String} {cs : List Node} (hcs : cs ≠ [])
    (hthrew : (scanEntries opts q k lim s cs).threw = false)
    (hempty : (scanEntries opts q k lim s cs).currentDirEempty = true) :
    k + 1 ≤ opts.max_depth := by
  cases cs with
  | nil => exact absurd rfl hcs
  | cons c rest =>
    revert hthrew hempty
    refine scanEntries_cons_cases (Q := fun r => r.threw = false → r.currentDirEempty = true →
      k + 1 ≤ opts.max_depth) ?_ ?_ ?_ ?_
    · intro _ h; simp at h
    · intro _ _ _ h; simp at h
    · intro _ _ _ _ _ h; simp at h
    · intro b _ _ _ hk _ _ _; exact hk

/-- Lines 59-61: a call at depth `max_depth` on a directory with an entry does
not return `true`. -/
theorem ret_at_max {opts : Opt} {p : Path} {j : Int} {s : List String} {n : String}
    {a : DirAttrs} {cs : List Node} (hj : j = opts.max_depth) (hcs : cs ≠ []) :
    (nukeEmptyRecursive opts p j s (.dir n a cs)).ret ≠ some true := by
  refine nuke_cases (Q := fun r => r.ret ≠ some true) (.dir n a cs) ?_ ?_ ?_
  · intro _; simp [notADir]
  · intro _; simp
  · intro n' a' cs' heq _ h
    cases heq
    obtain ⟨h1, h2, _⟩ := finish_true (show (finish opts p j n a _).ret = some true from h)
    have := scan_true_depth hcs h1 h2
    omega

/-- C5. In a scan from depth 0 of a tree with distinct names, whatever the other options, the input and the outcomes of the file-system
requests: for a directory `d` at depth `max_depth` that has a subdirectory, and
every directory `x` on the way from the root to `d` (both included):
a call on `d` returns `false` (unless its check at line 40 raises) and logs
events about `d` only, so it recurses into no entry; nothing in the log of the
scan is about a path deeper than `max_depth`; and the scan logs no elimination
of `x`. -/
theorem C5_depth_ceiling (opts : Opt) (root : Path)
    (input : List String) (t : Node) (ht : t.distinctNames = true) {a p : Path} {i j : Int}
    {x : Node} {n : String} {da : DirAttrs} {cs : List Node}
    (hx : At root 0 t a i x) (hd : At a i x p j (.dir n da cs)) (hj : j = opts.max_depth)
    (hsub : ∃ c ∈ cs, c.isDir = true) :
    (∀ s, (nukeEmptyRecursive opts p j s (.dir n da cs)).ret =
      if da.probe = .raises then none else some false) ∧
    (∀ s, ∀ e ∈ (nukeEmptyRecursive opts p j s (.dir n da cs)).trace, e.path = p) ∧
    (∀ e ∈ (nukeEmptyRecursive opts root 0 input t).trace,
      (e.path.length : Int) ≤ root.length + opts.max_depth) ∧
    (∀ e ∈ (nukeEmptyRecursive opts root 0 input t).trace, e.path = a → e.isElim = false) := by
  have hcs : cs ≠ [] := by
    obtain ⟨c, hc, _⟩ := hsub
    exact List.ne_nil_of_mem hc
  have hmax : 0 ≤ opts.max_depth := by
    have h1 := (hx.trans hd).depth_eq
    have h2 := (hx.trans hd).path_le.length_le
    omega
  refine ⟨fun s => ret_of_ne_true (ret_at_max hj hcs), ?_, ?_, ?_⟩
  · intro s e
    refine nuke_cases (Q := fun r => e ∈ r.trace → e.path = p) (.dir n da cs) ?_ ?_ ?_
    · intro _ he; exact notADir_path e he
    · intro _ he
      simp at he
      rcases he with h | h <;> subst h <;> rfl
    · intro n' a' cs' heq _ he
      cases heq
      simp only [afterLoop, List.mem_cons, List.mem_append] at he
      rcases he with h | h | h
      · subst h; rfl
      · obtain ⟨_, _, _, _, _, hk, _⟩ := scan_mem_trace cs _ _ h
        omega
      · exact finish_path e h
  · intro e he
    have := trace_depth opts t root 0 input e he
    rw [max_eq_right hmax] at this
    omega
  · refine ancestors_kept hx hd ht ?_
    intro h
    obtain ⟨s', _, he'⟩ := located (hx.trans hd) ht h (List.prefix_refl _)
    exact ret_at_max hj hcs (ret_mem_trace.mp he')

/-- C5 on `root/{x/{y/}}` with `max_depth = 1`: `x` holds `y` at the ceiling, and
the scan removes nothing at all. -/
theorem C5_depth_ceiling_witness :
    nestedTree.distinctNames = true ∧
    ((nukeEmptyRecursive (windowOpts 0 1) ["root"] 0 [] nestedTree).trace.filter
      Event.isElim = []) ∧
    ((∀ s, (nukeEmptyRecursive (windowOpts 0 1) ["root", "x"] 1 s
        (.dir "x" .fine [.dir "y" .fine []])).ret =
      if DirAttrs.fine.probe = .raises then none else some false) ∧
    (∀ s, ∀ e ∈ (nukeEmptyRecursive (windowOpts 0 1) ["root", "x"] 1 s
        (.dir "x" .fine [.dir "y" .fine []])).trace, e.path = ["root", "x"]) ∧
    (∀ e ∈ (nukeEmptyRecursive (windowOpts 0 1) ["root"] 0 [] nestedTree).trace,
      (e.path.length : Int) ≤ (["root"] : Path).length + (windowOpts 0 1).max_depth) ∧
    (∀ e ∈ (nukeEmptyRecursive (windowOpts 0 1) ["root"] 0 [] nestedTree).trace,
      e.path = ["root"] → e.isElim = false)) :=
  ⟨by decide, by decide,
    C5_depth_ceiling (windowOpts 0 1) ["root"] [] nestedTree (by decide)
      (At.here ["root"] 0 nestedTree)
      (At.down (c := .dir "x" .fine [.dir "y" .fine []]) (by simp) (At.here _ _ _))
      rfl ⟨.dir "y" .fine [], by simp, rfl⟩⟩

/-! ## C6: a tree of directories only -/

/-- `onlyDirsList` says that every entry is a tree of directories. -/
theorem onlyDirsList_iff (cs : List Node) :
    onlyDirsList cs = true ↔ ∀ c ∈ cs, c.onlyDirs = true := by
  induction cs with
  | nil => simp [onlyDirsList]
  | cons c rest ih => simp [onlyDirsList, ih]

/-- A tree of directories is a directory. -/
theorem isDir_of_onlyDirs {t : Node} (h : t.onlyDirs = true) : t.isDir = true := by
  cases t with
  | file n => simp [Node.onlyDirs] at h
  | dir n a cs => rfl

/-- Every entry of a tree of directories is a tree of directories. -/
theorem At.onlyDirs {q p : Path} {k j : Int} {t d : Node} (h : At q k t p j d)
    (ht : t.onlyDirs = true) : d.onlyDirs = true := by
  induction h with
  | here q k t => exact ht
  | @down q k n a cs c p j d hc _ ih =>
    rw [Node.onlyDirs, onlyDirsList_iff] at ht
    exact ih (ht c hc)

/-- A subdirectory has fewer levels below it than its parent. -/
theorem height_lt_levels {cs : List Node} {c : Node} (hc : c ∈ cs) (hd : c.isDir = true) :
    c.height + 1 ≤ levelsList cs := by
  induction cs with
  | nil => simp at hc
  | cons c0 rest ih =>
    rw [levelsList]
    rcases List.mem_cons.mp hc with h | h
    · subst h
      rw [if_pos hd]
      exact le_max_left _ _
    · exact (ih h).trans (le_max_right _ _)

/-- The levels below a directory of the tree fit below the root. -/
theorem At.height_le {q p : Path} {k j : Int} {t d : Node} (h : At q k t p j d)
    (hd : d.isDir = true) : j + d.height ≤ k + t.height := by
  induction h with
  | here q k t => exact le_refl _
  | @down q k n a cs c p j d hc hat ih =>
    have h1 := ih hd
    have h2 := height_lt_levels hc (hat.isDir hd)
    rw [Node.height]
    omega

/-- In a plain run on which every request succeeds, a tree of directories whose
levels all lie between `min_depth` and `max_depth` is eliminated: the call returns
`true`, reads no input and leaves nothing on disk. -/
theorem all_removed {opts : Opt} (hi : opts.interactive = false) (hd : opts.dry_run = false)
    (t : Node) :
    t.onlyDirs = true → t.allFine = true → ∀ q k s, opts.min_depth ≤ k →
      k + t.height ≤ opts.max_depth →
      (nukeEmptyRecursive opts q k s t).ret = some true ∧
      (nukeEmptyRecursive opts q k s t).node = none ∧
      (nukeEmptyRecursive opts q k s t).input = s := by
  refine Node.induct (P := fun t => t.onlyDirs = true → t.allFine = true → ∀ q k s,
      opts.min_depth ≤ k → k + t.height ≤ opts.max_depth →
      (nukeEmptyRecursive opts q k s t).ret = some true ∧
      (nukeEmptyRecursive opts q k s t).node = none ∧
      (nukeEmptyRecursive opts q k s t).input = s)
    (Q := fun cs => onlyDirsList cs = true → allFineList cs = true → ∀ q k s,
      opts.min_depth ≤ k + 1 → k + levelsList cs ≤ opts.max_depth →
      (scanEntries opts q k none s cs).currentDirEempty = true ∧
      (scanEntries opts q k none s cs).threw = false ∧
      (scanEntries opts q k none s cs).disk = [] ∧
      (scanEntries opts q k none s cs).input = s) ?_ ?_ ?_ ?_ t
  · intro n h; simp [Node.onlyDirs] at h
  · intro n a cs ih hod hfine q k s hmin hmax
    obtain ⟨⟨_, hp, hl, hrm⟩, _⟩ := allFine_dir.mp hfine
    rw [Node.onlyDirs] at hod
    rw [Node.allFine, Bool.and_eq_true] at hfine
    rw [Node.height] at hmax
    obtain ⟨h1, h2, h3, h4⟩ := ih hod hfine.2 q k s (by omega) hmax
    rw [nuke_ok hp, hl]
    simp only [afterLoop]
    rw [finish_plain hi h2 h1 hmin, h3, h4]
    simp [eliminate, hd, fsRemove, hrm]
  · intro _ _ q k s _ _
    simp [scanEntries_nil]
  · intro c rest ihc ihrest hod hfine q k s hmin hmax
    rw [onlyDirsList, Bool.and_eq_true] at hod
    rw [allFineList, Bool.and_eq_true] at hfine
    have hcd : c.isDir = true := isDir_of_onlyDirs hod.1
    rw [levelsList, if_pos hcd] at hmax
    have hm1 := le_max_left (c.height + 1) (levelsList rest)
    have hm2 := le_max_right (c.height + 1) (levelsList rest)
    obtain ⟨hc1, hc2, hc3⟩ := ihc hod.1 hfine.1 (q ++ [c.name]) (k + 1) s hmin (by omega)
    refine scanEntries_cons_cases (Q := fun r => r.currentDirEempty = true ∧ r.threw = false ∧
      r.disk = [] ∧ r.input = s) ?_ ?_ ?_ ?_
    · rintro (h | ⟨_, ht⟩)
      · simp at h
      · cases c with
        | file n => simp [Node.isDir] at hcd
        | dir n a cs0 =>
          have := (allFine_dir.mp hfine.1).1.1
          rw [Node.typeCheckRaises, this] at ht
          simp at ht
    · rintro _ (h | ⟨_, h⟩)
      · rw [hcd] at h; simp at h
      · omega
    · intro _ _ _ _ h
      rw [hc1] at h; simp at h
    · intro b _ _ _ _ hb
      rw [hc1] at hb
      simp only [Option.some.injEq] at hb
      subst hb
      rw [hc2, hc3]
      obtain ⟨h1, h2, h3, h4⟩ := ihrest hod.2 hfine.2 q k s hmin (by omega)
      simp [h1, h2, h3, h4]

/-- Outside a dry run, a call that returns `true` has removed its directory and
written the line for it. -/
theorem true_removed {opts : Opt} (hd : opts.dry_run = false) {q : Path} {k : Int}
    {s : List String} {t : Node} (h : (nukeEmptyRecursive opts q k s t).ret = some true) :
    Event.remove q .removed ∈ (nukeEmptyRecursive opts q k s t).trace ∧
    Event.deleted q ∈ (nukeEmptyRecursive opts q k s t).trace := by
  revert h
  refine nuke_cases (Q := fun r => r.ret = some true →
    Event.remove q .removed ∈ r.trace ∧ Event.deleted q ∈ r.trace) t ?_ ?_ ?_
  · intro _ h; simp [notADir] at h
  · intro _ h; simp at h
  · intro n a cs _ _
    simp only [afterLoop, List.mem_cons, List.mem_append]
    unfold finish gate eliminate
    repeat' split
    all_goals simp_all

/-- C6. In a plain run (not interactive, not a dry run) with `min_depth = 0` and
`max_depth = INT_MAX`, on a tree of directories only on which every file-system
request succeeds (and whose nesting fits in an `int`): the call on the root returns
`true`, nothing is left on disk, and every directory of the tree, the root
included, is removed. -/
theorem C6_tree_of_directories_removed (opts : Opt) (hi : opts.interactive = false)
    (hd : opts.dry_run = false) (hmin : opts.min_depth = 0) (hmax : opts.max_depth = INT_MAX)
    (root : Path) (input : List String) (t : Node) (hdirs : t.onlyDirs = true)
    (hfine : t.allFine = true) (hfit : (t.height : Int) ≤ INT_MAX) :
    (nukeEmptyRecursive opts root 0 input t).ret = some true ∧
    (nukeEmptyRecursive opts root 0 input t).node = none ∧
    (∀ p j d, At root 0 t p j d →
      Event.remove p .removed ∈ (nukeEmptyRecursive opts root 0 input t).trace) := by
  obtain ⟨h1, h2, _⟩ := all_removed hi hd t hdirs hfine root 0 input (by omega) (by omega)
  refine ⟨h1, h2, ?_⟩
  intro p j d hat
  have hdd : d.isDir = true := isDir_of_onlyDirs (hat.onlyDirs hdirs)
  have hh := hat.height_le hdd
  have hj : 0 ≤ j := by
    have h1 := hat.depth_eq
    have h2 := hat.path_le.length_le
    omega
  obtain ⟨s', hs'⟩ := visits opts hat hfine hdd (by omega) input
  obtain ⟨h3, _, _⟩ := all_removed hi hd d (hat.onlyDirs hdirs) (hat.allFine hfine) p j s'
    (by omega) (by omega)
  exact hs' _ (true_removed hd h3).1

/-- C6 on `root/{a/{b/}, c/}`: all four directories are removed. -/
theorem C6_tree_of_directories_removed_witness :
    plainOpts.interactive = false ∧ plainOpts.dry_run = false ∧ plainOpts.min_depth = 0 ∧
    plainOpts.max_depth = INT_MAX ∧ dirsTree.onlyDirs = true ∧ dirsTree.allFine = true ∧
    (dirsTree.height : Int) ≤ INT_MAX ∧
    ((nukeEmptyRecursive plainOpts ["root"] 0 [] dirsTree).ret = some true ∧
    (nukeEmptyRecursive plainOpts ["root"] 0 [] dirsTree).node = none ∧
    (∀ p j d, At ["root"] 0 dirsTree p j d →
      Event.remove p .removed ∈ (nukeEmptyRecursive plainOpts ["root"] 0 [] dirsTree).trace)) :=
  ⟨rfl, rfl, rfl, rfl, by decide, by decide, by decide,
    C6_tree_of_directories_removed plainOpts rfl rfl rfl rfl ["root"] [] dirsTree
      (by decide) (by decide) (by decide)⟩

/-! ## C7: a dry run reports what a plain run removes -/

/-- Outside a dry run, a call that returns `true` leaves nothing on disk. -/
theorem true_node_none {opts : Opt} (hd : opts.dry_run = false) {q : Path} {k : Int}
    {s : List String} {t : Node} (h : (nukeEmptyRecursive opts q k s t).ret = some true) :
    (nukeEmptyRecursive opts q k s t).node = none := by
  revert h
  refine nuke_cases (Q := fun r => r.ret = some true → r.node = none) t ?_ ?_ ?_
  · intro _ h; simp [notADir] at h
  · intro _ h; simp at h
  · intro n a cs _ _
    simp only [afterLoop]
    unfold finish gate eliminate
    repeat' split
    all_goals simp_all

/-- Outside a dry run, a loop that ends with `currentDirEempty` set has left no
entry on disk. -/
theorem scan_disk_nil {opts : Opt} (hd : opts.dry_run = false) {q : Path} {k : Int}
    (cs : List Node) :
    ∀ lim s, (scanEntries opts q k lim s cs).threw = false →
      (scanEntries opts q k lim s cs).currentDirEempty = true →
      (scanEntries opts q k lim s cs).disk = [] := by
  induction cs with
  | nil => intro lim s _ _; simp [scanEntries_nil]
  | cons c rest ih =>
    intro lim s
    refine scanEntries_cons_cases (Q := fun r => r.threw = false → r.currentDirEempty = true →
      r.disk = []) ?_ ?_ ?_ ?_
    · intro _ h; simp at h
    · intro _ _ _ h; simp at h
    · intro _ _ _ _ _ h; simp at h
    · intro b _ _ _ _ hb hthrew hempty
      simp only [Bool.and_eq_true] at hempty
      rw [hempty.1] at hb
      simp [true_node_none hd hb, ih _ _ hthrew hempty.2]

/-- The lines after the loop in a plain run in which `fs::remove` succeeds on the
directory. -/
theorem finish_real {opts : Opt} (hi : opts.interactive = false) (hd : opts.dry_run = false)
    (q : Path) (k : Int) (n : String) {a : DirAttrs} (hrm : a.rm = .removed) {lr : LoopRes}
    (hdisk : lr.threw = false → lr.currentDirEempty = true → lr.disk = []) :
    finish opts q k n a lr =
      if lr.threw then
        ⟨some false, [.errAccess q, .ret q false], lr.input, some (.dir n a lr.disk)⟩
      else if lr.currentDirEempty && decide (k ≥ opts.min_depth) then
        ⟨some true, [.remove q .removed, .deleted q, .ret q true], lr.input, none⟩
      else ⟨some false, [.ret q false], lr.input, some (.dir n a lr.disk)⟩ := by
  unfold finish
  split
  · rfl
  · rename_i hthrew
    split
    · rename_i hq
      simp only [Bool.and_eq_true] at hq
      have := hdisk (by simpa using hthrew) hq.1
      simp [gate, eliminate, hi, hd, fsRemove, this, hrm]
    · rfl

/-- `removalsSucceedList` says that removals succeed in every entry. -/
theorem removalsSucceedList_iff (cs : List Node) :
    removalsSucceedList cs = true ↔ ∀ c ∈ cs, c.removalsSucceed = true := by
  induction cs with
  | nil => simp [removalsSucceedList]
  | cons c rest ih => simp [removalsSucceedList, ih]

/-- A dry run and a plain run with the same depth bounds, on a tree on which
removals succeed, go through the same calls with the same results, and the dry
run reports what the plain run removes. -/
theorem dry_matches_real {dry real : Opt} (hdry : dry.dry_run = true)
    (hreal : real.dry_run = false) (hni : real.interactive = false)
    (hmin : dry.min_depth = real.min_depth) (hmax : dry.max_depth = real.max_depth)
    (t : Node) :
    t.removalsSucceed = true → ∀ q k s s',
      (nukeEmptyRecursive dry q k s t).ret = (nukeEmptyRecursive real q k s' t).ret ∧
      (nukeEmptyRecursive dry q k s t).trace.filterMap Event.wouldDeletePath =
        (nukeEmptyRecursive real q k s' t).trace.filterMap Event.removedPath ∧
      (nukeEmptyRecursive dry q k s t).trace.filterMap Event.flow =
        (nukeEmptyRecursive real q k s' t).trace.filterMap Event.flow := by
  refine Node.induct (P := fun t => t.removalsSucceed = true → ∀ q k s s',
      (nukeEmptyRecursive dry q k s t).ret = (nukeEmptyRecursive real q k s' t).ret ∧
      (nukeEmptyRecursive dry q k s t).trace.filterMap Event.wouldDeletePath =
        (nukeEmptyRecursive real q k s' t).trace.filterMap Event.removedPath ∧
      (nukeEmptyRecursive dry q k s t).trace.filterMap Event.flow =
        (nukeEmptyRecursive real q k s' t).trace.filterMap Event.flow)
    (Q := fun cs => removalsSucceedList cs = true → ∀ q k lim s s',
      (scanEntries dry q k lim s cs).currentDirEempty =
        (scanEntries real q k lim s' cs).currentDirEempty ∧
      (scanEntries dry q k lim s cs).threw = (scanEntries real q k lim s' cs).threw ∧
      (scanEntries dry q k lim s cs).trace.filterMap Event.wouldDeletePath =
        (scanEntries real q k lim s' cs).trace.filterMap Event.removedPath ∧
      (scanEntries dry q k lim s cs).trace.filterMap Event.flow =
        (scanEntries real q k lim s' cs).trace.filterMap Event.flow) ?_ ?_ ?_ ?_ t
  · intro n _ q k s s'
    rw [nuke_absent (t := .file n) rfl, nuke_absent (t := .file n) rfl]
    cases hv : dry.verbose <;> cases hv' : real.verbose <;>
      simp [notADir, logIf, hv, hv', Event.wouldDeletePath, Event.removedPath, Event.flow]
  · intro n a cs ih hrm q k s s'
    rw [Node.removalsSucceed, Bool.and_eq_true, decide_eq_true_eq] at hrm
    cases hp : a.probe with
    | absent =>
      have h : (Node.dir n a cs).probe = .absent := hp
      rw [nuke_absent h, nuke_absent h]
      cases hv : dry.verbose <;> cases hv' : real.verbose <;>
        simp [notADir, logIf, hv, hv', Event.wouldDeletePath, Event.removedPath, Event.flow]
    | raises =>
      have h : (Node.dir n a cs).probe = .raises := hp
      rw [nuke_raises h, nuke_raises h]
      simp [Event.wouldDeletePath, Event.removedPath, Event.flow]
    | ok =>
      obtain ⟨h1, h2, h3, h4⟩ := ih hrm.2 q k a.listingRaisesAfter s s'
      rw [nuke_ok hp, nuke_ok hp]
      simp only [afterLoop, finish_dry hdry,
        finish_real hni hreal q k n hrm.1 (scan_disk_nil hreal cs _ _), h1, h2, hmin]
      split
      · simp [List.filterMap_append, h3, h4, Event.wouldDeletePath, Event.removedPath,
          Event.flow]
      · split <;>
          simp [List.filterMap_append, h3, h4, Event.wouldDeletePath, Event.removedPath,
            Event.flow]
  · intro _ q k lim s s'
    simp [scanEntries_nil]
  · intro c rest ihc ihrest hrm q k lim s s'
    rw [removalsSucceedList, Bool.and_eq_true] at hrm
    rw [scanEntries, scanEntries]
    by_cases h0 : lim = some 0
    · simp [h0]
    · simp only [if_neg h0]
      by_cases hd : c.isDir = true
      · simp only [if_pos hd]
        by_cases htc : c.typeCheckRaises = true
        · simp [htc]
        · simp only [if_neg htc, hmax]
          by_cases hk : k + 1 ≤ real.max_depth
          · simp only [if_pos hk]
            obtain ⟨h1, h2, h3⟩ := ihc hrm.1 (q ++ [c.name]) (k + 1) s s'
            rw [h1]
            cases (nukeEmptyRecursive real (q ++ [c.name]) (k + 1) s' c).ret with
            | none => simp [h2, h3]
            | some b =>
              obtain ⟨h4, h5, h6, h7⟩ := ihrest hrm.2 q k (lim.map Nat.pred)
                (nukeEmptyRecursive dry (q ++ [c.name]) (k + 1) s c).input
                (nukeEmptyRecursive real (q ++ [c.name]) (k + 1) s' c).input
              simp [List.filterMap_append, h2, h3, h4, h5, h6, h7]
          · simp only [if_neg hk]
            exact ⟨trivial, (ihrest hrm.2 q k _ s s').2⟩
      · simp only [if_neg hd]
        exact ⟨trivial, (ihrest hrm.2 q k _ s s').2⟩

/-- C7. For a dry run (interactive or not, verbose or not) and a plain run (not
interactive, not a dry run) with the same `min_depth` and `max_depth`, on the
same tree on which every `fs::remove` succeeds, whatever the inputs: the paths the
dry run reports as "would delete" are, in the same order, the paths the plain run
removes; both scans make the same calls in the same order and every call returns
the same value in both (or is left by the same exception); the dry run never
prompts. -/
theorem C7_dry_run_reports_what_is_removed (dry real : Opt) (hdry : dry.dry_run = true)
    (hreal : real.dry_run = false) (hni : real.interactive = false)
    (hmin : dry.min_depth = real.min_depth) (hmax : dry.max_depth = real.max_depth)
    (root : Path) (s s' : List String) (t : Node) (hrm : t.removalsSucceed = true) :
    (nukeEmptyRecursive dry root 0 s t).trace.filterMap Event.wouldDeletePath =
      (nukeEmptyRecursive real root 0 s' t).trace.filterMap Event.removedPath ∧
    (nukeEmptyRecursive dry root 0 s t).trace.filterMap Event.flow =
      (nukeEmptyRecursive real root 0 s' t).trace.filterMap Event.flow ∧
    (nukeEmptyRecursive dry root 0 s t).ret = (nukeEmptyRecursive real root 0 s' t).ret ∧
    (∀ e ∈ (nukeEmptyRecursive dry root 0 s t).trace, e.isPrompt = false) := by
  obtain ⟨h1, h2, h3⟩ := dry_matches_real hdry hreal hni hmin hmax t hrm root 0 s s'
  exact ⟨h2, h3, h1, fun e he => (dry_run_no_remove hdry t root 0 s e he).2⟩

/-- C7 on `root/{a/{b/}, c/}`: an interactive dry run reports `b`, `a`, `c` and
`root`, which a plain run removes in that order. -/
theorem C7_dry_run_reports_what_is_removed_witness :
    dryInteractiveOpts.dry_run = true ∧ plainOpts.dry_run = false ∧
    plainOpts.interactive = false ∧ dryInteractiveOpts.min_depth = plainOpts.min_depth ∧
    dryInteractiveOpts.max_depth = plainOpts.max_depth ∧ dirsTree.removalsSucceed = true ∧
    (nukeEmptyRecursive plainOpts ["root"] 0 [] dirsTree).trace.filterMap Event.removedPath =
      [["root", "a", "b"], ["root", "a"], ["root", "c"], ["root"]] ∧
    ((nukeEmptyRecursive dryInteractiveOpts ["root"] 0 ["n"] dirsTree).trace.filterMap
        Event.wouldDeletePath =
      (nukeEmptyRecursive plainOpts ["root"] 0 [] dirsTree).trace.filterMap Event.removedPath ∧
    (nukeEmptyRecursive dryInteractiveOpts ["root"] 0 ["n"] dirsTree).trace.filterMap Event.flow =
      (nukeEmptyRecursive plainOpts ["root"] 0 [] dirsTree).trace.filterMap Event.flow ∧
    (nukeEmptyRecursive dryInteractiveOpts ["root"] 0 ["n"] dirsTree).ret =
      (nukeEmptyRecursive plainOpts ["root"] 0 [] dirsTree).ret ∧
    (∀ e ∈ (nukeEmptyRecursive dryInteractiveOpts ["root"] 0 ["n"] dirsTree).trace,
      e.isPrompt = false)) :=
  ⟨rfl, rfl, rfl, rfl, rfl, by decide, by decide,
    C7_dry_run_reports_what_is_removed dryInteractiveOpts plainOpts rfl rfl rfl rfl rfl
      ["root"] ["n"] [] dirsTree (by decide)⟩

/-! ## C8: a declined prompt -/

/-- A prompt is logged only after a loop that raised nothing and left
`currentDirEempty` set; when the answer is not a yes, the call returns `false`
without calling `fs::remove`. -/
theorem finish_prompt {opts : Opt} {q : Path} {k : Int} {n : String} {a : DirAttrs}
    {lr : LoopRes} {r : String} (h : Event.prompt q r ∈ (finish opts q k n a lr).trace) :
    lr.threw = false ∧ lr.currentDirEempty = true ∧
    (confirmed r = false → (finish opts q k n a lr).ret = some false ∧
      ∀ o, Event.remove q o ∉ (finish opts q k n a lr).trace) := by
  revert h
  unfold finish gate eliminate logIf
  repeat' split
  all_goals simp_all

/-- A prompt about the directory of a call is logged by the lines after its loop. -/
theorem prompt_mem_finish {opts : Opt} {q : Path} {k : Int} {s : List String} {n : String}
    {a : DirAttrs} {cs : List Node} {r : String}
    (h : Event.prompt q r ∈ (nukeEmptyRecursive opts q k s (.dir n a cs)).trace) :
    a.probe = .ok ∧ Event.prompt q r ∈
      (finish opts q k n a (scanEntries opts q k a.listingRaisesAfter s cs)).trace := by
  revert h
  refine nuke_cases (Q := fun res => Event.prompt q r ∈ res.trace → a.probe = .ok ∧
    Event.prompt q r ∈
      (finish opts q k n a (scanEntries opts q k a.listingRaisesAfter s cs)).trace)
    (.dir n a cs) ?_ ?_ ?_
  · intro _ h; simp [notADir, logIf] at h
  · intro _ h; simp at h
  · intro n' a' cs' heq hp h
    cases heq
    have hq : (Event.prompt q r).path = q := rfl
    rw [mem_afterLoop_self hq] at h
    rcases h with h | h
    · simp at h
    · exact ⟨hp, h⟩

/-- A call on a non-directory logs no prompt. -/
theorem no_prompt_file {opts : Opt} {q p : Path} {k : Int} {s : List String} {n r : String} :
    Event.prompt p r ∉ (nukeEmptyRecursive opts q k s (.file n)).trace := by
  rw [nuke_absent (t := .file n) rfl]
  simp [notADir, logIf]

/-- A call that prompts for its directory has visited every directory below it,
and each of these calls returned `true`. -/
theorem prompt_below_true {opts : Opt} {q p : Path} {k j : Int} {t d : Node}
    {s : List String} {r : String} (h : At q k t p j d) (hne : q ≠ p)
    (hprompt : Event.prompt q r ∈ (nukeEmptyRecursive opts q k s t).trace) :
    Event.ret p true ∈ (nukeEmptyRecursive opts q k s t).trace := by
  cases h with
  | here => exact absurd rfl hne
  | down hc hat =>
    obtain ⟨hp, hfin⟩ := prompt_mem_finish hprompt
    obtain ⟨h1, h2, _⟩ := finish_prompt hfin
    obtain ⟨s', hs', hsub⟩ := scan_true _ _ _ h1 h2 _ hc
    rw [nuke_ok hp]
    simp only [afterLoop, List.mem_cons, List.mem_append]
    exact Or.inr (Or.inl (hsub _ (true_propagates hat s' hs')))

/-- C8. In a scan of a tree with distinct names, whatever the options and the
outcomes of the file-system requests: when the log holds a prompt for a directory
`d` whose answer is not a yes (so the run is interactive and no dry run, and `d`
qualified for deletion), then `fs::remove` is not called on `d`, the call on `d`
returns `false`, and for every directory `x` on the way from the root to `d` no
elimination is logged (no removal, no deleted line, no `true` return) and, when
`x` is not `d` itself, no prompt. -/
theorem C8_declined_prompt (opts : Opt) (root : Path) (input : List String) (t : Node)
    (ht : t.distinctNames = true) {a p : Path} {i j : Int} {x d : Node} {r : String}
    (hx : At root 0 t a i x) (hd : At a i x p j d)
    (hprompt : Event.prompt p r ∈ (nukeEmptyRecursive opts root 0 input t).trace)
    (hno : confirmed r = false) :
    (∀ o, Event.remove p o ∉ (nukeEmptyRecursive opts root 0 input t).trace) ∧
    Event.ret p false ∈ (nukeEmptyRecursive opts root 0 input t).trace ∧
    Event.ret p true ∉ (nukeEmptyRecursive opts root 0 input t).trace ∧
    (∀ e ∈ (nukeEmptyRecursive opts root 0 input t).trace, e.path = a → e.isElim = false) ∧
    (a ≠ p → ∀ r', Event.prompt a r' ∉ (nukeEmptyRecursive opts root 0 input t).trace) := by
  obtain ⟨s', hfil, hp'⟩ := located (hx.trans hd) ht hprompt (List.prefix_refl _)
  have hown : (nukeEmptyRecursive opts p j s' d).ret = some false ∧
      ∀ o, Event.remove p o ∉ (nukeEmptyRecursive opts p j s' d).trace := by
    cases d with
    | file n => exact absurd hp' no_prompt_file
    | dir n da cs =>
      obtain ⟨hp, hfin⟩ := prompt_mem_finish hp'
      obtain ⟨_, _, h3⟩ := finish_prompt hfin
      obtain ⟨h4, h5⟩ := h3 hno
      rw [nuke_ok hp]
      refine ⟨h4, fun o ho => h5 o ?_⟩
      have hq : (Event.remove p o).path = p := rfl
      rw [mem_afterLoop_self hq] at ho
      rcases ho with h | h
      · simp at h
      · exact h
  have hin : ∀ e ∈ (nukeEmptyRecursive opts root 0 input t).trace, e.path = p →
      e ∈ (nukeEmptyRecursive opts p j s' d).trace := by
    intro e he hep
    rw [← hfil]
    exact List.mem_filter.mpr ⟨he, under_iff.mpr (hep ▸ List.prefix_refl _)⟩
  have hnt : Event.ret p true ∉ (nukeEmptyRecursive opts root 0 input t).trace := by
    intro h
    have := ret_mem_trace.mp (hin _ h rfl)
    rw [hown.1] at this
    simp at this
  refine ⟨fun o ho => hown.2 o (hin _ ho rfl), ?_, hnt, ancestors_kept hx hd ht hnt, ?_⟩
  · exact mem_of_filter_eq hfil (ret_mem_trace.mpr hown.1)
  · intro hne r' hr'
    obtain ⟨s'', hfil', hx'⟩ := located hx ht hr' (List.prefix_refl _)
    exact hnt (mem_of_filter_eq hfil' (prompt_below_true hd hne hx'))

/-- C8 on `root/{a/{b/}, c/}` with the answer "n" to the first prompt (for `b`):
`b` stays, and `a` and `root` are neither prompted for nor removed. -/
theorem C8_declined_prompt_witness :
    dirsTree.distinctNames = true ∧
    Event.prompt ["root", "a", "b"] "n" ∈
      (nukeEmptyRecursive interactiveOpts ["root"] 0 ["n", "y"] dirsTree).trace ∧
    confirmed "n" = false ∧
    Event.remove ["root", "c"] .removed ∈
      (nukeEmptyRecursive interactiveOpts ["root"] 0 ["n", "y"] dirsTree).trace ∧
    ((∀ o, Event.remove ["root", "a", "b"] o ∉
      (nukeEmptyRecursive interactiveOpts ["root"] 0 ["n", "y"] dirsTree).trace) ∧
    Event.ret ["root", "a", "b"] false ∈
      (nukeEmptyRecursive interactiveOpts ["root"] 0 ["n", "y"] dirsTree).trace ∧
    Event.ret ["root", "a", "b"] true ∉
      (nukeEmptyRecursive interactiveOpts ["root"] 0 ["n", "y"] dirsTree).trace ∧
    (∀ e ∈ (nukeEmptyRecursive interactiveOpts ["root"] 0 ["n", "y"] dirsTree).trace,
      e.path = ["root"] → e.isElim = false) ∧
    (["root"] ≠ ["root", "a", "b"] → ∀ r', Event.prompt ["root"] r' ∉
      (nukeEmptyRecursive interactiveOpts ["root"] 0 ["n", "y"] dirsTree).trace)) :=
  ⟨by decide, by decide, by decide, by decide,
    C8_declined_prompt (r := "n") interactiveOpts ["root"] ["n", "y"] dirsTree (by decide)
      (At.here ["root"] 0 dirsTree)
      (At.down (c := .dir "a" .fine [.dir "b" .fine []]) (by simp)
        (At.down (c := .dir "b" .fine []) (by simp) (At.here _ _ _)))
      (by decide) (by decide)⟩

/-! ## C9: a removal that fails -/

/-- When `fs::remove` does not remove the directory, the call returns `false`. -/
theorem finish_remove_failed {opts : Opt} {q : Path} {k : Int} {n : String} {a : DirAttrs}
    {lr : LoopRes} {o : RemoveOutcome}
    (h : Event.remove q o ∈ (finish opts q k n a lr).trace) (ho : o ≠ .removed) :
    (finish opts q k n a lr).ret = some false := by
  revert h
  unfold finish gate eliminate logIf
  repeat' split
  all_goals simp_all

/-- A call that logs a failed removal of its directory returns `false`. -/
theorem ret_of_remove_failed {opts : Opt} {q : Path} {k : Int} {s : List String} {t : Node}
    {o : RemoveOutcome} (h : Event.remove q o ∈ (nukeEmptyRecursive opts q k s t).trace)
    (ho : o ≠ .removed) : (nukeEmptyRecursive opts q k s t).ret = some false := by
  revert h
  refine nuke_cases (Q := fun r => Event.remove q o ∈ r.trace → r.ret = some false) t ?_ ?_ ?_
  · intro _ _; rfl
  · intro _ h; simp at h
  · intro n a cs _ _ h
    have hq : (Event.remove q o).path = q := rfl
    rw [mem_afterLoop_self hq] at h
    rcases h with h | h
    · simp at h
    · exact finish_remove_failed h ho

/-- An exception is logged for the directory of a call only when the call is left
by it. -/
theorem throw_mem_trace {opts : Opt} {q : Path} {k : Int} {s : List String} {t : Node}
    (h : Event.throw q ∈ (nukeEmptyRecursive opts q k s t).trace) :
    (nukeEmptyRecursive opts q k s t).ret = none := by
  revert h
  refine nuke_cases (Q := fun r => Event.throw q ∈ r.trace → r.ret = none) t ?_ ?_ ?_
  · intro _ h; simp [notADir, logIf] at h
  · intro _ _; rfl
  · intro n a cs _ _ h
    have hq : (Event.throw q).path = q := rfl
    rw [mem_afterLoop_self hq] at h
    rcases h with h | h
    · simp at h
    · have := finish_path _ h
      revert h
      unfold finish gate eliminate logIf
      repeat' split
      all_goals simp

/-- The loop goes on after an entry whose call returned `false`. -/
theorem scan_after_false {opts : Opt} {q : Path} {k : Int} {lim : Option Nat}
    {s : List String} {d : Node} {rest : List Node} (hlim : lim ≠ some 0)
    (hdir : d.isDir = true) (htc : d.typeCheckRaises = false) (hk : k + 1 ≤ opts.max_depth)
    (hret : (nukeEmptyRecursive opts (q ++ [d.name]) (k + 1) s d).ret = some false) :
    (scanEntries opts q k lim s (d :: rest)).trace =
      (nukeEmptyRecursive opts (q ++ [d.name]) (k + 1) s d).trace ++
        (scanEntries opts q k (lim.map Nat.pred)
          (nukeEmptyRecursive opts (q ++ [d.name]) (k + 1) s d).input rest).trace ∧
    (scanEntries opts q k lim s (d :: rest)).threw =
      (scanEntries opts q k (lim.map Nat.pred)
        (nukeEmptyRecursive opts (q ++ [d.name]) (k + 1) s d).input rest).threw ∧
    (scanEntries opts q k lim s (d :: rest)).currentDirEempty = false := by
  rw [scanEntries]
  simp [hlim, hdir, htc, hk, hret]

/-- C9. In a scan of a tree with distinct names, whatever the options, the input
and the outcomes of the other file-system requests: when `fs::remove` is called on
a directory `d` and does not remove it (it returns `false` or raises), the call on
`d` returns `false` and is not left by an exception; for every directory `x` on the
way from the root to `d` (both included) no elimination is logged, so no deleted
line is written for `d` and neither `d` nor a directory above it is removed; and a
loop that lists `d` goes on with the entries after `d`. -/
theorem C9_failed_removal (opts : Opt) (root : Path) (input : List String) (t : Node)
    (ht : t.distinctNames = true) {a p : Path} {i j : Int} {x d : Node} {o : RemoveOutcome}
    (hx : At root 0 t a i x) (hd : At a i x p j d)
    (hrm : Event.remove p o ∈ (nukeEmptyRecursive opts root 0 input t).trace)
    (ho : o ≠ .removed) :
    Event.ret p false ∈ (nukeEmptyRecursive opts root 0 input t).trace ∧
    Event.ret p true ∉ (nukeEmptyRecursive opts root 0 input t).trace ∧
    Event.throw p ∉ (nukeEmptyRecursive opts root 0 input t).trace ∧
    Event.deleted p ∉ (nukeEmptyRecursive opts root 0 input t).trace ∧
    (∀ e ∈ (nukeEmptyRecursive opts root 0 input t).trace, e.path = a → e.isElim = false) ∧
    (∀ (q : Path) (k : Int) (lim : Option Nat) (s : List String) (rest : List Node),
      lim ≠ some 0 → d.typeCheckRaises = false → k + 1 ≤ opts.max_depth →
      Event.remove (q ++ [d.name]) o ∈
        (nukeEmptyRecursive opts (q ++ [d.name]) (k + 1) s d).trace →
      (scanEntries opts q k lim s (d :: rest)).trace =
        (nukeEmptyRecursive opts (q ++ [d.name]) (k + 1) s d).trace ++
          (scanEntries opts q k (lim.map Nat.pred)
            (nukeEmptyRecursive opts (q ++ [d.name]) (k + 1) s d).input rest).trace ∧
      (scanEntries opts q k lim s (d :: rest)).threw =
        (scanEntries opts q k (lim.map Nat.pred)
          (nukeEmptyRecursive opts (q ++ [d.name]) (k + 1) s d).input rest).threw ∧
      (scanEntries opts q k lim s (d :: rest)).currentDirEempty = false) := by
  obtain ⟨s', hfil, hp'⟩ := located (hx.trans hd) ht hrm (List.prefix_refl _)
  have hret := ret_of_remove_failed hp' ho
  have hin : ∀ e ∈ (nukeEmptyRecursive opts root 0 input t).trace, e.path = p →
      e ∈ (nukeEmptyRecursive opts p j s' d).trace := by
    intro e he hep
    rw [← hfil]
    exact List.mem_filter.mpr ⟨he, under_iff.mpr (hep ▸ List.prefix_refl _)⟩
  have hnt : Event.ret p true ∉ (nukeEmptyRecursive opts root 0 input t).trace := by
    intro h
    have := ret_mem_trace.mp (hin _ h rfl)
    rw [hret] at this
    simp at this
  have hdir : d.isDir = true := by
    cases d with
    | file n =>
      rw [nuke_absent (t := .file n) rfl] at hp'
      simp [notADir, logIf] at hp'
    | dir n da cs => rfl
  refine ⟨mem_of_filter_eq hfil (ret_mem_trace.mpr hret), hnt, ?_, ?_,
    ancestors_kept hx hd ht hnt, ?_⟩
  · intro h
    have := throw_mem_trace (hin _ h rfl)
    rw [hret] at this
    simp at this
  · intro h
    have := elim_ret (hin _ h rfl) rfl rfl
    rw [hret] at this
    simp at this
  · intro q k lim s rest hlim htc hk hev
    exact scan_after_false hlim hdir htc hk (ret_of_remove_failed hev ho)

/-- C9 on `root/{a/, c/}` where `fs::remove` raises on `a`: `a` and `root` stay,
and the sibling `c` is still visited and removed. -/
theorem C9_failed_removal_witness :
    stubbornTree.distinctNames = true ∧
    Event.remove ["root", "a"] .raises ∈
      (nukeEmptyRecursive plainOpts ["root"] 0 [] stubbornTree).trace ∧
    RemoveOutcome.raises ≠ .removed ∧
    Event.remove ["root", "c"] .removed ∈
      (nukeEmptyRecursive plainOpts ["root"] 0 [] stubbornTree).trace ∧
    (Event.ret ["root", "a"] false ∈
      (nukeEmptyRecursive plainOpts ["root"] 0 [] stubbornTree).trace ∧
    Event.ret ["root", "a"] true ∉
      (nukeEmptyRecursive plainOpts ["root"] 0 [] stubbornTree).trace ∧
    Event.throw ["root", "a"] ∉ (nukeEmptyRecursive plainOpts ["root"] 0 [] stubbornTree).trace ∧
    Event.deleted ["root", "a"] ∉
      (nukeEmptyRecursive plainOpts ["root"] 0 [] stubbornTree).trace ∧
    (∀ e ∈ (nukeEmptyRecursive plainOpts ["root"] 0 [] stubbornTree).trace,
      e.path = ["root"] → e.isElim = false) ∧
    (∀ (q : Path) (k : Int) (lim : Option Nat) (s : List String) (rest : List Node),
      lim ≠ some 0 → stubbornDir.typeCheckRaises = false →
      k + 1 ≤ plainOpts.max_depth →
      Event.remove (q ++ [stubbornDir.name]) .raises ∈
        (nukeEmptyRecursive plainOpts
          (q ++ [stubbornDir.name]) (k + 1) s
          stubbornDir).trace →
      (scanEntries plainOpts q k lim s (stubbornDir :: rest)).trace =
        (nukeEmptyRecursive plainOpts
            (q ++ [stubbornDir.name]) (k + 1) s
            stubbornDir).trace ++
          (scanEntries plainOpts q k (lim.map Nat.pred)
            (nukeEmptyRecursive plainOpts
              (q ++ [stubbornDir.name]) (k + 1) s
              stubbornDir).input rest).trace ∧
      (scanEntries plainOpts q k lim s (stubbornDir :: rest)).threw =
        (scanEntries plainOpts q k (lim.map Nat.pred)
          (nukeEmptyRecursive plainOpts
            (q ++ [stubbornDir.name]) (k + 1) s
            stubbornDir).input rest).threw ∧
      (scanEntries plainOpts q k lim s
        (stubbornDir :: rest)).currentDirEempty = false)) :=
  ⟨by decide, by decide, by decide, by decide,
    C9_failed_removal plainOpts ["root"] [] stubbornTree (by decide)
      (At.here ["root"] 0 stubbornTree)
      (At.down (c := stubbornDir) (by simp [stubbornTree])
        (At.here _ _ _))
      (by decide) (by decide)⟩

/-! ## C10: inspections that fail -/

/-- A loop that reaches an entry whose type check raises (line 52) is left by the
exception: it visits at most the entries listed before that entry. -/
theorem scan_stops_at {opts : Opt} {q : Path} {k : Int} {d : Node} {post : List Node}
    (hdir : d.isDir = true) (htc : d.typeCheckRaises = true) (pre : List Node) :
    ∀ lim s, (scanEntries opts q k lim s (pre ++ d :: post)).threw = true ∧
      ∀ e ∈ (scanEntries opts q k lim s (pre ++ d :: post)).trace,
        ∃ c ∈ pre, ∃ s', e ∈ (nukeEmptyRecursive opts (q ++ [c.name]) (k + 1) s' c).trace := by
  induction pre with
  | nil =>
    intro lim s
    rw [List.nil_append]
    refine scanEntries_cons_cases (Q := fun r => r.threw = true ∧ ∀ e ∈ r.trace,
      ∃ c ∈ ([] : List Node), ∃ s',
        e ∈ (nukeEmptyRecursive opts (q ++ [c.name]) (k + 1) s' c).trace) ?_ ?_ ?_ ?_
    · intro _; exact ⟨rfl, fun e he => by simp at he⟩
    · rintro _ (h | ⟨h, _⟩)
      · rw [hdir] at h; simp at h
      · rw [htc] at h; simp at h
    · intro _ _ h; rw [htc] at h; simp at h
    · intro _ _ _ h; rw [htc] at h; simp at h
  | cons c0 pre ih =>
    intro lim s
    rw [List.cons_append]
    refine scanEntries_cons_cases (Q := fun r => r.threw = true ∧ ∀ e ∈ r.trace,
      ∃ c ∈ c0 :: pre, ∃ s',
        e ∈ (nukeEmptyRecursive opts (q ++ [c.name]) (k + 1) s' c).trace) ?_ ?_ ?_ ?_
    · intro _; exact ⟨rfl, fun e he => by simp at he⟩
    · intro _ _
      obtain ⟨h1, h2⟩ := ih (lim.map Nat.pred) s
      refine ⟨h1, fun e he => ?_⟩
      obtain ⟨c, hc, h⟩ := h2 e he
      exact ⟨c, List.mem_cons_of_mem _ hc, h⟩
    · intro _ _ _ _ _
      exact ⟨rfl, fun e he => ⟨c0, List.mem_cons_self _ _, s, he⟩⟩
    · intro b _ _ _ _ _
      obtain ⟨h1, h2⟩ := ih (lim.map Nat.pred)
        (nukeEmptyRecursive opts (q ++ [c0.name]) (k + 1) s c0).input
      refine ⟨h1, fun e he => ?_⟩
      rcases List.mem_append.mp he with h | h
      · exact ⟨c0, List.mem_cons_self _ _, s, h⟩
      · obtain ⟨c, hc, h'⟩ := h2 e h
        exact ⟨c, List.mem_cons_of_mem _ hc, h'⟩

/-- The call on a directory one of whose entries fails the type check of line 52
swallows the error: it returns `false` (unless its own check at line 40 raises). -/
theorem ret_type_check_raises {opts : Opt} {q : Path} {k : Int} {s : List String}
    {n : String} {a : DirAttrs} {pre post : List Node} {d : Node}
    (hdir : d.isDir = true) (htc : d.typeCheckRaises = true) :
    (nukeEmptyRecursive opts q k s (.dir n a (pre ++ d :: post))).ret =
      if a.probe = .raises then none else some false := by
  refine ret_of_ne_true (t := .dir n a (pre ++ d :: post)) ?_
  refine nuke_cases (Q := fun r => r.ret ≠ some true) (.dir n a (pre ++ d :: post)) ?_ ?_ ?_
  · intro _; simp [notADir]
  · intro _; simp
  · intro n' a' cs' heq _ h
    cases heq
    obtain ⟨h1, _, _⟩ := finish_true (show (finish opts q k n a _).ret = some true from h)
    rw [(scan_stops_at hdir htc pre _ _).1] at h1
    simp at h1

/-- Nothing is logged about an entry that fails the type check of line 52, about
an entry listed after it, or about anything below them. -/
theorem type_check_raises_unvisited {opts : Opt} {q : Path} {k : Int} {s : List String}
    {n : String} {a : DirAttrs} {pre post : List Node} {d : Node}
    (hdir : d.isDir = true) (htc : d.typeCheckRaises = true)
    (hnd : ((pre ++ d :: post).map Node.name).Nodup) :
    ∀ c ∈ d :: post, ∀ e ∈ (nukeEmptyRecursive opts q k s (.dir n a (pre ++ d :: post))).trace,
      Event.under (q ++ [c.name]) e = false := by
  intro c hc e
  have hself : ∀ e : Event, e.path = q → Event.under (q ++ [c.name]) e = false := by
    intro e he
    rw [Bool.eq_false_iff, Ne, under_iff, he]
    intro h
    have := h.length_le
    simp at this
  refine nuke_cases (Q := fun r => e ∈ r.trace → Event.under (q ++ [c.name]) e = false)
    (.dir n a (pre ++ d :: post)) ?_ ?_ ?_
  · intro _ he; exact hself e (notADir_path e he)
  · intro _ he
    simp at he
    rcases he with h | h <;> subst h <;> exact hself _ rfl
  · intro n' a' cs' heq _ he
    cases heq
    simp only [afterLoop, List.mem_cons, List.mem_append] at he
    rcases he with h | h | h
    · subst h; exact hself _ rfl
    · obtain ⟨c0, hc0, s', h'⟩ := (scan_stops_at hdir htc pre _ _).2 e h
      refine not_under_of_name_ne (List.prefix_refl _) (trace_path opts c0 _ _ _ e h') ?_
      intro heq
      rw [List.map_append, List.nodup_append] at hnd
      exact hnd.2.2 (List.mem_map_of_mem _ hc0) (heq ▸ List.mem_map_of_mem _ hc)
    · exact hself e (finish_path e h)

/-- A loop whose listing raises is left by the exception. -/
theorem scan_listing_raises {opts : Opt} {q : Path} {k : Int} (cs : List Node) :
    ∀ lim s, lim.isSome = true → (scanEntries opts q k lim s cs).threw = true := by
  induction cs with
  | nil => intro lim s h; simp [scanEntries_nil, h]
  | cons c rest ih =>
    intro lim s hl
    have hl' : (lim.map Nat.pred).isSome = true := by simpa using hl
    refine scanEntries_cons_cases (Q := fun r => r.threw = true) ?_ ?_ ?_ ?_
    · intro _; rfl
    · intro _ _; exact ih _ _ hl'
    · intro _ _ _ _ _; rfl
    · intro b _ _ _ _ _; exact ih _ _ hl'

/-- A listing that raises before it yields an entry: the loop does nothing. -/
theorem scan_lim_zero (opts : Opt) (q : Path) (k : Int) (s : List String) (cs : List Node) :
    (scanEntries opts q k (some 0) s cs).input = s := by
  cases cs with
  | nil => simp [scanEntries_nil]
  | cons c rest => rw [scanEntries]; simp

/-- The lines after the loop read input only at the prompt of an interactive run
that is no dry run. -/
theorem finish_input {opts : Opt} (h : opts.interactive = false ∨ opts.dry_run = true)
    (q : Path) (k : Int) (n : String) (a : DirAttrs) (lr : LoopRes) :
    (finish opts q k n a lr).input = lr.input := by
  unfold finish gate eliminate
  repeat' split
  all_goals simp_all

/-- A run that does not prompt reads no input. -/
theorem input_unread {opts : Opt} (h : opts.interactive = false ∨ opts.dry_run = true)
    (t : Node) : ∀ q k s, (nukeEmptyRecursive opts q k s t).input = s := by
  refine Node.induct (P := fun t => ∀ q k s, (nukeEmptyRecursive opts q k s t).input = s)
    (Q := fun cs => ∀ q k lim s, (scanEntries opts q k lim s cs).input = s) ?_ ?_ ?_ ?_ t
  · intro n q k s
    rw [nuke_absent (t := .file n) rfl]; rfl
  · intro n a cs ih q k s
    refine nuke_cases (Q := fun r => r.input = s) (.dir n a cs) ?_ ?_ ?_
    · intro _; rfl
    · intro _; rfl
    · intro n' a' cs' heq _
      cases heq
      simp only [afterLoop]
      rw [finish_input h, ih]
  · intro q k lim s
    simp [scanEntries_nil]
  · intro c rest ihc ihrest q k lim s
    refine scanEntries_cons_cases (Q := fun r => r.input = s) ?_ ?_ ?_ ?_
    · intro _; rfl
    · intro _ _; exact ihrest _ _ _ _
    · intro _ _ _ _ _; exact ihc _ _ _
    · intro b _ _ _ _ _
      rw [ihrest, ihc]

/-- The call on a directory whose listing raises swallows the error and returns
`false`. -/
theorem ret_listing_raises {opts : Opt} {q : Path} {k : Int} {s : List String} {n : String}
    {a : DirAttrs} {cs : List Node} {k0 : Nat} (hp : a.probe = .ok)
    (hl : a.listingRaisesAfter = some k0) :
    (nukeEmptyRecursive opts q k s (.dir n a cs)).ret = some false := by
  rw [nuke_ok hp]
  simp only [afterLoop]
  unfold finish
  rw [scan_listing_raises cs _ _ (by simp [hl])]
  simp

/-- The call on a directory whose listing raises reads no input, when the listing
raises before it yields an entry or the run does not prompt. -/
theorem input_listing_raises {opts : Opt} {q : Path} {k : Int} {s : List String} {n : String}
    {a : DirAttrs} {cs : List Node} {k0 : Nat} (hp : a.probe = .ok)
    (hl : a.listingRaisesAfter = some k0)
    (h : k0 = 0 ∨ opts.interactive = false ∨ opts.dry_run = true) :
    (nukeEmptyRecursive opts q k s (.dir n a cs)).input = s := by
  rcases h with h | h
  · subst h
    rw [nuke_ok hp]
    simp only [afterLoop]
    unfold finish
    rw [scan_listing_raises cs _ _ (by simp [hl])]
    simp [hl, scan_lim_zero]
  · exact input_unread h _ _ _ _

/-- The call on an accessible directory that holds one file. -/
theorem nuke_one_file (opts : Opt) (q : Path) (k : Int) (s : List String) (n f : String) :
    nukeEmptyRecursive opts q k s (.dir n .fine [.file f]) =
      ⟨some false, [.call q k, .ret q false], s, some (.dir n .fine [.file f])⟩ := by
  have hp : DirAttrs.fine.probe = .ok := rfl
  rw [nuke_ok hp]
  simp [afterLoop, finish, scanEntries, DirAttrs.fine, Node.isDir]

/-- What lies outside `p` in a log all of whose events are under `p`. -/
theorem filter_outside_self (opts : Opt) (q : Path) (k : Int) (s : List String) (t : Node) :
    (nukeEmptyRecursive opts q k s t).trace.filter (Event.outside q) = [] := by
  rw [List.filter_eq_nil_iff]
  intro e he
  simp [Event.outside, under_iff.mpr (trace_path opts t q k s e he)]

/-- The lines after the loop do the same after two loops that agree on everything
but the log and the disk, as long as `currentDirEempty` is not set. -/
theorem finish_congr (opts : Opt) (q : Path) (k : Int) (n : String) (a : DirAttrs)
    {lr lr' : LoopRes} (h1 : lr.threw = lr'.threw)
    (h2 : lr.threw = false → lr.currentDirEempty = false)
    (h2' : lr'.threw = false → lr'.currentDirEempty = false) (h3 : lr.input = lr'.input) :
    (finish opts q k n a lr).ret = (finish opts q k n a lr').ret ∧
    (finish opts q k n a lr).ret ≠ some true ∧
    (finish opts q k n a lr).input = (finish opts q k n a lr').input ∧
    (finish opts q k n a lr).trace = (finish opts q k n a lr').trace := by
  unfold finish
  cases ht : lr.threw
  · have e1 := h2 ht
    have e2 := h2' (h1 ▸ ht)
    simp [← h1, ht, e1, e2, h3]
  · simp [← h1, ht, h3]

/-- Two loops over lists that differ in one entry agree outside `p`, when the
calls on the two entries agree outside `p` and do not return `true`. -/
theorem scan_swap {opts : Opt} {q p : Path} {k : Int} {c c' : Node} (post : List Node)
    (hname : c.name = c'.name) (hdir : c.isDir = c'.isDir)
    (htc : c.typeCheckRaises = c'.typeCheckRaises)
    (ih : ∀ s,
      (nukeEmptyRecursive opts (q ++ [c.name]) (k + 1) s c).ret =
        (nukeEmptyRecursive opts (q ++ [c.name]) (k + 1) s c').ret ∧
      (nukeEmptyRecursive opts (q ++ [c.name]) (k + 1) s c).ret ≠ some true ∧
      (nukeEmptyRecursive opts (q ++ [c.name]) (k + 1) s c).input =
        (nukeEmptyRecursive opts (q ++ [c.name]) (k + 1) s c').input ∧
      (nukeEmptyRecursive opts (q ++ [c.name]) (k + 1) s c).trace.filter (Event.outside p) =
        (nukeEmptyRecursive opts (q ++ [c.name]) (k + 1) s c').trace.filter (Event.outside p))
    (pre : List Node) :
    ∀ lim s,
      (scanEntries opts q k lim s (pre ++ c :: post)).threw =
        (scanEntries opts q k lim s (pre ++ c' :: post)).threw ∧
      ((scanEntries opts q k lim s (pre ++ c :: post)).threw = false →
        (scanEntries opts q k lim s (pre ++ c :: post)).currentDirEempty = false) ∧
      ((scanEntries opts q k lim s (pre ++ c' :: post)).threw = false →
        (scanEntries opts q k lim s (pre ++ c' :: post)).currentDirEempty = false) ∧
      (scanEntries opts q k lim s (pre ++ c :: post)).input =
        (scanEntries opts q k lim s (pre ++ c' :: post)).input ∧
      (scanEntries opts q k lim s (pre ++ c :: post)).trace.filter (Event.outside p) =
        (scanEntries opts q k lim s (pre ++ c' :: post)).trace.filter (Event.outside p) := by
  induction pre with
  | nil =>
    intro lim s
    rw [List.nil_append, List.nil_append, scanEntries, scanEntries, ← hdir, ← htc, ← hname]
    by_cases h0 : lim = some 0
    · simp [h0]
    · simp only [if_neg h0]
      by_cases hd : c.isDir = true
      · simp only [if_pos hd]
        by_cases ht : c.typeCheckRaises = true
        · simp [ht]
        · simp only [if_neg ht]
          by_cases hk : k + 1 ≤ opts.max_depth
          · simp only [if_pos hk]
            obtain ⟨h1, h2, h3, h4⟩ := ih s
            rw [← h1, ← h3]
            cases hr : (nukeEmptyRecursive opts (q ++ [c.name]) (k + 1) s c).ret with
            | none => simp [h4]
            | some b =>
              cases b with
              | true => exact absurd hr h2
              | false => simp [List.filter_append, h4]
          · simp [hk]
      · simp [hd]
  | cons e pre ihpre =>
    intro lim s
    rw [List.cons_append, List.cons_append, scanEntries, scanEntries]
    by_cases h0 : lim = some 0
    · simp [h0]
    · simp only [if_neg h0]
      by_cases hd : e.isDir = true
      · simp only [if_pos hd]
        by_cases ht : e.typeCheckRaises = true
        · simp [ht]
        · simp only [if_neg ht]
          by_cases hk : k + 1 ≤ opts.max_depth
          · simp only [if_pos hk]
            cases (nukeEmptyRecursive opts (q ++ [e.name]) (k + 1) s e).ret with
            | none => simp
            | some b =>
              obtain ⟨h1, h2, h3, h4, h5⟩ := ihpre (lim.map Nat.pred)
                (nukeEmptyRecursive opts (q ++ [e.name]) (k + 1) s e).input
              simp only [List.filter_append, h5, h4, h1, Bool.and_eq_false_imp]
              refine ⟨trivial, fun hthrew _ => h2 (h1 ▸ hthrew), fun hthrew _ => h3 hthrew,
                trivial, trivial⟩
          · simp only [if_neg hk]
            obtain ⟨h1, h2, h3, h4, h5⟩ := ihpre (lim.map Nat.pred) s
            exact ⟨h1, fun _ => trivial, fun _ => trivial, h4, h5⟩
      · simp only [if_neg hd]
        obtain ⟨h1, h2, h3, h4, h5⟩ := ihpre (lim.map Nat.pred) s
        exact ⟨h1, fun _ => trivial, fun _ => trivial, h4, h5⟩

/-- Replacing an entry by one of the same name keeps the name of the tree. -/
theorem Swap.name_eq {d d' : Node} {p q : Path} {t t' : Node} (h : Swap d d' p q t t')
    (hd : d.name = d'.name) : t.name = t'.name := by
  cases h with
  | here => exact hd
  | down _ => rfl

/-- Replacing a directory by a directory keeps the kind of the tree. -/
theorem Swap.isDir_eq {d d' : Node} {p q : Path} {t t' : Node} (h : Swap d d' p q t t')
    (hd : d.isDir = d'.isDir) : t.isDir = t'.isDir := by
  cases h with
  | here => exact hd
  | down _ => rfl

/-- Replacing an entry by one with the same type check keeps the type check of
the tree. -/
theorem Swap.typeCheck_eq {d d' : Node} {p q : Path} {t t' : Node} (h : Swap d d' p q t t')
    (hd : d.typeCheckRaises = d'.typeCheckRaises) : t.typeCheckRaises = t'.typeCheckRaises := by
  cases h with
  | here => exact hd
  | down _ => rfl

/-- The replaced entry is an entry of the tree. -/
theorem Swap.at {d d' : Node} {p q : Path} {t t' : Node} (h : Swap d d' p q t t') :
    ∀ k, ∃ j, At q k t p j d := by
  induction h with
  | here => intro k; exact ⟨k, At.here _ _ _⟩
  | @down q n a pre post c c' _ ih =>
    intro k
    obtain ⟨j, hj⟩ := ih (k + 1)
    exact ⟨j, At.down (List.mem_append_right _ (List.mem_cons_self _ _)) hj⟩

/-- Two scans of trees that differ in one entry agree outside that entry, when
the calls on the two entries return the same value, not `true`, and read the same
input. -/
theorem swap_equiv {opts : Opt} {d d' : Node} {p : Path} (hname : d.name = d'.name)
    (hdir : d.isDir = d'.isDir) (htc : d.typeCheckRaises = d'.typeCheckRaises)
    (hbase : ∀ k s,
      (nukeEmptyRecursive opts p k s d).ret = (nukeEmptyRecursive opts p k s d').ret ∧
      (nukeEmptyRecursive opts p k s d).ret ≠ some true ∧
      (nukeEmptyRecursive opts p k s d).input = (nukeEmptyRecursive opts p k s d').input)
    {q : Path} {t t' : Node} (h : Swap d d' p q t t') :
    ∀ k s,
      (nukeEmptyRecursive opts q k s t).ret = (nukeEmptyRecursive opts q k s t').ret ∧
      (nukeEmptyRecursive opts q k s t).ret ≠ some true ∧
      (nukeEmptyRecursive opts q k s t).input = (nukeEmptyRecursive opts q k s t').input ∧
      (nukeEmptyRecursive opts q k s t).trace.filter (Event.outside p) =
        (nukeEmptyRecursive opts q k s t').trace.filter (Event.outside p) := by
  induction h with
  | here =>
    intro k s
    obtain ⟨h1, h2, h3⟩ := hbase k s
    exact ⟨h1, h2, h3, by rw [filter_outside_self, filter_outside_self]⟩
  | @down q n a pre post c c' hsw ih =>
    intro k s
    cases hp : a.probe with
    | absent =>
      have h1 : (Node.dir n a (pre ++ c :: post)).probe = .absent := hp
      have h2 : (Node.dir n a (pre ++ c' :: post)).probe = .absent := hp
      rw [nuke_absent h1, nuke_absent h2]
      simp [notADir]
    | raises =>
      have h1 : (Node.dir n a (pre ++ c :: post)).probe = .raises := hp
      have h2 : (Node.dir n a (pre ++ c' :: post)).probe = .raises := hp
      rw [nuke_raises h1, nuke_raises h2]
      simp
    | ok =>
      obtain ⟨h1, h2, h3, h4, h5⟩ := scan_swap post (hsw.name_eq hname)
        (hsw.isDir_eq hdir) (hsw.typeCheck_eq htc) (fun s => ih (k + 1) s) pre
        a.listingRaisesAfter s
      obtain ⟨f1, f2, f3, f4⟩ := finish_congr opts q k n a h1 h2 h3 h4
      rw [nuke_ok hp, nuke_ok hp]
      simp only [afterLoop, List.filter_cons, List.filter_append, h5, f4]
      exact ⟨f1, f2, f3, trivial⟩

/-- C10, as amended. In a scan of a tree with distinct names, whatever the options
and the input.

Listing: for a directory `d` that passes the checks of lines 52 and 40 and whose
listing raises after `k0` entries, the call on `d` swallows the error and returns
`false`, no elimination of `d` is logged, and, when `k0 = 0` or the run does not
prompt, the scan of the tree returns, reads and logs outside `d` exactly what it
does on the tree in which `d` is replaced by an accessible directory holding one
file.

Type check: when the check of line 52 raises on an entry `d` of a directory `x`,
the call on `x` swallows the error and returns `false` (unless its own check at
line 40 raises), nothing is logged about `d`, about the entries listed after `d`
or about anything below them, and no elimination of `x` is logged. -/
theorem C10_inspection_failures (opts : Opt) (root : Path) (input : List String) (t : Node)
    (ht : t.distinctNames = true) :
    (∀ (t' : Node) (p : Path) (n : String) (a : DirAttrs) (cs : List Node) (k0 : Nat)
        (f : String),
      a.typeCheckRaises = false → a.probe = .ok → a.listingRaisesAfter = some k0 →
      Swap (.dir n a cs) (.dir n .fine [.file f]) p root t t' →
      (∀ j s, (nukeEmptyRecursive opts p j s (.dir n a cs)).ret = some false) ∧
      (∀ e ∈ (nukeEmptyRecursive opts root 0 input t).trace, e.path = p → e.isElim = false) ∧
      (k0 = 0 ∨ opts.interactive = false ∨ opts.dry_run = true →
        (nukeEmptyRecursive opts root 0 input t).ret =
          (nukeEmptyRecursive opts root 0 input t').ret ∧
        (nukeEmptyRecursive opts root 0 input t).input =
          (nukeEmptyRecursive opts root 0 input t').input ∧
        (nukeEmptyRecursive opts root 0 input t).trace.filter (Event.outside p) =
          (nukeEmptyRecursive opts root 0 input t').trace.filter (Event.outside p))) ∧
    (∀ (a : Path) (i : Int) (n : String) (xa : DirAttrs) (pre post : List Node) (d : Node),
      At root 0 t a i (.dir n xa (pre ++ d :: post)) → d.isDir = true →
      d.typeCheckRaises = true →
      (∀ s, (nukeEmptyRecursive opts a i s (.dir n xa (pre ++ d :: post))).ret =
        if xa.probe = .raises then none else some false) ∧
      (∀ c ∈ d :: post, ∀ e ∈ (nukeEmptyRecursive opts root 0 input t).trace,
        Event.under (a ++ [c.name]) e = false) ∧
      (∀ e ∈ (nukeEmptyRecursive opts root 0 input t).trace, e.path = a → e.isElim = false)) := by
  constructor
  · intro t' p n a cs k0 f htc hp hl hsw
    have hret : ∀ j s, (nukeEmptyRecursive opts p j s (.dir n a cs)).ret = some false :=
      fun j s => ret_listing_raises hp hl
    refine ⟨hret, ?_, ?_⟩
    · intro e he hep
      rw [Bool.eq_false_iff]
      intro hel
      obtain ⟨j, hat⟩ := hsw.at 0
      obtain ⟨s', _, he'⟩ := located hat ht he (hep ▸ List.prefix_refl _)
      have := elim_ret he' hep hel
      rw [hret] at this
      simp at this
    · intro hk
      have hbase : ∀ k s,
          (nukeEmptyRecursive opts p k s (.dir n a cs)).ret =
            (nukeEmptyRecursive opts p k s (.dir n .fine [.file f])).ret ∧
          (nukeEmptyRecursive opts p k s (.dir n a cs)).ret ≠ some true ∧
          (nukeEmptyRecursive opts p k s (.dir n a cs)).input =
            (nukeEmptyRecursive opts p k s (.dir n .fine [.file f])).input := by
        intro k s
        rw [hret, nuke_one_file, input_listing_raises hp hl hk]
        simp
      have hn : (Node.dir n a cs).name = (Node.dir n .fine [.file f]).name := rfl
      have hd : (Node.dir n a cs).isDir = (Node.dir n .fine [.file f]).isDir := rfl
      have hc : (Node.dir n a cs).typeCheckRaises =
          (Node.dir n .fine [.file f]).typeCheckRaises := htc
      obtain ⟨h1, _, h3, h4⟩ := swap_equiv hn hd hc hbase hsw 0 input
      exact ⟨h1, h3, h4⟩
  · intro a i n xa pre post d hat hdir htc
    have hret : ∀ s, (nukeEmptyRecursive opts a i s (.dir n xa (pre ++ d :: post))).ret =
        if xa.probe = .raises then none else some false :=
      fun s => ret_type_check_raises hdir htc
    have hnd := (distinctNames_dir.mp (hat.distinctNames ht)).1
    refine ⟨hret, ?_, ?_⟩
    · intro c hc e he
      by_cases hu : Event.under a e = true
      · obtain ⟨s', _, he'⟩ := located hat ht he (under_iff.mp hu)
        exact type_check_raises_unvisited hdir htc hnd c hc e he'
      · rw [Bool.eq_false_iff]
        intro h
        exact hu (under_iff.mpr ((List.prefix_append a [c.name]).trans (under_iff.mp h)))
    · intro e he hea
      rw [Bool.eq_false_iff]
      intro hel
      obtain ⟨s', _, he'⟩ := located hat ht he (hea ▸ List.prefix_refl _)
      have := elim_ret he' hea hel
      rw [hret] at this
      by_cases hp : xa.probe = .raises <;> simp [hp] at this

/-- C10 as stated fails on `root/{d/, e/}` when the type check of `d` raises: no
call is made on `d`, and its sibling `e` is neither visited nor removed, while
with `d` an accessible directory holding one file `e` is visited and removed. -/
theorem C10_counterexample :
    Event.call ["root", "d"] 1 ∉ (nukeEmptyRecursive plainOpts ["root"] 0 [] unreadableTree).trace ∧
    Event.call ["root", "e"] 1 ∉ (nukeEmptyRecursive plainOpts ["root"] 0 [] unreadableTree).trace ∧
    Event.remove ["root", "e"] .removed ∉
      (nukeEmptyRecursive plainOpts ["root"] 0 [] unreadableTree).trace ∧
    Event.call ["root", "e"] 1 ∈ (nukeEmptyRecursive plainOpts ["root"] 0 [] oneFileTree).trace ∧
    Event.remove ["root", "e"] .removed ∈
      (nukeEmptyRecursive plainOpts ["root"] 0 [] oneFileTree).trace := by
  decide

/-- C10 as amended, on `root/{d/, e/}`: when the listing of `d` raises the scan
agrees outside `d` with the scan of `root/{d/{f}, e/}`; when the type check of `d`
raises, the call on `root` returns `false` and nothing is logged about `d` or `e`. -/
theorem C10_inspection_failures_witness :
    lockedTree.distinctNames = true ∧ unreadableTree.distinctNames = true ∧
    ((∀ j s, (nukeEmptyRecursive plainOpts ["root", "d"] j s lockedDir).ret = some false) ∧
      (∀ e ∈ (nukeEmptyRecursive plainOpts ["root"] 0 [] lockedTree).trace,
        e.path = ["root", "d"] → e.isElim = false) ∧
      ((0 : Nat) = 0 ∨ plainOpts.interactive = false ∨ plainOpts.dry_run = true →
        (nukeEmptyRecursive plainOpts ["root"] 0 [] lockedTree).ret =
          (nukeEmptyRecursive plainOpts ["root"] 0 [] oneFileTree).ret ∧
        (nukeEmptyRecursive plainOpts ["root"] 0 [] lockedTree).input =
          (nukeEmptyRecursive plainOpts ["root"] 0 [] oneFileTree).input ∧
        (nukeEmptyRecursive plainOpts ["root"] 0 [] lockedTree).trace.filter
            (Event.outside ["root", "d"]) =
          (nukeEmptyRecursive plainOpts ["root"] 0 [] oneFileTree).trace.filter
            (Event.outside ["root", "d"]))) ∧
    ((∀ s, (nukeEmptyRecursive plainOpts ["root"] 0 s unreadableTree).ret =
        if DirAttrs.fine.probe = .raises then none else some false) ∧
      (∀ c ∈ [unreadableDir, .dir "e" .fine []],
        ∀ e ∈ (nukeEmptyRecursive plainOpts ["root"] 0 [] unreadableTree).trace,
          Event.under (["root"] ++ [c.name]) e = false) ∧
      (∀ e ∈ (nukeEmptyRecursive plainOpts ["root"] 0 [] unreadableTree).trace,
        e.path = ["root"] → e.isElim = false)) :=
  ⟨by decide, by decide,
    (C10_inspection_failures plainOpts ["root"] [] lockedTree (by decide)).1 oneFileTree
      ["root", "d"] "d" ⟨false, .ok, some 0, .removed⟩ [.dir "y" .fine []] 0 "f" rfl rfl rfl
      (@Swap.down lockedDir (.dir "d" .fine [.file "f"]) ["root", "d"] ["root"] "root" .fine []
        [.dir "e" .fine []] lockedDir (.dir "d" .fine [.file "f"]) Swap.here),
    (C10_inspection_failures plainOpts ["root"] [] unreadableTree (by decide)).2 ["root"] 0
      "root" .fine [] [.dir "e" .fine []] unreadableDir (At.here _ _ _) rfl rfl⟩

/-! ## C11: the answer to the prompt -/

/-- `tolower(c) == 'y'` holds of `y` and `Y` only. -/
theorem toLower_eq_y (c : Char) : c.toLower = 'y' ↔ c = 'y' ∨ c = 'Y' := by
  constructor
  · intro h
    unfold Char.toLower at h
    simp only [ge_iff_le] at h
    split at h
    · rename_i hr
      right
      have hc : c = Char.ofNat c.toNat := (Char.ofNat_toNat c).symm
      rw [hc]
      generalize c.toNat = n at h hr
      obtain ⟨h1, h2⟩ := hr
      interval_cases n <;> first | rfl | (exact absurd h (by decide))
    · exact Or.inl h
  · rintro (h | h) <;> subst h <;> rfl

/-- The answer is a yes exactly when the line starts with `y` or `Y`. -/
theorem confirmed_iff (s : String) :
    confirmed s = true ↔ ∃ c rest, s.data = c :: rest ∧ (c = 'y' ∨ c = 'Y') := by
  unfold confirmed
  cases s.data with
  | nil => simp
  | cons c rest => simp [toLower_eq_y]

/-- Lines 75-117: a prompt is written only in an interactive run that is no dry
run; the line logged with it is the next line of input, and `fs::remove` is called
exactly when that line is a yes. -/
theorem finish_prompt_decision {opts : Opt} {q : Path} {k : Int} {n : String} {a : DirAttrs}
    {lr : LoopRes} {r : String} (h : Event.prompt q r ∈ (finish opts q k n a lr).trace) :
    opts.interactive = true ∧ opts.dry_run = false ∧ r = (getline lr.input).1 ∧
    ((∃ o, Event.remove q o ∈ (finish opts q k n a lr).trace) ↔ confirmed r = true) := by
  revert h
  unfold finish gate eliminate logIf
  repeat' split
  all_goals simp_all

/-- The lines after the loop write a prompt only in an interactive run that is no
dry run. -/
theorem finish_isPrompt {opts : Opt} {q : Path} {k : Int} {n : String} {a : DirAttrs}
    {lr : LoopRes} {e : Event} (he : e ∈ (finish opts q k n a lr).trace)
    (hp : e.isPrompt = true) : opts.interactive = true ∧ opts.dry_run = false := by
  cases e with
  | prompt p r =>
    have hq : p = q := finish_path _ he
    subst hq
    exact ⟨(finish_prompt_decision he).1, (finish_prompt_decision he).2.1⟩
  | _ => simp [Event.isPrompt] at hp

/-- A scan prompts only when `interactive` is set and `dry_run` is not. -/
theorem prompt_only_interactive (opts : Opt) (t : Node) :
    ∀ q k s, ∀ e ∈ (nukeEmptyRecursive opts q k s t).trace, e.isPrompt = true →
      opts.interactive = true ∧ opts.dry_run = false := by
  refine Node.induct_mem (P := fun t => ∀ q k s,
    ∀ e ∈ (nukeEmptyRecursive opts q k s t).trace, e.isPrompt = true →
      opts.interactive = true ∧ opts.dry_run = false) ?_ ?_ t
  · intro n q k s e he hp
    rw [nuke_absent (t := .file n) rfl] at he
    simp [notADir, logIf] at he
    rcases he with h | h | h
    · subst h; simp [Event.isPrompt] at hp
    · rcases h with ⟨_, h⟩; subst h; simp [Event.isPrompt] at hp
    · subst h; simp [Event.isPrompt] at hp
  · intro n a cs ih q k s e
    refine nuke_cases (Q := fun r => e ∈ r.trace → e.isPrompt = true →
      opts.interactive = true ∧ opts.dry_run = false) (.dir n a cs) ?_ ?_ ?_
    · intro _ he hp
      simp [notADir, logIf] at he
      rcases he with h | h | h
      · subst h; simp [Event.isPrompt] at hp
      · rcases h with ⟨_, h⟩; subst h; simp [Event.isPrompt] at hp
      · subst h; simp [Event.isPrompt] at hp
    · intro _ he hp
      simp at he
      rcases he with h | h <;> subst h <;> simp [Event.isPrompt] at hp
    · intro n' a' cs' heq _ he hp
      cases heq
      simp only [afterLoop, List.mem_cons, List.mem_append] at he
      rcases he with h | h | h
      · subst h; simp [Event.isPrompt] at hp
      · obtain ⟨c, hc, s', _, _, _, hc'⟩ := scan_mem_trace cs _ _ h
        exact ih c hc _ _ _ e hc' hp
      · exact finish_isPrompt h hp

/-- C11. The answer to the prompt is a yes if and only if the line read is not
empty and starts with `y` or `Y`; the empty line, the end of input and a line that
starts with anything else, a blank before a `y` included, are a no.  A prompt is
written only when `interactive` is set and `dry_run` is not; the line logged with
it is the next line of input, and `fs::remove` is called on the directory exactly
when that line is a yes. -/
theorem C11_prompt_answer (opts : Opt) (root : Path) (input : List String) (t : Node) :
    (∀ line : String,
      confirmed line = true ↔ ∃ c rest, line.data = c :: rest ∧ (c = 'y' ∨ c = 'Y')) ∧
    confirmed "" = false ∧ confirmed (getline []).1 = false ∧ confirmed " y" = false ∧
    confirmed "no" = false ∧ confirmed "yes" = true ∧ confirmed "Y" = true ∧
    (∀ e ∈ (nukeEmptyRecursive opts root 0 input t).trace, e.isPrompt = true →
      opts.interactive = true ∧ opts.dry_run = false) ∧
    (∀ (q : Path) (k : Int) (n : String) (a : DirAttrs) (lr : LoopRes) (r : String),
      Event.prompt q r ∈ (finish opts q k n a lr).trace →
      r = (getline lr.input).1 ∧
      ((∃ o, Event.remove q o ∈ (finish opts q k n a lr).trace) ↔ confirmed r = true)) := by
  refine ⟨confirmed_iff, by decide, by decide, by decide, by decide, by decide, by decide,
    prompt_only_interactive opts t root 0 input, ?_⟩
  intro q k n a lr r h
  exact ⟨(finish_prompt_decision h).2.2.1, (finish_prompt_decision h).2.2.2⟩

/-! ## C12: what is written to `cout` -/

/-- Without prompts, the lines after the loop write one line when they return
`true` and nothing otherwise. -/
theorem finish_stdout {opts : Opt} (hi : opts.interactive = false) (q : Path) (k : Int)
    (n : String) (a : DirAttrs) (lr : LoopRes) :
    stdoutOf opts (finish opts q k n a lr).trace =
      ((finish opts q k n a lr).trace.filterMap Event.eliminated).map (elimLine opts) := by
  unfold finish gate eliminate logIf
  repeat' split
  all_goals simp_all [stdoutOf, Event.cout, Event.eliminated, elimLine]

/-- `stdoutOf` of a log made of two parts. -/
theorem stdoutOf_append (opts : Opt) (l₁ l₂ : List Event) :
    stdoutOf opts (l₁ ++ l₂) = stdoutOf opts l₁ ++ stdoutOf opts l₂ := by
  simp [stdoutOf, List.filterMap_append]

/-- Without prompts, what a call writes to `cout` is one line for each call that
returns `true`, in the order of the returns. -/
theorem stdout_lines {opts : Opt} (hi : opts.interactive = false) (t : Node) :
    ∀ q k s, stdoutOf opts (nukeEmptyRecursive opts q k s t).trace =
      ((nukeEmptyRecursive opts q k s t).trace.filterMap Event.eliminated).map
        (elimLine opts) := by
  refine Node.induct (P := fun t => ∀ q k s,
      stdoutOf opts (nukeEmptyRecursive opts q k s t).trace =
        ((nukeEmptyRecursive opts q k s t).trace.filterMap Event.eliminated).map
          (elimLine opts))
    (Q := fun cs => ∀ q k lim s,
      stdoutOf opts (scanEntries opts q k lim s cs).trace =
        ((scanEntries opts q k lim s cs).trace.filterMap Event.eliminated).map
          (elimLine opts)) ?_ ?_ ?_ ?_ t
  · intro n q k s
    rw [nuke_absent (t := .file n) rfl]
    cases hv : opts.verbose <;>
      simp [notADir, logIf, hv, stdoutOf, Event.cout, Event.eliminated]
  · intro n a cs ih q k s
    refine nuke_cases (Q := fun r => stdoutOf opts r.trace =
      (r.trace.filterMap Event.eliminated).map (elimLine opts)) (.dir n a cs) ?_ ?_ ?_
    · intro _
      cases hv : opts.verbose <;>
        simp [notADir, logIf, hv, stdoutOf, Event.cout, Event.eliminated]
    · intro _
      simp [stdoutOf, Event.cout, Event.eliminated]
    · intro n' a' cs' heq _
      cases heq
      have h1 := ih q k a.listingRaisesAfter s
      have h2 := finish_stdout hi q k n a (scanEntries opts q k a.listingRaisesAfter s cs)
      simp only [afterLoop]
      rw [show ∀ l : List Event, Event.call q k :: l = [Event.call q k] ++ l from fun _ => rfl,
        stdoutOf_append, stdoutOf_append, h1, h2]
      simp [stdoutOf, Event.cout, Event.eliminated, List.filterMap_append]
  · intro q k lim s
    simp [scanEntries_nil, stdoutOf]
  · intro c rest ihc ihrest q k lim s
    refine scanEntries_cons_cases (Q := fun r => stdoutOf opts r.trace =
      (r.trace.filterMap Event.eliminated).map (elimLine opts)) ?_ ?_ ?_ ?_
    · intro _; simp [stdoutOf]
    · intro _ _; exact ihrest _ _ _ _
    · intro _ _ _ _ _; exact ihc _ _ _
    · intro b _ _ _ _ _
      simp only []
      rw [stdoutOf_append, ihc, ihrest]
      simp [List.filterMap_append]

/-- C12. In a run that is not interactive, whatever the tree, the other options,
the input and the outcomes of the file-system requests: what `nukeEmptyRecursive`
writes to `cout` is exactly one line for each call that returns `true`, in the
order of the returns: "[DRY RUN] Would delete empty dir: <path>" in a dry run,
"Deleted: <path>" in a verbose run that is no dry run, and the bare path
otherwise.  A call that returns `false` writes nothing. -/
theorem C12_one_line_per_elimination (opts : Opt) (hi : opts.interactive = false)
    (root : Path) (input : List String) (t : Node) :
    stdoutOf opts (nukeEmptyRecursive opts root 0 input t).trace =
      ((nukeEmptyRecursive opts root 0 input t).trace.filterMap Event.eliminated).map
        (elimLine opts) ∧
    (∀ p, elimLine opts p =
      if opts.dry_run then "[DRY RUN] Would delete empty dir: " ++ Path.string p ++ "\n"
      else if opts.verbose then "Deleted: " ++ Path.string p ++ "\n"
      else Path.string p ++ "\n") ∧
    (∀ (q : Path) (k : Int) (n : String) (a : DirAttrs) (lr : LoopRes),
      (finish opts q k n a lr).ret = some false →
      stdoutOf opts (finish opts q k n a lr).trace = []) := by
  refine ⟨stdout_lines hi t root 0 input, fun p => rfl, ?_⟩
  intro q k n a lr hret
  rw [finish_stdout hi]
  have : ∀ e ∈ (finish opts q k n a lr).trace, Event.eliminated e = none := by
    intro e he
    cases e with
    | ret p b =>
      cases b with
      | false => rfl
      | true =>
        have := finish_elim he rfl
        rw [hret] at this
        simp at this
    | _ => rfl
  rw [List.filterMap_eq_nil_iff.mpr this]
  rfl

/-- C12 on the scenario tree: a verbose run writes "Deleted: root/a", a dry run
"[DRY RUN] Would delete empty dir: root/a", a plain run "root/a". -/
theorem C12_one_line_per_elimination_witness :
    verboseOpts.interactive = false ∧
    stdoutOf verboseOpts (nukeEmptyRecursive verboseOpts ["root"] 0 [] scenarioTree).trace =
      ["Deleted: root/a\n"] ∧
    stdoutOf dryOpts (nukeEmptyRecursive dryOpts ["root"] 0 [] scenarioTree).trace =
      ["[DRY RUN] Would delete empty dir: root/a\n"] ∧
    stdoutOf plainOpts (nukeEmptyRecursive plainOpts ["root"] 0 [] scenarioTree).trace =
      ["root/a\n"] ∧
    (stdoutOf verboseOpts (nukeEmptyRecursive verboseOpts ["root"] 0 [] scenarioTree).trace =
      ((nukeEmptyRecursive verboseOpts ["root"] 0 [] scenarioTree).trace.filterMap
        Event.eliminated).map (elimLine verboseOpts) ∧
    (∀ p, elimLine verboseOpts p =
      if verboseOpts.dry_run then "[DRY RUN] Would delete empty dir: " ++ Path.string p ++ "\n"
      else if verboseOpts.verbose then "Deleted: " ++ Path.string p ++ "\n"
      else Path.string p ++ "\n") ∧
    (∀ (q : Path) (k : Int) (n : String) (a : DirAttrs) (lr : LoopRes),
      (finish verboseOpts q k n a lr).ret = some false →
      stdoutOf verboseOpts (finish verboseOpts q k n a lr).trace = [])) :=
  ⟨rfl, by decide, by decide, by decide,
    C12_one_line_per_elimination verboseOpts rfl ["root"] [] scenarioTree⟩

/-! ## C13, C14, C15: the arguments of `main` -/

/-- `std::stoi` raises on the option names. -/
theorem stoi_option_names :
    stoi "--help" = none ∧ stoi "--min-depth" = none ∧ stoi "--max-depth" = none := by
  decide

/-- Induction over the arguments still to be read: the loop goes on with a
shorter list. -/
theorem parse_induct {motive : Opt → List String → Prop} (hnil : ∀ o, motive o [])
    (hcons : ∀ o arg rest, (∀ o' l, l.length ≤ rest.length → motive o' l) →
      motive o (arg :: rest)) : ∀ o args, motive o args := by
  have h : ∀ n, ∀ o args, args.length ≤ n → motive o args := by
    intro n
    induction n with
    | zero =>
      intro o args hl
      cases args with
      | nil => exact hnil o
      | cons a r => simp at hl
    | succ n ih =>
      intro o args hl
      cases args with
      | nil => exact hnil o
      | cons a r =>
        refine hcons o a r (fun o' l hl' => ih o' l ?_)
        simp at hl
        omega
  intro o args
  exact h args.length o args (le_refl _)

/-- One turn of the loop over the arguments: `--help`, an argument that sets a
flag or the target, a depth option with its value, or an error. -/
theorem parse_cons_cases {Q : Parsed → Prop} (o : Opt) (arg : String) (rest : List String)
    (hhelp : arg = "--help" → Q (.exit 0 true))
    (hflag : ∀ o', arg ≠ "--help" → arg ≠ "--min-depth" → arg ≠ "--max-depth" →
      (o' = { o with dry_run := true } ∨ o' = { o with verbose := true } ∨
        o' = { o with interactive := true } ∨
        (startsWithDashes arg = false ∧ o.target_dir_str = "" ∧
          o' = { o with target_dir_str := arg })) →
      (∀ l, parseArgs o (arg :: l) = parseArgs o' l) → Q (parseArgs o' rest))
    (hdepth : ∀ o' value rest' n, arg = "--min-depth" ∨ arg = "--max-depth" →
      rest = value :: rest' → stoi value = some n → 0 ≤ n →
      (o' = { o with min_depth := n } ∨ o' = { o with max_depth := n }) →
      (∀ l, parseArgs o (arg :: value :: l) = parseArgs o' l) → Q (parseArgs o' rest'))
    (herr : ∀ usage, arg ≠ "--help" → Q (.exit 1 usage)) :
    Q (parseArgs o (arg :: rest)) := by
  rw [parseArgs.eq_def]
  simp only []
  split
  · rename_i h; exact hhelp h
  · rename_i h1
    split
    · rename_i h2
      refine hflag _ h1 (by rw [h2]; decide) (by rw [h2]; decide) (Or.inl rfl) ?_
      intro l
      rw [parseArgs.eq_def]
      simp [h1, h2]
    · rename_i h2
      split
      · rename_i h3
        refine hflag _ h1 ?_ ?_ (Or.inr (Or.inl rfl)) ?_
        · rcases h3 with h | h <;> rw [h] <;> decide
        · rcases h3 with h | h <;> rw [h] <;> decide
        · intro l
          rw [parseArgs.eq_def]
          simp [h1, h2, h3]
      · rename_i h3
        split
        · rename_i h4
          refine hflag _ h1 ?_ ?_ (Or.inr (Or.inr (Or.inl rfl))) ?_
          · rcases h4 with h | h <;> rw [h] <;> decide
          · rcases h4 with h | h <;> rw [h] <;> decide
          · intro l
            rw [parseArgs.eq_def]
            simp [h1, h2, h3, h4]
        · rename_i h4
          split
          · rename_i h5
            split
            · exact herr _ h1
            · rename_i value rest'
              split
              · exact herr _ h1
              · rename_i n hn
                split
                · exact herr _ h1
                · rename_i hneg
                  refine hdepth _ value rest' n (Or.inl h5) rfl hn (by omega) (Or.inl rfl) ?_
                  intro l
                  rw [parseArgs.eq_def]
                  simp [h5, hn, hneg]
          · rename_i h5
            split
            · rename_i h6
              split
              · exact herr _ h1
              · rename_i value rest'
                split
                · exact herr _ h1
                · rename_i n hn
                  split
                  · exact herr _ h1
                  · rename_i hneg
                    refine hdepth _ value rest' n (Or.inr h6) rfl hn (by omega) (Or.inr rfl) ?_
                    intro l
                    rw [parseArgs.eq_def]
                    simp [h6, hn, hneg]
            · rename_i h6
              split
              · exact herr _ h1
              · rename_i h7
                split
                · rename_i h8
                  refine hflag _ h1 h5 h6 (Or.inr (Or.inr (Or.inr
                    ⟨by simpa using h7, h8, rfl⟩))) ?_
                  intro l
                  rw [parseArgs.eq_def]
                  simp [h1, h2, h3, h4, h5, h6, h7, h8]
                · exact herr _ h1

/-- When the loop over the arguments ends normally, no argument was `--help`. -/
theorem parse_ok_no_help (o : Opt) (args : List String) :
    ∀ o', parseArgs o args = .ok o' → "--help" ∉ args := by
  refine parse_induct (motive := fun o args => ∀ o', parseArgs o args = .ok o' →
    "--help" ∉ args) ?_ ?_ o args
  · intro o o' _; simp
  · intro o arg rest ih o'
    refine parse_cons_cases (Q := fun r => r = .ok o' → "--help" ∉ arg :: rest) o arg rest
      ?_ ?_ ?_ ?_
    · intro _ h; simp at h
    · intro o'' h1 _ _ _ _ h
      have := ih o'' rest (le_refl _) o' h
      simp [this, Ne.symm h1]
    · intro o'' value rest' n hopt hrest hn _ _ _ h
      subst hrest
      have := ih o'' rest' (by simp) o' h
      have hv : "--help" ≠ value := by
        intro hv
        rw [← hv, stoi_option_names.1] at hn
        simp at hn
      have ha : "--help" ≠ arg := by
        rcases hopt with h' | h' <;> rw [h'] <;> decide
      simp [this, ha, hv]
    · intro _ _ h; simp at h

/-- The depth bounds read by the loop are not negative. -/
theorem parse_ok_bounds (o : Opt) (args : List String) :
    ∀ o', parseArgs o args = .ok o' → 0 ≤ o.min_depth → 0 ≤ o.max_depth →
      0 ≤ o'.min_depth ∧ 0 ≤ o'.max_depth := by
  refine parse_induct (motive := fun o args => ∀ o', parseArgs o args = .ok o' →
    0 ≤ o.min_depth → 0 ≤ o.max_depth → 0 ≤ o'.min_depth ∧ 0 ≤ o'.max_depth) ?_ ?_ o args
  · intro o o' h h1 h2
    rw [parseArgs.eq_def] at h
    simp only [Parsed.ok.injEq] at h
    subst h
    exact ⟨h1, h2⟩
  · intro o arg rest ih o'
    refine parse_cons_cases (Q := fun r => r = .ok o' → 0 ≤ o.min_depth → 0 ≤ o.max_depth →
      0 ≤ o'.min_depth ∧ 0 ≤ o'.max_depth) o arg rest ?_ ?_ ?_ ?_
    · intro _ h; simp at h
    · intro o'' _ _ _ ho _ h h1 h2
      refine ih o'' rest (le_refl _) o' h ?_ ?_ <;>
        rcases ho with h' | h' | h' | ⟨_, _, h'⟩ <;> subst h' <;> assumption
    · intro o'' value rest' n _ hrest _ hn ho _ h h1 h2
      subst hrest
      refine ih o'' rest' (by simp) o' h ?_ ?_ <;>
        rcases ho with h' | h' <;> subst h' <;> assumption
    · intro _ _ h; simp at h

/-- The target read by the loop is the one it started with or one of the
arguments. -/
theorem parse_ok_target (o : Opt) (args : List String) :
    ∀ o', parseArgs o args = .ok o' →
      o'.target_dir_str = o.target_dir_str ∨ o'.target_dir_str ∈ args := by
  refine parse_induct (motive := fun o args => ∀ o', parseArgs o args = .ok o' →
    o'.target_dir_str = o.target_dir_str ∨ o'.target_dir_str ∈ args) ?_ ?_ o args
  · intro o o' h
    rw [parseArgs.eq_def] at h
    simp only [Parsed.ok.injEq] at h
    subst h
    exact Or.inl rfl
  · intro o arg rest ih o'
    refine parse_cons_cases (Q := fun r => r = .ok o' →
      o'.target_dir_str = o.target_dir_str ∨ o'.target_dir_str ∈ arg :: rest) o arg rest
      ?_ ?_ ?_ ?_
    · intro _ h; simp at h
    · intro o'' _ _ _ ho _ h
      rcases ih o'' rest (le_refl _) o' h with h1 | h1
      · rcases ho with h' | h' | h' | ⟨_, _, h'⟩ <;> subst h'
        · exact Or.inl h1
        · exact Or.inl h1
        · exact Or.inl h1
        · exact Or.inr (by rw [h1]; exact List.mem_cons_self _ _)
      · exact Or.inr (List.mem_cons_of_mem _ h1)
    · intro o'' value rest' n _ hrest _ _ ho _ h
      subst hrest
      rcases ih o'' rest' (by simp) o' h with h1 | h1
      · rcases ho with h' | h' <;> subst h' <;> exact Or.inl h1
      · exact Or.inr (List.mem_cons_of_mem _ (List.mem_cons_of_mem _ h1))
    · intro _ _ h; simp at h

/-- When `main` returns from inside the loop, the exit code is 1, or it is 0 after
the usage text, at a `--help` among the arguments. -/
theorem parse_exit_code (o : Opt) (args : List String) :
    ∀ code usage, parseArgs o args = .exit code usage →
      code = 1 ∨ (code = 0 ∧ usage = true ∧ "--help" ∈ args) := by
  refine parse_induct (motive := fun o args => ∀ code usage,
    parseArgs o args = .exit code usage →
      code = 1 ∨ (code = 0 ∧ usage = true ∧ "--help" ∈ args)) ?_ ?_ o args
  · intro o code usage h
    rw [parseArgs.eq_def] at h
    simp at h
  · intro o arg rest ih code usage
    refine parse_cons_cases (Q := fun r => r = .exit code usage →
      code = 1 ∨ (code = 0 ∧ usage = true ∧ "--help" ∈ arg :: rest)) o arg rest ?_ ?_ ?_ ?_
    · intro harg h
      simp only [Parsed.exit.injEq] at h
      exact Or.inr ⟨h.1.symm, h.2.symm, by simp [harg]⟩
    · intro o'' _ _ _ _ _ h
      rcases ih o'' rest (le_refl _) code usage h with h1 | ⟨h1, h2, h3⟩
      · exact Or.inl h1
      · exact Or.inr ⟨h1, h2, List.mem_cons_of_mem _ h3⟩
    · intro o'' value rest' n _ hrest _ _ _ _ h
      subst hrest
      rcases ih o'' rest' (by simp) code usage h with h1 | ⟨h1, h2, h3⟩
      · exact Or.inl h1
      · exact Or.inr ⟨h1, h2, List.mem_cons_of_mem _ (List.mem_cons_of_mem _ h3)⟩
    · intro u _ h
      simp only [Parsed.exit.injEq] at h
      exact Or.inl h.1.symm

/-- Arguments read without incident can be read first: the loop goes on with the
options they set. -/
theorem parse_append (o : Opt) (pre : List String) :
    ∀ o' rest, parseArgs o pre = .ok o' → parseArgs o (pre ++ rest) = parseArgs o' rest := by
  refine parse_induct (motive := fun o pre => ∀ o' rest, parseArgs o pre = .ok o' →
    parseArgs o (pre ++ rest) = parseArgs o' rest) ?_ ?_ o pre
  · intro o o' rest h
    rw [parseArgs.eq_def] at h
    simp only [Parsed.ok.injEq] at h
    subst h
    rfl
  · intro o arg pre' ih o' rest
    refine parse_cons_cases (Q := fun r => r = .ok o' →
      parseArgs o (arg :: pre' ++ rest) = parseArgs o' rest) o arg pre' ?_ ?_ ?_ ?_
    · intro _ h; simp at h
    · intro o'' _ _ _ _ hstep h
      rw [List.cons_append, hstep]
      exact ih o'' pre' (le_refl _) o' rest h
    · intro o'' value rest' n _ hrest _ _ _ hstep h
      subst hrest
      rw [List.cons_append, List.cons_append, hstep]
      exact ih o'' rest' (by simp) o' rest h
    · intro _ _ h; simp at h

/-- A depth option whose value `std::stoi` rejects, or reads as negative, ends
`main` inside the loop: with exit code 1, or with exit code 0 at a `--help` read
before the option. -/
theorem parse_bad_depth {opt value : String} (post : List String)
    (hopt : opt = "--min-depth" ∨ opt = "--max-depth")
    (hbad : stoi value = none ∨ ∃ n, stoi value = some n ∧ n < 0) (o : Opt)
    (pre : List String) :
    (∃ usage, parseArgs o (pre ++ opt :: value :: post) = .exit 1 usage) ∨
    (parseArgs o (pre ++ opt :: value :: post) = .exit 0 true ∧ "--help" ∈ pre) := by
  have hne : opt ≠ "--help" := by
    rcases hopt with h | h <;> rw [h] <;> decide
  have hstoi : ∀ n, stoi opt ≠ some n := by
    intro n
    rcases hopt with h | h <;> rw [h]
    · rw [stoi_option_names.2.1]; simp
    · rw [stoi_option_names.2.2]; simp
  refine parse_induct (motive := fun o pre =>
    (∃ usage, parseArgs o (pre ++ opt :: value :: post) = .exit 1 usage) ∨
    (parseArgs o (pre ++ opt :: value :: post) = .exit 0 true ∧ "--help" ∈ pre)) ?_ ?_ o pre
  · intro o
    rw [List.nil_append]
    refine parse_cons_cases (Q := fun r => (∃ usage, r = .exit 1 usage) ∨
      (r = .exit 0 true ∧ "--help" ∈ ([] : List String))) o opt (value :: post) ?_ ?_ ?_ ?_
    · intro h; exact absurd h hne
    · intro _ _ h1 h2 _ _
      rcases hopt with h | h
      · exact absurd h h1
      · exact absurd h h2
    · intro _ v r n _ hrest hn hpos _ _
      simp only [List.cons.injEq] at hrest
      rw [← hrest.1] at hn
      rcases hbad with h | ⟨m, h, hm⟩
      · rw [h] at hn; simp at hn
      · rw [h] at hn
        simp only [Option.some.injEq] at hn
        omega
    · intro u _; exact Or.inl ⟨u, rfl⟩
  · intro o arg pre' ih
    rw [List.cons_append]
    refine parse_cons_cases (Q := fun r => (∃ usage, r = .exit 1 usage) ∨
      (r = .exit 0 true ∧ "--help" ∈ arg :: pre')) o arg (pre' ++ opt :: value :: post)
      ?_ ?_ ?_ ?_
    · intro h; exact Or.inr ⟨rfl, by simp [h]⟩
    · intro o'' _ _ _ _ _
      rcases ih o'' pre' (le_refl _) with h | ⟨h1, h2⟩
      · exact Or.inl h
      · exact Or.inr ⟨h1, List.mem_cons_of_mem _ h2⟩
    · intro o'' v r n _ hrest hn _ _ _
      cases pre' with
      | nil =>
        simp only [List.nil_append, List.cons.injEq] at hrest
        rw [← hrest.1] at hn
        exact absurd hn (hstoi n)
      | cons y pre'' =>
        simp only [List.cons_append, List.cons.injEq] at hrest
        rw [← hrest.2]
        rcases ih o'' pre'' (by simp) with h | ⟨h1, h2⟩
        · exact Or.inl h
        · exact Or.inr ⟨h1, List.mem_cons_of_mem _ (List.mem_cons_of_mem _ h2)⟩
    · intro u _; exact Or.inl ⟨u, rfl⟩

/-- `main` when it returns from inside the loop over the arguments. -/
theorem main_of_exit {fs : FileSystem} {input args : List String} {code : Nat}
    {usage : Bool} (h : parseArgs Opt.init args = .exit code usage) :
    main fs input args = ⟨some code, usage, none⟩ := by
  cases args with
  | nil => rw [parseArgs.eq_def] at h; simp at h
  | cons a r => simp [main, h]

/-- `main` starts a traversal only after the loop over the arguments ended
normally with a target and depth bounds in order, on a target that is a
directory. -/
theorem main_scan_some {fs : FileSystem} {input args : List String} {o : Opt} {r : Res}
    (h : (main fs input args).scan = some (o, r)) :
    ∃ o₀ t, parseArgs Opt.init args = .ok o₀ ∧ o₀.target_dir_str ≠ "" ∧
      o₀.min_depth ≤ o₀.max_depth ∧
      fs.status (fs.absolute o₀.target_dir_str) = .found t ∧ t.isDir = true ∧
      o = { o₀ with target_dir_path := fs.absolute o₀.target_dir_str } ∧
      r = nukeEmptyRecursive o (fs.absolute o₀.target_dir_str) 0 input t ∧
      (main fs input args).exit = if r.ret = none then none else some 0 := by
  unfold main at h ⊢
  split at h
  · simp at h
  · rename_i hne
    simp only [hne]
    split at h
    · simp at h
    · rename_i o₀ hparse
      simp only [hparse]
      split at h
      · simp at h
      · rename_i htarget
        simp only [htarget]
        split at h
        · simp at h
        · rename_i hbounds
          simp only [hbounds]
          split at h
          · simp at h
          · simp at h
          · rename_i t hstatus
            split at h
            · rename_i hdir
              simp only [Option.some.injEq, Prod.mk.injEq] at h
              obtain ⟨h1, h2⟩ := h
              refine ⟨o₀, t, rfl, htarget, by omega, hstatus, hdir, h1.symm, ?_, ?_⟩
              · rw [← h2, ← h1]
              · rw [← h2]
                simp [hstatus, hdir]
            · simp at h

/-- When `main` starts no traversal it returns 1, or 0 after the usage text at a
`--help`, or is terminated by an exception of the status request on the target. -/
theorem main_exit_no_scan (fs : FileSystem) (input args : List String)
    (h : (main fs input args).scan = none) :
    (main fs input args).exit = some 1 ∨
    ((main fs input args).exit = some 0 ∧ (main fs input args).usage = true ∧
      "--help" ∈ args) ∨
    ((main fs input args).exit = none ∧ ∃ p, fs.status p = .raises) := by
  cases hparse : parseArgs Opt.init args with
  | exit code usage =>
    rw [main_of_exit hparse]
    rcases parse_exit_code _ _ _ _ hparse with h1 | ⟨h1, h2, h3⟩
    · exact Or.inl (by rw [h1])
    · exact Or.inr (Or.inl ⟨by rw [h1], h2, h3⟩)
  | ok o =>
    unfold main at h ⊢
    simp only [hparse] at h ⊢
    split
    · exact Or.inl rfl
    · split
      · exact Or.inl rfl
      · split
        · exact Or.inl rfl
        · split
          · rename_i hs
            exact Or.inr (Or.inr ⟨rfl, _, hs⟩)
          · exact Or.inl rfl
          · rename_i t hs
            split
            · rename_i hd
              simp [hs, hd] at h
              split at h <;> simp_all
            · exact Or.inl rfl

/-- After a loop that ended normally, `main` returns 1 without a traversal when no
target was given, when `min_depth` exceeds `max_depth`, and when the target is
missing or no directory. -/
theorem main_rejects {fs : FileSystem} {input args : List String} {o : Opt}
    (hparse : parseArgs Opt.init args = .ok o)
    (hbad : o.target_dir_str = "" ∨ o.max_depth < o.min_depth ∨
      fs.status (fs.absolute o.target_dir_str) = .missing ∨
      ∃ t, fs.status (fs.absolute o.target_dir_str) = .found t ∧ t.isDir = false) :
    (main fs input args).exit = some 1 ∧ (main fs input args).scan = none := by
  unfold main
  simp only [hparse]
  split
  · exact ⟨rfl, rfl⟩
  · split
    · exact ⟨rfl, rfl⟩
    · rename_i ht
      split
      · exact ⟨rfl, rfl⟩
      · rename_i hb
        rcases hbad with h | h | h | ⟨t, h, hd⟩
        · exact absurd h ht
        · exact absurd h (by simpa using hb)
        · simp [h]
        · simp [h, hd]

/-- `main` returns 1 at an unknown option that starts with two dashes (lines 180-183). -/
theorem parse_unknown_option (o : Opt) {arg : String} (rest : List String)
    (hd : startsWithDashes arg = true) (hk : arg ∉ knownOptions) :
    parseArgs o (arg :: rest) = .exit 1 true := by
  simp only [knownOptions, List.mem_cons, List.mem_singleton, List.not_mem_nil, or_false,
    not_or] at hk
  obtain ⟨h1, h2, h3, h4, h5, h6⟩ := hk
  have hv : arg ≠ "-v" := by
    intro h; rw [h] at hd; exact absurd hd (by decide)
  have hi : arg ≠ "-i" := by
    intro h; rw [h] at hd; exact absurd hd (by decide)
  rw [parseArgs.eq_def]
  simp [h1, h2, h3, h4, h5, h6, hv, hi, hd]

/-- `main` returns 1 at a positional argument that follows a target (lines 187-191). -/
theorem parse_second_target (o : Opt) {arg : String} (rest : List String)
    (ht : o.target_dir_str ≠ "") (hd : startsWithDashes arg = false) (hv : arg ≠ "-v")
    (hi : arg ≠ "-i") : parseArgs o (arg :: rest) = .exit 1 true := by
  have hne : ∀ s, startsWithDashes s = true → arg ≠ s := by
    intro s hs h
    rw [h, hs] at hd
    simp at hd
  have h1 := hne "--help" (by decide)
  have h2 := hne "--dry-run" (by decide)
  have h3 := hne "--verbose" (by decide)
  have h4 := hne "--interactive" (by decide)
  have h5 := hne "--min-depth" (by decide)
  have h6 := hne "--max-depth" (by decide)
  rw [parseArgs.eq_def]
  simp [h1, h2, h3, h4, h5, h6, hv, hi, hd, ht]

/-- `main` returns 1 at a depth option that is the last argument (lines 160-163,
176-179). -/
theorem parse_depth_no_value (o : Opt) {opt : String}
    (hopt : opt = "--min-depth" ∨ opt = "--max-depth") :
    parseArgs o [opt] = .exit 1 false := by
  rcases hopt with h | h <;> subst h <;> rw [parseArgs.eq_def] <;> simp

/-- `main` returns 1 at a depth option whose value is negative (lines 150-153,
168-171). -/
theorem parse_depth_negative (o : Opt) {opt value : String} (rest : List String) {n : Int}
    (hopt : opt = "--min-depth" ∨ opt = "--max-depth") (hn : stoi value = some n)
    (hneg : n < 0) : parseArgs o (opt :: value :: rest) = .exit 1 false := by
  rcases hopt with h | h <;> subst h <;> rw [parseArgs.eq_def] <;> simp [hn, hneg]

/-- C13, as amended. `main` calls `nukeEmptyRecursive` only with options that
satisfy `0 ≤ min_depth ≤ max_depth`, on a target that was among the arguments, is
not empty, exists and is a directory, and only when no argument was `--help`.
When it starts no traversal it returns 1, unless it returned 0 at a `--help`
(or the status request on the target raised).  After arguments read without
incident, `main` returns 1 without a traversal at an unknown option that starts
with two dashes, at a positional argument that follows a target, at a depth option
without a value and at a depth option with a negative value; and after all
arguments, when no target was given, when `min_depth > max_depth` and when the
target is missing or no directory. -/
theorem C13_main_validates (fs : FileSystem) (input args : List String) :
    (∀ o r, (main fs input args).scan = some (o, r) →
      0 ≤ o.min_depth ∧ o.min_depth ≤ o.max_depth ∧ o.target_dir_str ≠ "" ∧
      o.target_dir_str ∈ args ∧ "--help" ∉ args ∧
      o.target_dir_path = fs.absolute o.target_dir_str ∧
      ∃ t, fs.status o.target_dir_path = .found t ∧ t.isDir = true ∧
        r = nukeEmptyRecursive o o.target_dir_path 0 input t) ∧
    ((main fs input args).scan = none →
      (main fs input args).exit = some 1 ∨
      ((main fs input args).exit = some 0 ∧ (main fs input args).usage = true ∧
        "--help" ∈ args) ∨
      ((main fs input args).exit = none ∧ ∃ p, fs.status p = .raises)) ∧
    (∀ o', parseArgs Opt.init args = .ok o' →
      (∀ arg post, startsWithDashes arg = true → arg ∉ knownOptions →
        (main fs input (args ++ arg :: post)).exit = some 1 ∧
        (main fs input (args ++ arg :: post)).scan = none) ∧
      (∀ arg post, o'.target_dir_str ≠ "" → startsWithDashes arg = false → arg ≠ "-v" →
        arg ≠ "-i" →
        (main fs input (args ++ arg :: post)).exit = some 1 ∧
        (main fs input (args ++ arg :: post)).scan = none) ∧
      (∀ opt, opt = "--min-depth" ∨ opt = "--max-depth" →
        (main fs input (args ++ [opt])).exit = some 1 ∧
        (main fs input (args ++ [opt])).scan = none) ∧
      (∀ opt value post n, opt = "--min-depth" ∨ opt = "--max-depth" →
        stoi value = some n → n < 0 →
        (main fs input (args ++ opt :: value :: post)).exit = some 1 ∧
        (main fs input (args ++ opt :: value :: post)).scan = none) ∧
      (o'.target_dir_str = "" ∨ o'.max_depth < o'.min_depth ∨
        fs.status (fs.absolute o'.target_dir_str) = .missing ∨
        (∃ t, fs.status (fs.absolute o'.target_dir_str) = .found t ∧ t.isDir = false) →
        (main fs input args).exit = some 1 ∧ (main fs input args).scan = none)) := by
  refine ⟨?_, main_exit_no_scan fs input args, ?_⟩
  · intro o r h
    obtain ⟨o₀, t, hparse, ht, hb, hs, hd, ho, hr, _⟩ := main_scan_some h
    have hbounds := parse_ok_bounds _ _ _ hparse (le_refl _) (by decide)
    have htarget := parse_ok_target _ _ _ hparse
    subst ho
    refine ⟨hbounds.1, hb, ht, ?_, parse_ok_no_help _ _ _ hparse, rfl, t, hs, hd, hr⟩
    rcases htarget with h' | h'
    · exact absurd h' ht
    · exact h'
  · intro o' hparse
    refine ⟨?_, ?_, ?_, ?_, main_rejects hparse⟩
    · intro arg post hd hk
      have := parse_append _ _ _ (arg :: post) hparse
      rw [parse_unknown_option o' post hd hk] at this
      rw [main_of_exit this]
      exact ⟨rfl, rfl⟩
    · intro arg post ht hd hv hi
      have := parse_append _ _ _ (arg :: post) hparse
      rw [parse_second_target o' post ht hd hv hi] at this
      rw [main_of_exit this]
      exact ⟨rfl, rfl⟩
    · intro opt hopt
      have := parse_append _ _ _ [opt] hparse
      rw [parse_depth_no_value o' hopt] at this
      rw [main_of_exit this]
      exact ⟨rfl, rfl⟩
    · intro opt value post n hopt hn hneg
      have := parse_append _ _ _ (opt :: value :: post) hparse
      rw [parse_depth_negative o' post hopt hn hneg] at this
      rw [main_of_exit this]
      exact ⟨rfl, rfl⟩

/-- C13 as stated fails on the arguments `--help --bogus`, where an unknown option
is given and `main` returns 0, and on the arguments `"" d`, where two positional
arguments are given and `main` traverses `d` and returns 0. -/
theorem C13_counterexample :
    startsWithDashes "--bogus" = true ∧ "--bogus" ∉ knownOptions ∧
    (main sampleFs [] ["--help", "--bogus"]).exit = some 0 ∧
    (main sampleFs [] ["", "d"]).exit = some 0 ∧
    (main sampleFs [] ["", "d"]).scan.isSome = true ∧
    (main sampleFs [] ["d", "e"]).exit = some 1 := by
  decide

/-- C14 as stated fails on the arguments `d --min-depth 12abc`: `std::stoi` reads
12, and `main` traverses `d` with `min_depth = 12` and returns 0.  It also fails on
`--help --min-depth abc`, where `main` returns 0. -/
theorem C14_counterexample :
    stoi "12abc" = some 12 ∧ stoi "3.5" = some 3 ∧ stoi "0x10" = some 0 ∧
    stoi " 7" = some 7 ∧ stoi "abc" = none ∧
    (main sampleFs [] ["d", "--min-depth", "12abc"]).exit = some 0 ∧
    ((main sampleFs [] ["d", "--min-depth", "12abc"]).scan.map fun x => x.1.min_depth) =
      some 12 ∧
    (main sampleFs [] ["--help", "--min-depth", "abc"]).exit = some 0 := by
  decide

/-- C14, as amended. When the value that follows `--min-depth` or `--max-depth` is
rejected by `std::stoi` (no decimal digit after the leading white space and the
sign, or a value that does not fit an `int`) or is negative, `main` starts no
traversal, and it returns 1, unless it returned 0 at a `--help` read before the
option. -/
theorem C14_rejected_depth_value (fs : FileSystem) (input pre post : List String)
    (opt value : String) (hopt : opt = "--min-depth" ∨ opt = "--max-depth")
    (hbad : stoi value = none ∨ ∃ n, stoi value = some n ∧ n < 0) :
    (main fs input (pre ++ opt :: value :: post)).scan = none ∧
    ((main fs input (pre ++ opt :: value :: post)).exit = some 1 ∨
      ((main fs input (pre ++ opt :: value :: post)).exit = some 0 ∧ "--help" ∈ pre)) ∧
    (∀ o', parseArgs Opt.init pre = .ok o' →
      (main fs input (pre ++ opt :: value :: post)).exit = some 1) := by
  have key := parse_bad_depth post hopt hbad Opt.init pre
  refine ⟨?_, ?_, ?_⟩
  · rcases key with ⟨u, h⟩ | ⟨h, _⟩ <;> rw [main_of_exit h]
  · rcases key with ⟨u, h⟩ | ⟨h, hmem⟩
    · rw [main_of_exit h]; exact Or.inl rfl
    · rw [main_of_exit h]; exact Or.inr ⟨rfl, hmem⟩
  · intro o' hparse
    rcases key with ⟨u, h⟩ | ⟨h, hmem⟩
    · rw [main_of_exit h]
    · exact absurd hmem (parse_ok_no_help _ _ _ hparse)

/-- C14 as amended, on the arguments `d --max-depth abc` and `d --min-depth -5`. -/
theorem C14_rejected_depth_value_witness :
    (stoi "abc" = none ∨ ∃ n, stoi "abc" = some n ∧ n < 0) ∧ stoi "-5" = some (-5) ∧
    (main sampleFs [] (["d"] ++ "--min-depth" :: "-5" :: [])).exit = some 1 ∧
    ((main sampleFs [] (["d"] ++ "--max-depth" :: "abc" :: [])).scan = none ∧
    ((main sampleFs [] (["d"] ++ "--max-depth" :: "abc" :: [])).exit = some 1 ∨
      ((main sampleFs [] (["d"] ++ "--max-depth" :: "abc" :: [])).exit = some 0 ∧
        "--help" ∈ ["d"])) ∧
    (∀ o', parseArgs Opt.init ["d"] = .ok o' →
      (main sampleFs [] (["d"] ++ "--max-depth" :: "abc" :: [])).exit = some 1)) :=
  ⟨Or.inl (by decide), by decide, by decide,
    C14_rejected_depth_value sampleFs [] ["d"] [] "--max-depth" "abc" (Or.inr rfl)
      (Or.inl (by decide))⟩

/-- C15 as stated fails on the arguments `--bogus --help`, where `main` returns 1,
and on `--min-depth --help`, where `--help` is read as the value of the option and
`main` returns 1 without printing the usage text. -/
theorem C15_counterexample :
    (main sampleFs [] ["--bogus", "--help"]).exit = some 1 ∧
    (main sampleFs [] ["--min-depth", "--help"]).exit = some 1 ∧
    (main sampleFs [] ["--min-depth", "--help"]).usage = false ∧
    (main sampleFs [] ["d", "--help"]).exit = some 0 := by
  decide

/-- C15, as amended. When `--help` is among the arguments, `main` starts no
traversal; when the arguments before it are read without incident, `main` prints
the usage text and returns 0. -/
theorem C15_help (fs : FileSystem) (input pre post : List String) :
    (main fs input (pre ++ "--help" :: post)).scan = none ∧
    (∀ o', parseArgs Opt.init pre = .ok o' →
      (main fs input (pre ++ "--help" :: post)).exit = some 0 ∧
      (main fs input (pre ++ "--help" :: post)).usage = true) := by
  constructor
  · cases hs : (main fs input (pre ++ "--help" :: post)).scan with
    | none => rfl
    | some x =>
      obtain ⟨o, r⟩ := x
      obtain ⟨o₀, _, hparse, _⟩ := main_scan_some hs
      exact absurd (by simp) (parse_ok_no_help _ _ _ hparse)
  · intro o' hparse
    have := parse_append _ _ _ ("--help" :: post) hparse
    have h2 : parseArgs o' ("--help" :: post) = .exit 0 true := by
      rw [parseArgs.eq_def]; simp
    rw [h2] at this
    rw [main_of_exit this]
    exact ⟨rfl, rfl⟩

/-! ## C16: what is removed is empty -/

/-- `fs::remove` is called only outside a dry run, after a loop that raised
nothing and left `currentDirEempty` set; what is logged is its outcome on the
entries left on disk. -/
theorem finish_remove {opts : Opt} {q : Path} {k : Int} {n : String} {a : DirAttrs}
    {lr : LoopRes} {o : RemoveOutcome}
    (h : Event.remove q o ∈ (finish opts q k n a lr).trace) :
    opts.dry_run = false ∧ lr.threw = false ∧ lr.currentDirEempty = true ∧
      o = fsRemove a lr.disk := by
  revert h
  unfold finish gate eliminate logIf
  repeat' split
  all_goals simp_all

/-- Every call of `fs::remove` is made by a call on a directory of the tree, in
the lines after its loop. -/
theorem remove_at_dir (opts : Opt) (t : Node) :
    ∀ q k s p o, Event.remove p o ∈ (nukeEmptyRecursive opts q k s t).trace →
      ∃ j n a cs s', At q k t p j (.dir n a cs) ∧ a.probe = .ok ∧
        Event.remove p o ∈
          (finish opts p j n a (scanEntries opts p j a.listingRaisesAfter s' cs)).trace := by
  refine Node.induct_mem (P := fun t => ∀ q k s p o,
    Event.remove p o ∈ (nukeEmptyRecursive opts q k s t).trace →
      ∃ j n a cs s', At q k t p j (.dir n a cs) ∧ a.probe = .ok ∧
        Event.remove p o ∈
          (finish opts p j n a (scanEntries opts p j a.listingRaisesAfter s' cs)).trace)
    ?_ ?_ t
  · intro n q k s p o he
    rw [nuke_absent (t := .file n) rfl] at he
    simp [notADir, logIf] at he
  · intro n a cs ih q k s p o
    refine nuke_cases (Q := fun r => Event.remove p o ∈ r.trace →
      ∃ j n' a' cs' s', At q k (.dir n a cs) p j (.dir n' a' cs') ∧ a'.probe = .ok ∧
        Event.remove p o ∈
          (finish opts p j n' a' (scanEntries opts p j a'.listingRaisesAfter s' cs')).trace)
      (.dir n a cs) ?_ ?_ ?_
    · intro _ he; simp [notADir, logIf] at he
    · intro _ he; simp at he
    · intro n' a' cs' heq hp he
      cases heq
      simp only [afterLoop, List.mem_cons, List.mem_append] at he
      rcases he with h | h | h
      · simp at h
      · obtain ⟨c, hc, s', _, _, _, hc'⟩ := scan_mem_trace cs _ _ h
        obtain ⟨j, n', a', cs', s'', hat, hp', hfin⟩ := ih c hc _ _ _ p o hc'
        exact ⟨j, n', a', cs', s'', At.down hc hat, hp', hfin⟩
      · have hq : p = q := finish_path _ h
        subst hq
        exact ⟨k, n, a, cs, s, At.here _ _ _, hp, h⟩

/-- C16. Whenever a scan calls `fs::remove`, whatever the options, the input and
the outcomes of the file-system requests: the run is no dry run; the call is made
on a directory of the tree, in the lines after the loop of the call on it; at that
moment no entry of the directory is left on disk, so that the removal does not
fail for a directory that is not empty and its outcome is the one the file system
decides; and every entry of the directory was a directory whose own call, made
before, returned `true` and left nothing on disk. -/
theorem C16_remove_only_when_empty (opts : Opt) (root : Path) (input : List String)
    (t : Node) (p : Path) (o : RemoveOutcome)
    (h : Event.remove p o ∈ (nukeEmptyRecursive opts root 0 input t).trace) :
    opts.dry_run = false ∧
    ∃ j n a cs s, At root 0 t p j (.dir n a cs) ∧
      Event.remove p o ∈
        (finish opts p j n a (scanEntries opts p j a.listingRaisesAfter s cs)).trace ∧
      (scanEntries opts p j a.listingRaisesAfter s cs).disk = [] ∧
      o = fsRemove a (scanEntries opts p j a.listingRaisesAfter s cs).disk ∧ o = a.rm ∧
      ∀ c ∈ cs, c.isDir = true ∧
        ∃ s', (nukeEmptyRecursive opts (p ++ [c.name]) (j + 1) s' c).ret = some true ∧
          (nukeEmptyRecursive opts (p ++ [c.name]) (j + 1) s' c).node = none ∧
          ∀ e ∈ (nukeEmptyRecursive opts (p ++ [c.name]) (j + 1) s' c).trace,
            e ∈ (scanEntries opts p j a.listingRaisesAfter s cs).trace := by
  obtain ⟨j, n, a, cs, s, hat, _, hfin⟩ := remove_at_dir opts t root 0 input p o h
  obtain ⟨hd, h1, h2, ho⟩ := finish_remove hfin
  have hdisk := scan_disk_nil hd cs _ _ h1 h2
  refine ⟨hd, j, n, a, cs, s, hat, hfin, hdisk, ho, ?_, ?_⟩
  · rw [ho, hdisk]; rfl
  · intro c hc
    obtain ⟨s', hs', hsub⟩ := scan_true cs _ _ h1 h2 c hc
    refine ⟨?_, s', hs', true_node_none hd hs', hsub⟩
    cases hcd : c.isDir with
    | true => rfl
    | false =>
      rw [ret_not_dir hcd] at hs'
      simp at hs'

/-- C16 on `root/{a/{b/}, c/}`: when `root/a` is removed, its entry `b` is gone. -/
theorem C16_remove_only_when_empty_witness :
    Event.remove ["root", "a"] .removed ∈
      (nukeEmptyRecursive plainOpts ["root"] 0 [] dirsTree).trace ∧
    (plainOpts.dry_run = false ∧
    ∃ j n a cs s, At ["root"] 0 dirsTree ["root", "a"] j (.dir n a cs) ∧
      Event.remove ["root", "a"] .removed ∈
        (finish plainOpts ["root", "a"] j n a
          (scanEntries plainOpts ["root", "a"] j a.listingRaisesAfter s cs)).trace ∧
      (scanEntries plainOpts ["root", "a"] j a.listingRaisesAfter s cs).disk = [] ∧
      RemoveOutcome.removed =
        fsRemove a (scanEntries plainOpts ["root", "a"] j a.listingRaisesAfter s cs).disk ∧
      RemoveOutcome.removed = a.rm ∧
      ∀ c ∈ cs, c.isDir = true ∧
        ∃ s', (nukeEmptyRecursive plainOpts (["root", "a"] ++ [c.name]) (j + 1) s' c).ret =
            some true ∧
          (nukeEmptyRecursive plainOpts (["root", "a"] ++ [c.name]) (j + 1) s' c).node = none ∧
          ∀ e ∈ (nukeEmptyRecursive plainOpts (["root", "a"] ++ [c.name]) (j + 1) s' c).trace,
            e ∈ (scanEntries plainOpts ["root", "a"] j a.listingRaisesAfter s cs).trace) :=
  ⟨by decide,
    C16_remove_only_when_empty plainOpts ["root"] [] dirsTree ["root", "a"] .removed
      (by decide)⟩

/-! ## C17: the closed form of the result -/

/-- Without prompts, when `fs::remove` succeeds on the directory, the lines after
the loop return `true` exactly when the loop raised nothing and left
`currentDirEempty` set at a depth of at least `min_depth`. -/
theorem finish_ret_plain {opts : Opt} (hi : opts.interactive = false) (q : Path) (k : Int)
    (n : String) {a : DirAttrs} (hrm : a.rm = .removed) {lr : LoopRes}
    (hdisk : opts.dry_run = false → lr.threw = false → lr.currentDirEempty = true →
      lr.disk = []) :
    (finish opts q k n a lr).ret = some true ↔
      lr.threw = false ∧ lr.currentDirEempty = true ∧ opts.min_depth ≤ k := by
  cases hd : opts.dry_run with
  | true =>
    rw [finish_dry hd]
    split
    · simp_all
    · split <;> simp_all
  | false =>
    rw [finish_real hi hd q k n hrm (hdisk hd)]
    split
    · simp_all
    · split <;> simp_all

/-- Without prompts, when every request succeeds, a call at a depth within
`max_depth` returns `true` exactly when the tree holds directories only, the depth
is at least `min_depth` and the deepest level of the tree is within `max_depth`. -/
theorem closed_form {opts : Opt} (hi : opts.interactive = false) (t : Node) :
    t.allFine = true → ∀ q k s, k ≤ opts.max_depth →
      ((nukeEmptyRecursive opts q k s t).ret = some true ↔
        t.onlyDirs = true ∧ opts.min_depth ≤ k ∧ k + t.height ≤ opts.max_depth) := by
  refine Node.induct (P := fun t => t.allFine = true → ∀ q k s, k ≤ opts.max_depth →
      ((nukeEmptyRecursive opts q k s t).ret = some true ↔
        t.onlyDirs = true ∧ opts.min_depth ≤ k ∧ k + t.height ≤ opts.max_depth))
    (Q := fun cs => allFineList cs = true → ∀ q k s, k ≤ opts.max_depth →
      (scanEntries opts q k none s cs).threw = false ∧
      ((scanEntries opts q k none s cs).currentDirEempty = true ↔
        onlyDirsList cs = true ∧ k + levelsList cs ≤ opts.max_depth ∧
          (cs = [] ∨ opts.min_depth ≤ k + 1))) ?_ ?_ ?_ ?_ t
  · intro n _ q k s _
    rw [ret_not_dir (t := .file n) rfl]
    simp [Node.onlyDirs]
  · intro n a cs ih hfine q k s hk
    obtain ⟨⟨_, hp, hl, hrm⟩, _⟩ := allFine_dir.mp hfine
    rw [Node.allFine, Bool.and_eq_true] at hfine
    obtain ⟨h1, h2⟩ := ih hfine.2 q k s hk
    rw [nuke_ok hp, hl]
    simp only [afterLoop]
    rw [finish_ret_plain hi q k n hrm (fun hd => scan_disk_nil hd cs _ _), h2, Node.onlyDirs,
      Node.height]
    constructor
    · rintro ⟨_, ⟨h3, h4, _⟩, h5⟩
      exact ⟨h3, h5, h4⟩
    · rintro ⟨h3, h5, h4⟩
      exact ⟨h1, ⟨h3, h4, Or.inr (by omega)⟩, h5⟩
  · intro _ q k s hk
    simp [scanEntries_nil, onlyDirsList, levelsList, hk]
  · intro c rest ihc ihrest hfine q k s hk
    rw [allFineList, Bool.and_eq_true] at hfine
    have hc0 : c.isDir = true → c.typeCheckRaises = false ∧ c.probe = .ok := by
      intro hd
      cases c with
      | file n => simp [Node.isDir] at hd
      | dir n a cs0 =>
        have := (allFine_dir.mp hfine.1).1
        exact ⟨this.1, this.2.1⟩
    have hm1 := le_max_left (c.height + 1) (levelsList rest)
    have hm2 := le_max_right (c.height + 1) (levelsList rest)
    refine scanEntries_cons_cases (Q := fun r => r.threw = false ∧
      (r.currentDirEempty = true ↔
        onlyDirsList (c :: rest) = true ∧ k + levelsList (c :: rest) ≤ opts.max_depth ∧
          (c :: rest = [] ∨ opts.min_depth ≤ k + 1))) ?_ ?_ ?_ ?_
    · rintro (h | ⟨hd, ht⟩)
      · simp at h
      · rw [(hc0 hd).1] at ht; simp at ht
    · intro _ hskip
      refine ⟨(ihrest hfine.2 q k s hk).1, ?_⟩
      simp only [Bool.false_eq_true, false_iff, not_and]
      intro hod
      rw [onlyDirsList, Bool.and_eq_true] at hod
      have hcd := isDir_of_onlyDirs hod.1
      rcases hskip with h | ⟨_, h⟩
      · rw [hcd] at h; simp at h
      · intro hlev
        rw [levelsList, if_pos hcd] at hlev
        omega
    · intro _ hd _ _ hret
      rw [ret_eq_none_iff, (hc0 hd).2] at hret
      simp at hret
    · intro b _ hd _ hk1 hb
      obtain ⟨h1, h2⟩ := ihrest hfine.2 q k
        (nukeEmptyRecursive opts (q ++ [c.name]) (k + 1) s c).input hk
      have h3 := ihc hfine.1 (q ++ [c.name]) (k + 1) s hk1
      refine ⟨h1, ?_⟩
      simp only [Option.map_none', Bool.and_eq_true, h2, onlyDirsList, levelsList, if_pos hd]
      have hb' : b = true ↔ (nukeEmptyRecursive opts (q ++ [c.name]) (k + 1) s c).ret =
          some true := by rw [hb]; simp
      rw [hb', h3]
      constructor
      · rintro ⟨⟨h4, h5, h6⟩, h7, h8, _⟩
        exact ⟨⟨h4, h7⟩, by omega, Or.inr h5⟩
      · rintro ⟨⟨h4, h7⟩, h8, h9⟩
        have h5 : opts.min_depth ≤ k + 1 := by
          rcases h9 with h | h
          · simp at h
          · exact h
        exact ⟨⟨h4, h5, by omega⟩, h7, by omega, Or.inr h5⟩

/-- C17. In a run that is not interactive (a dry run or not) with
`0 ≤ min_depth ≤ max_depth`, on a tree with distinct names on which every
file-system request succeeds: for a directory `d` of the tree at depth `j` that is
visited, the call on `d` returns `true` if and only if the tree below `d` holds
directories only, `j ≥ min_depth` and `j + height d ≤ max_depth`. -/
theorem C17_closed_form (opts : Opt) (hi : opts.interactive = false)
    (hmin : 0 ≤ opts.min_depth) (hmax : opts.min_depth ≤ opts.max_depth) (root : Path)
    (input : List String) (t : Node) (ht : t.distinctNames = true)
    (hfine : t.allFine = true) {p : Path} {j : Int} {d : Node} (hat : At root 0 t p j d)
    (hvis : Event.call p j ∈ (nukeEmptyRecursive opts root 0 input t).trace) :
    (Event.ret p true ∈ (nukeEmptyRecursive opts root 0 input t).trace ↔
      d.onlyDirs = true ∧ opts.min_depth ≤ j ∧ j + d.height ≤ opts.max_depth) ∧
    (∀ s, (nukeEmptyRecursive opts p j s d).ret = some true ↔
      d.onlyDirs = true ∧ opts.min_depth ≤ j ∧ j + d.height ≤ opts.max_depth) := by
  have hj : j ≤ opts.max_depth := by
    have h1 := trace_depth opts t root 0 input _ hvis
    have h2 := hat.depth_eq
    rw [max_eq_right (hmin.trans hmax)] at h1
    simp only [Event.path] at h1
    omega
  have hcf := fun s => closed_form hi d (hat.allFine hfine) p j s hj
  refine ⟨?_, hcf⟩
  obtain ⟨s', hfil, _⟩ := located hat ht hvis (List.prefix_refl _)
  rw [← hcf s', ← ret_mem_trace]
  constructor
  · intro h
    rw [← hfil]
    exact List.mem_filter.mpr ⟨h, under_iff.mpr (List.prefix_refl _)⟩
  · intro h
    exact mem_of_filter_eq hfil h

/-- C17 on `root/{x/{y/}}` with the depths 0 to 2, for `x` at depth 1 with one
level below it. -/
theorem C17_closed_form_witness :
    (windowOpts 0 2).interactive = false ∧ 0 ≤ (windowOpts 0 2).min_depth ∧
    (windowOpts 0 2).min_depth ≤ (windowOpts 0 2).max_depth ∧
    nestedTree.distinctNames = true ∧ nestedTree.allFine = true ∧
    Event.call ["root", "x"] 1 ∈
      (nukeEmptyRecursive (windowOpts 0 2) ["root"] 0 [] nestedTree).trace ∧
    ((Event.ret ["root", "x"] true ∈
        (nukeEmptyRecursive (windowOpts 0 2) ["root"] 0 [] nestedTree).trace ↔
      (Node.dir "x" .fine [.dir "y" .fine []]).onlyDirs = true ∧
        (windowOpts 0 2).min_depth ≤ 1 ∧
        1 + ((Node.dir "x" .fine [.dir "y" .fine []]).height : Int) ≤
          (windowOpts 0 2).max_depth) ∧
    (∀ s, (nukeEmptyRecursive (windowOpts 0 2) ["root", "x"] 1 s
        (.dir "x" .fine [.dir "y" .fine []])).ret = some true ↔
      (Node.dir "x" .fine [.dir "y" .fine []]).onlyDirs = true ∧
        (windowOpts 0 2).min_depth ≤ 1 ∧
        1 + ((Node.dir "x" .fine [.dir "y" .fine []]).height : Int) ≤
          (windowOpts 0 2).max_depth)) :=
  ⟨rfl, by decide, by decide, by decide, by decide, by decide,
    C17_closed_form (windowOpts 0 2) rfl (by decide) (by decide) ["root"] [] nestedTree
      (by decide) (by decide)
      (At.down (c := .dir "x" .fine [.dir "y" .fine []]) (by simp) (At.here _ _ _))
      (by decide)⟩

/-! ## C18: a dry run bounds every run -/

/-- After loops of which the dry one is at least as empty, the lines after the
loop report in the dry run what they remove in the other run. -/
theorem finish_upper {dry real : Opt} (hdry : dry.dry_run = true)
    (hmin : dry.min_depth = real.min_depth) (q : Path) (k : Int) (n : String)
    (a : DirAttrs) {lr ld : LoopRes} (hthrew : lr.threw = ld.threw)
    (hempty : lr.threw = false → lr.currentDirEempty = true → ld.currentDirEempty = true) :
    ((finish real q k n a lr).ret = some true → (finish dry q k n a ld).ret = some true) ∧
    (∀ p, Event.remove p .removed ∈ (finish real q k n a lr).trace →
      Event.wouldDelete p ∈ (finish dry q k n a ld).trace) := by
  have key : (finish real q k n a lr).ret = some true →
      (finish dry q k n a ld).ret = some true ∧
        Event.wouldDelete q ∈ (finish dry q k n a ld).trace := by
    intro h
    obtain ⟨h1, h2, h3⟩ := finish_true h
    have h4 := hempty h1 h2
    rw [finish_dry hdry]
    simp [← hthrew, h1, h4, hmin, h3]
  refine ⟨fun h => (key h).1, fun p hp => ?_⟩
  have hq : p = q := finish_path _ hp
  subst hq
  exact (key (finish_elim hp rfl)).2

/-- A dry run and any other run with the same depth bounds go through the same
loops; what the other run eliminates, the dry run eliminates. -/
theorem dry_upper {dry real : Opt} (hdry : dry.dry_run = true)
    (hmin : dry.min_depth = real.min_depth) (hmax : dry.max_depth = real.max_depth)
    (t : Node) :
    ∀ q k s s',
      ((nukeEmptyRecursive real q k s t).ret = some true →
        (nukeEmptyRecursive dry q k s' t).ret = some true) ∧
      (∀ p, Event.remove p .removed ∈ (nukeEmptyRecursive real q k s t).trace →
        Event.wouldDelete p ∈ (nukeEmptyRecursive dry q k s' t).trace) := by
  refine Node.induct (P := fun t => ∀ q k s s',
      ((nukeEmptyRecursive real q k s t).ret = some true →
        (nukeEmptyRecursive dry q k s' t).ret = some true) ∧
      (∀ p, Event.remove p .removed ∈ (nukeEmptyRecursive real q k s t).trace →
        Event.wouldDelete p ∈ (nukeEmptyRecursive dry q k s' t).trace))
    (Q := fun cs => ∀ q k lim s s',
      (scanEntries real q k lim s cs).threw = (scanEntries dry q k lim s' cs).threw ∧
      ((scanEntries real q k lim s cs).threw = false →
        (scanEntries real q k lim s cs).currentDirEempty = true →
        (scanEntries dry q k lim s' cs).currentDirEempty = true) ∧
      (∀ p, Event.remove p .removed ∈ (scanEntries real q k lim s cs).trace →
        Event.wouldDelete p ∈ (scanEntries dry q k lim s' cs).trace)) ?_ ?_ ?_ ?_ t
  · intro n q k s s'
    rw [nuke_absent (t := .file n) rfl, nuke_absent (t := .file n) rfl]
    simp [notADir, logIf]
  · intro n a cs ih q k s s'
    cases hp : a.probe with
    | absent =>
      have h : (Node.dir n a cs).probe = .absent := hp
      rw [nuke_absent h, nuke_absent h]
      simp [notADir, logIf]
    | raises =>
      have h : (Node.dir n a cs).probe = .raises := hp
      rw [nuke_raises h, nuke_raises h]
      simp
    | ok =>
      obtain ⟨h1, h2, h3⟩ := ih q k a.listingRaisesAfter s s'
      obtain ⟨f1, f2⟩ := finish_upper hdry hmin q k n a h1 h2
      rw [nuke_ok hp, nuke_ok hp]
      refine ⟨f1, fun p hp' => ?_⟩
      simp only [afterLoop, List.mem_cons, List.mem_append] at hp' ⊢
      rcases hp' with h | h | h
      · simp at h
      · exact Or.inr (Or.inl (h3 p h))
      · exact Or.inr (Or.inr (f2 p h))
  · intro q k lim s s'
    simp [scanEntries_nil]
  · intro c rest ihc ihrest q k lim s s'
    rw [scanEntries, scanEntries]
    by_cases h0 : lim = some 0
    · simp [h0]
    · simp only [if_neg h0]
      by_cases hd : c.isDir = true
      · simp only [if_pos hd]
        by_cases htc : c.typeCheckRaises = true
        · simp [htc]
        · simp only [if_neg htc, hmax]
          by_cases hk : k + 1 ≤ real.max_depth
          · simp only [if_pos hk]
            obtain ⟨h1, h2⟩ := ihc (q ++ [c.name]) (k + 1) s s'
            have hnone : (nukeEmptyRecursive real (q ++ [c.name]) (k + 1) s c).ret = none ↔
                (nukeEmptyRecursive dry (q ++ [c.name]) (k + 1) s' c).ret = none := by
              rw [ret_eq_none_iff, ret_eq_none_iff]
            cases hr : (nukeEmptyRecursive real (q ++ [c.name]) (k + 1) s c).ret with
            | none =>
              rw [hnone.mp hr]
              exact ⟨rfl, fun h => by simp at h, h2⟩
            | some b =>
              cases hdr : (nukeEmptyRecursive dry (q ++ [c.name]) (k + 1) s' c).ret with
              | none => rw [hnone.mpr hdr] at hr; simp at hr
              | some b' =>
                obtain ⟨h4, h5, h6⟩ := ihrest q k (lim.map Nat.pred)
                  (nukeEmptyRecursive real (q ++ [c.name]) (k + 1) s c).input
                  (nukeEmptyRecursive dry (q ++ [c.name]) (k + 1) s' c).input
                refine ⟨h4, ?_, ?_⟩
                · intro hthrew hempty
                  simp only [Bool.and_eq_true] at hempty ⊢
                  refine ⟨?_, h5 hthrew hempty.2⟩
                  have := h1 (by rw [hr, hempty.1])
                  rw [hdr] at this
                  simpa using this
                · intro p hp
                  simp only [List.mem_append] at hp ⊢
                  rcases hp with h | h
                  · exact Or.inl (h2 p h)
                  · exact Or.inr (h6 p h)
          · simp only [if_neg hk]
            obtain ⟨h4, _, h6⟩ := ihrest q k (lim.map Nat.pred) s s'
            exact ⟨h4, fun _ h => by simp at h, h6⟩
      · simp only [if_neg hd]
        obtain ⟨h4, _, h6⟩ := ihrest q k (lim.map Nat.pred) s s'
        exact ⟨h4, fun _ h => by simp at h, h6⟩

/-- C18. For a dry run and any run that is no dry run, with the same `min_depth`
and `max_depth`, on the same tree, whatever the other options, the inputs (the
answers to the prompts) and the outcomes of the file-system requests (the
removals that fail): every directory the second run removes is reported as "would
delete" by the dry run, and a call that returns `true` in the second run returns
`true` in the dry run. -/
theorem C18_dry_run_is_upper_bound (dry real : Opt) (hdry : dry.dry_run = true)
    (hmin : dry.min_depth = real.min_depth) (hmax : dry.max_depth = real.max_depth)
    (root : Path) (s s' : List String) (t : Node) :
    (∀ p, Event.remove p .removed ∈ (nukeEmptyRecursive real root 0 s t).trace →
      Event.wouldDelete p ∈ (nukeEmptyRecursive dry root 0 s' t).trace) ∧
    ((nukeEmptyRecursive real root 0 s t).ret = some true →
      (nukeEmptyRecursive dry root 0 s' t).ret = some true) := by
  obtain ⟨h1, h2⟩ := dry_upper hdry hmin hmax t root 0 s s'
  exact ⟨h2, h1⟩

/-- C18 on `root/{a/, c/}` where `fs::remove` raises on `a`, against an
interactive run with the answer "y": the run removes `c` only, the dry run reports
`a`, `c` and `root`. -/
theorem C18_dry_run_is_upper_bound_witness :
    dryOpts.dry_run = true ∧ dryOpts.min_depth = interactiveOpts.min_depth ∧
    dryOpts.max_depth = interactiveOpts.max_depth ∧
    (nukeEmptyRecursive interactiveOpts ["root"] 0 ["y", "y"] stubbornTree).trace.filterMap
      Event.removedPath = [["root", "c"]] ∧
    (nukeEmptyRecursive dryOpts ["root"] 0 [] stubbornTree).trace.filterMap
      Event.wouldDeletePath = [["root", "a"], ["root", "c"], ["root"]] ∧
    ((∀ p, Event.remove p .removed ∈
        (nukeEmptyRecursive interactiveOpts ["root"] 0 ["y", "y"] stubbornTree).trace →
      Event.wouldDelete p ∈ (nukeEmptyRecursive dryOpts ["root"] 0 [] stubbornTree).trace) ∧
    ((nukeEmptyRecursive interactiveOpts ["root"] 0 ["y", "y"] stubbornTree).ret = some true →
      (nukeEmptyRecursive dryOpts ["root"] 0 [] stubbornTree).ret = some true)) :=
  ⟨rfl, rfl, rfl, by decide, by decide,
    C18_dry_run_is_upper_bound dryOpts interactiveOpts rfl rfl rfl ["root"] ["y", "y"] []
      stubbornTree⟩

/-! ## C19: `verbose` -/

theorem quiet_append (l l' : List Event) : quiet (l ++ l') = quiet l ++ quiet l' := by
  simp [quiet]

/-- What does not look at the lines written under `verbose` reads the same in the
log without them. -/
theorem filterMap_quiet {β : Type} (f : Event → Option β)
    (hf : ∀ e, e.verboseOnly = true → f e = none) (l : List Event) :
    (quiet l).filterMap f = l.filterMap f := by
  induction l with
  | nil => rfl
  | cons e l ih =>
    cases he : e.verboseOnly with
    | true =>
      have h1 : quiet (e :: l) = quiet l := by simp [quiet, he]
      rw [h1, ih, List.filterMap_cons, hf e he]
    | false =>
      have h1 : quiet (e :: l) = e :: quiet l := by simp [quiet, he]
      rw [h1, List.filterMap_cons, List.filterMap_cons, ih]

theorem filter_quiet (f : Event → Bool) (hf : ∀ e, e.verboseOnly = true → f e = false)
    (l : List Event) : (quiet l).filter f = l.filter f := by
  induction l with
  | nil => rfl
  | cons e l ih =>
    cases he : e.verboseOnly with
    | true =>
      have h1 : quiet (e :: l) = quiet l := by simp [quiet, he]
      rw [h1, ih, List.filter_cons, hf e he]
      simp
    | false =>
      have h1 : quiet (e :: l) = e :: quiet l := by simp [quiet, he]
      rw [h1, List.filter_cons, List.filter_cons, ih]

/-- The lines after the loop do the same under both values of `verbose`, the lines
written under `verbose` apart. -/
theorem finish_verbose {o o' : Opt} (hdry : o.dry_run = o'.dry_run)
    (hint : o.interactive = o'.interactive) (hmin : o.min_depth = o'.min_depth)
    (q : Path) (k : Int) (n : String) (a : DirAttrs) {lr lr' : LoopRes}
    (h1 : lr.currentDirEempty = lr'.currentDirEempty) (h2 : lr.threw = lr'.threw)
    (h3 : lr.input = lr'.input) (h4 : lr.disk = lr'.disk) :
    (finish o q k n a lr).ret = (finish o' q k n a lr').ret ∧
    (finish o q k n a lr).input = (finish o' q k n a lr').input ∧
    (finish o q k n a lr).node = (finish o' q k n a lr').node ∧
    quiet (finish o q k n a lr).trace = quiet (finish o' q k n a lr').trace := by
  unfold finish gate eliminate logIf quiet
  rw [h1, h2, h3, h4, hdry, hint, hmin]
  repeat' split
  all_goals simp_all [Event.verboseOnly]

/-- Two scans that differ in `verbose` only go the same way. -/
theorem verbose_lockstep {o o' : Opt} (hdry : o.dry_run = o'.dry_run)
    (hint : o.interactive = o'.interactive) (hmin : o.min_depth = o'.min_depth)
    (hmax : o.max_depth = o'.max_depth) (t : Node) :
    ∀ q k s,
      (nukeEmptyRecursive o q k s t).ret = (nukeEmptyRecursive o' q k s t).ret ∧
      (nukeEmptyRecursive o q k s t).input = (nukeEmptyRecursive o' q k s t).input ∧
      (nukeEmptyRecursive o q k s t).node = (nukeEmptyRecursive o' q k s t).node ∧
      quiet (nukeEmptyRecursive o q k s t).trace =
        quiet (nukeEmptyRecursive o' q k s t).trace := by
  refine Node.induct (P := fun t => ∀ q k s,
      (nukeEmptyRecursive o q k s t).ret = (nukeEmptyRecursive o' q k s t).ret ∧
      (nukeEmptyRecursive o q k s t).input = (nukeEmptyRecursive o' q k s t).input ∧
      (nukeEmptyRecursive o q k s t).node = (nukeEmptyRecursive o' q k s t).node ∧
      quiet (nukeEmptyRecursive o q k s t).trace =
        quiet (nukeEmptyRecursive o' q k s t).trace)
    (Q := fun cs => ∀ q k lim s,
      (scanEntries o q k lim s cs).currentDirEempty =
        (scanEntries o' q k lim s cs).currentDirEempty ∧
      (scanEntries o q k lim s cs).threw = (scanEntries o' q k lim s cs).threw ∧
      (scanEntries o q k lim s cs).input = (scanEntries o' q k lim s cs).input ∧
      (scanEntries o q k lim s cs).disk = (scanEntries o' q k lim s cs).disk ∧
      quiet (scanEntries o q k lim s cs).trace = quiet (scanEntries o' q k lim s cs).trace)
    ?_ ?_ ?_ ?_ t
  · intro n q k s
    rw [nuke_absent (t := .file n) rfl, nuke_absent (t := .file n) rfl]
    unfold notADir logIf quiet
    refine ⟨rfl, rfl, rfl, ?_⟩
    split <;> split <;> simp [Event.verboseOnly]
  · intro n a cs ih q k s
    cases hp : a.probe with
    | absent =>
      have h : (Node.dir n a cs).probe = .absent := hp
      rw [nuke_absent h, nuke_absent h]
      unfold notADir logIf quiet
      refine ⟨rfl, rfl, rfl, ?_⟩
      split <;> split <;> simp [Event.verboseOnly]
    | raises =>
      have h : (Node.dir n a cs).probe = .raises := hp
      rw [nuke_raises h, nuke_raises h]
      exact ⟨rfl, rfl, rfl, rfl⟩
    | ok =>
      obtain ⟨h1, h2, h3, h4, h5⟩ := ih q k a.listingRaisesAfter s
      obtain ⟨f1, f2, f3, f4⟩ := finish_verbose hdry hint hmin q k n a h1 h2 h3 h4
      rw [nuke_ok hp, nuke_ok hp]
      refine ⟨f1, f2, f3, ?_⟩
      simp only [afterLoop]
      have hc : ∀ l, quiet (Event.call q k :: l) = Event.call q k :: quiet l := by
        intro l; simp [quiet, Event.verboseOnly]
      rw [hc, hc, quiet_append, quiet_append, h5, f4]
  · intro q k lim s
    simp [scanEntries_nil]
  · intro c rest ihc ihrest q k lim s
    rw [scanEntries, scanEntries]
    by_cases h0 : lim = some 0
    · simp [h0]
    · simp only [if_neg h0]
      by_cases hd : c.isDir = true
      · simp only [if_pos hd]
        by_cases htc : c.typeCheckRaises = true
        · simp [htc]
        · simp only [if_neg htc, hmax]
          by_cases hk : k + 1 ≤ o'.max_depth
          · simp only [if_pos hk]
            obtain ⟨c1, c2, c3, c4⟩ := ihc (q ++ [c.name]) (k + 1) s
            rw [c1]
            cases hr : (nukeEmptyRecursive o' (q ++ [c.name]) (k + 1) s c).ret with
            | none => exact ⟨rfl, rfl, c2, by rw [c3], c4⟩
            | some b =>
              simp only [c2]
              obtain ⟨r1, r2, r3, r4, r5⟩ := ihrest q k (lim.map Nat.pred)
                (nukeEmptyRecursive o' (q ++ [c.name]) (k + 1) s c).input
              refine ⟨by rw [r1], r2, r3, by rw [c3, r4], ?_⟩
              rw [quiet_append, quiet_append, c4, r5]
          · simp only [if_neg hk]
            obtain ⟨r1, r2, r3, r4, r5⟩ := ihrest q k (lim.map Nat.pred) s
            exact ⟨trivial, r2, r3, by rw [r4], r5⟩
      · simp only [if_neg hd]
        obtain ⟨r1, r2, r3, r4, r5⟩ := ihrest q k (lim.map Nat.pred) s
        exact ⟨trivial, r2, r3, by rw [r4], r5⟩

/-- C19. Two scans of the same tree, with the same input (the answers to the
prompts) and the same outcomes of the file-system requests, whose options differ
in `verbose` only: the logs of the two scans are equal once the lines written only
under `verbose` are left out.  So the scans remove the same directories, make the
same calls with the same returned values in the same order, issue the same prompts
with the same answers, and the top call returns the same value, consumes the same
input and leaves the same tree on disk. -/
theorem C19_verbose_only_logs (o o' : Opt) (hdry : o.dry_run = o'.dry_run)
    (hint : o.interactive = o'.interactive) (hmin : o.min_depth = o'.min_depth)
    (hmax : o.max_depth = o'.max_depth) (root : Path) (s : List String) (t : Node) :
    quiet (nukeEmptyRecursive o root 0 s t).trace =
      quiet (nukeEmptyRecursive o' root 0 s t).trace ∧
    (nukeEmptyRecursive o root 0 s t).trace.filterMap Event.removedPath =
      (nukeEmptyRecursive o' root 0 s t).trace.filterMap Event.removedPath ∧
    (nukeEmptyRecursive o root 0 s t).trace.filterMap Event.flow =
      (nukeEmptyRecursive o' root 0 s t).trace.filterMap Event.flow ∧
    (nukeEmptyRecursive o root 0 s t).trace.filter Event.isPrompt =
      (nukeEmptyRecursive o' root 0 s t).trace.filter Event.isPrompt ∧
    (nukeEmptyRecursive o root 0 s t).trace.filter Event.isRemove =
      (nukeEmptyRecursive o' root 0 s t).trace.filter Event.isRemove ∧
    (nukeEmptyRecursive o root 0 s t).ret = (nukeEmptyRecursive o' root 0 s t).ret ∧
    (nukeEmptyRecursive o root 0 s t).input = (nukeEmptyRecursive o' root 0 s t).input ∧
    (nukeEmptyRecursive o root 0 s t).node = (nukeEmptyRecursive o' root 0 s t).node := by
  obtain ⟨h1, h2, h3, h4⟩ := verbose_lockstep hdry hint hmin hmax t root 0 s
  have e1 := filterMap_quiet Event.removedPath
    (fun e he => by cases e <;> simp_all [Event.verboseOnly, Event.removedPath])
  have e2 := filterMap_quiet Event.flow
    (fun e he => by cases e <;> simp_all [Event.verboseOnly, Event.flow])
  have e3 := filter_quiet Event.isPrompt
    (fun e he => by cases e <;> simp_all [Event.verboseOnly, Event.isPrompt])
  have e4 := filter_quiet Event.isRemove
    (fun e he => by cases e <;> simp_all [Event.verboseOnly, Event.isRemove])
  refine ⟨h4, ?_, ?_, ?_, ?_, h1, h2, h3⟩
  · rw [← e1, h4, e1]
  · rw [← e2, h4, e2]
  · rw [← e3, h4, e3]
  · rw [← e4, h4, e4]

/-- C19 on `root/{a/, c/}` where `fs::remove` raises on `a`, with the answers "n"
and "y", against the same scan with `verbose`: only `c` is removed in both. -/
theorem C19_verbose_only_logs_witness :
    interactiveOpts.dry_run = verboseInteractiveOpts.dry_run ∧
    interactiveOpts.interactive = verboseInteractiveOpts.interactive ∧
    interactiveOpts.min_depth = verboseInteractiveOpts.min_depth ∧
    interactiveOpts.max_depth = verboseInteractiveOpts.max_depth ∧
    (nukeEmptyRecursive interactiveOpts ["root"] 0 ["n", "y"] stubbornTree).trace ≠
      (nukeEmptyRecursive verboseInteractiveOpts ["root"] 0 ["n", "y"] stubbornTree).trace ∧
    (nukeEmptyRecursive verboseInteractiveOpts ["root"] 0 ["n", "y"]
      stubbornTree).trace.filterMap Event.removedPath = [["root", "c"]] ∧
    (quiet (nukeEmptyRecursive interactiveOpts ["root"] 0 ["n", "y"] stubbornTree).trace =
      quiet (nukeEmptyRecursive verboseInteractiveOpts ["root"] 0 ["n", "y"]
        stubbornTree).trace ∧
    (nukeEmptyRecursive interactiveOpts ["root"] 0 ["n", "y"] stubbornTree).trace.filterMap
        Event.removedPath =
      (nukeEmptyRecursive verboseInteractiveOpts ["root"] 0 ["n", "y"]
        stubbornTree).trace.filterMap Event.removedPath ∧
    (nukeEmptyRecursive interactiveOpts ["root"] 0 ["n", "y"] stubbornTree).trace.filterMap
        Event.flow =
      (nukeEmptyRecursive verboseInteractiveOpts ["root"] 0 ["n", "y"]
        stubbornTree).trace.filterMap Event.flow ∧
    (nukeEmptyRecursive interactiveOpts ["root"] 0 ["n", "y"] stubbornTree).trace.filter
        Event.isPrompt =
      (nukeEmptyRecursive verboseInteractiveOpts ["root"] 0 ["n", "y"]
        stubbornTree).trace.filter Event.isPrompt ∧
    (nukeEmptyRecursive interactiveOpts ["root"] 0 ["n", "y"] stubbornTree).trace.filter
        Event.isRemove =
      (nukeEmptyRecursive verboseInteractiveOpts ["root"] 0 ["n", "y"]
        stubbornTree).trace.filter Event.isRemove ∧
    (nukeEmptyRecursive interactiveOpts ["root"] 0 ["n", "y"] stubbornTree).ret =
      (nukeEmptyRecursive verboseInteractiveOpts ["root"] 0 ["n", "y"] stubbornTree).ret ∧
    (nukeEmptyRecursive interactiveOpts ["root"] 0 ["n", "y"] stubbornTree).input =
      (nukeEmptyRecursive verboseInteractiveOpts ["root"] 0 ["n", "y"] stubbornTree).input ∧
    (nukeEmptyRecursive interactiveOpts ["root"] 0 ["n", "y"] stubbornTree).node =
      (nukeEmptyRecursive verboseInteractiveOpts ["root"] 0 ["n", "y"] stubbornTree).node) :=
  ⟨rfl, rfl, rfl, rfl, by decide, by decide,
    C19_verbose_only_logs interactiveOpts verboseInteractiveOpts rfl rfl rfl rfl ["root"]
      ["n", "y"] stubbornTree⟩

end EmptyFolderNuker
